import Mathlib

/-!
# Verification of the Huffman file-compression core (`src/util.h`)

Shallow embedding of the compression program: the frequency-map builder,
the Huffman tree builder, the encoding-map builder, the bit-level encoder
and decoder, and the `compress`/`decompress` drivers.

Modelling conventions:
* a symbol is a `Nat` (byte values `0‥255`, plus the two reserved values);
* the external hash-map container (`hashmapF`, `hashmapE`) is modelled as an
  association list with unique keys, kept in insertion order;
* C++ `std::priority_queue` with the source's `compare` functor (a min-heap
  on `count`) is modelled as a list kept sorted by ascending `count`;
* a bit stream is a `List Bool` (`false` = bit 0, `true` = bit 1);
* undefined behaviour (null-pointer dereference, `top()` of an empty queue)
  and thrown exceptions (`unordered_map::at` on a missing key) are modelled
  as `none`.
-/

namespace HuffmanCpp

/-- Modelled from the spec: the reserved sentinel symbol `PSEUDO_EOF` marking
logical end-of-stream.  Its definition lives in the external bit-stream
library, not in `src/`; the spec places it outside the real symbol
range `0‥255`. -/
def PSEUDO_EOF : Nat := 256

/-- Modelled from the spec: the reserved `NOT_A_CHAR` value marking that a
tree node is not a leaf.  Its definition lives in the external bit-stream
library, not in `src/`; the spec requires it distinct from every real symbol
and from the sentinel. -/
def NOT_A_CHAR : Nat := 257

/-- Modelled from the spec: the external key/value container `hashmapF`
("mapping from symbol to count, enumerable, lookup by key").  An association
list with unique keys in insertion order. -/
abbrev hashmapF : Type := List (Nat × Nat)

/-- Modelled from the spec: `hashmapF::containsKey`. -/
def containsKey (m : hashmapF) (k : Nat) : Bool :=
  (List.any m (fun p => p.1 == k))

/-- Modelled from the spec: `hashmapF::get` (only ever called on present keys;
`0` stands for the unspecified result on an absent key). -/
def hmGet (m : hashmapF) (k : Nat) : Nat :=
  (Option.map Prod.snd (List.find? (fun p => p.1 == k) m)).getD 0

/-- Modelled from the spec: `hashmapF::put`, replacing the value of a present
key in place and appending an absent key. -/
def hmPut (m : hashmapF) (k v : Nat) : hashmapF :=
  if containsKey m k then
    List.map (fun p => if p.1 == k then (k, v) else p) m
  else
    m ++ [(k, v)]

/-- Modelled from the spec: `hashmapF::keys`, the keys in insertion order. -/
def hmKeys (m : hashmapF) : List Nat :=
  List.map Prod.fst m

/-- `struct HuffmanNode` from `src/util.h` (lines 20–25): `character`,
`count`, and the two child pointers `zero`/`one` (`none` = null). -/
inductive HuffmanNode : Type where
  | mk (character : Nat) (count : Nat)
       (zero : Option HuffmanNode) (one : Option HuffmanNode)

/-- Field accessor for `HuffmanNode::character`. -/
def HuffmanNode.character : HuffmanNode → Nat
  | .mk c _ _ _ => c

/-- Field accessor for `HuffmanNode::count`. -/
def HuffmanNode.count : HuffmanNode → Nat
  | .mk _ w _ _ => w

/-- Field accessor for `HuffmanNode::zero`. -/
def HuffmanNode.zero : HuffmanNode → Option HuffmanNode
  | .mk _ _ z _ => z

/-- Field accessor for `HuffmanNode::one`. -/
def HuffmanNode.one : HuffmanNode → Option HuffmanNode
  | .mk _ _ _ o => o

/-- `struct compare` from `src/util.h` (lines 27–34):
`lhs->count > rhs->count`.  As the comparison functor of
`std::priority_queue` this yields a min-heap on `count`. -/
def compare (lhs rhs : HuffmanNode) : Bool :=
  lhs.count > rhs.count

/-- The priority queue of `buildEncodingTree`, modelled as a list kept sorted
by ascending `count` (the min-heap induced by `compare`); a pushed node goes
after every node of smaller-or-equal count, so the extraction order among
equal counts is first-in-first-out. -/
def pqPush (n : HuffmanNode) : List HuffmanNode → List HuffmanNode
  | [] => [n]
  | m :: rest => if n.count < m.count then n :: m :: rest else m :: pqPush n rest

/-- The per-symbol loop body of `buildFrequencyMap` (`src/util.h` lines
67–75 and 78–86): increment a present key, insert an absent key with 1. -/
def buildFrequencyMapLoop : List Nat → hashmapF → hashmapF
  | [], m => m
  | c :: rest, m =>
      buildFrequencyMapLoop rest
        (if containsKey m c then hmPut m c (hmGet m c + 1) else hmPut m c 1)

/-- `buildFrequencyMap` from `src/util.h` (lines 61–89).  When `isFile` is
true the symbols come from the file contents, otherwise from the characters
of the filename string; afterwards `map.put(PSEUDO_EOF, 1)` stores the
sentinel. -/
def buildFrequencyMap (filename : List Nat) (isFile : Bool)
    (fileContents : List Nat) (map : hashmapF) : hashmapF :=
  hmPut (buildFrequencyMapLoop (if isFile then fileContents else filename) map)
    PSEUDO_EOF 1

/-- The leaf-creation loop of `buildEncodingTree` (`src/util.h` lines
98–106): one leaf per key, pushed into the priority queue. -/
def pushLeaves (allChars : List Nat) (map : hashmapF)
    (pq : List HuffmanNode) : List HuffmanNode :=
  match allChars with
  | [] => pq
  | key :: rest =>
      pushLeaves rest map
        (pqPush (HuffmanNode.mk key (hmGet map key) none none) pq)

/-- The merge loop of `buildEncodingTree` (`src/util.h` lines 108–124):
while more than one node remains, pop the two lowest-count nodes and push
their `NOT_A_CHAR` parent.  (The source's `pq.top() != nullptr` test is
always true: every pushed pointer comes from `new`.)  `pq.top()` of an
empty queue is undefined behaviour, modelled as `none`. -/
def mergeLoop : List HuffmanNode → Option HuffmanNode
  | [] => none
  | [t] => some t
  | firstNode :: secondNode :: rest =>
      mergeLoop
        (pqPush
          (HuffmanNode.mk NOT_A_CHAR (firstNode.count + secondNode.count)
            (some firstNode) (some secondNode))
          rest)
termination_by pq => pq.length
decreasing_by
  have h : ∀ (l : List HuffmanNode) (n : HuffmanNode),
      (pqPush n l).length = l.length + 1 := by
    intro l
    induction l with
    | nil => intro n; rfl
    | cons x xs ih =>
        intro n
        simp only [pqPush]
        split
        · simp
        · simp [ih]
  simp [h]

/-- `buildEncodingTree` from `src/util.h` (lines 94–126). -/
def buildEncodingTree (map : hashmapF) : Option HuffmanNode :=
  mergeLoop (pushLeaves (hmKeys map) map [])

/-- Modelled from the spec: the external container `hashmapE`
(`unordered_map<int, string>`), an association list with unique keys in
insertion order.  A code string is a `List Bool`. -/
abbrev hashmapE : Type := List (Nat × List Bool)

/-- Modelled from the spec: `unordered_map::emplace`, inserting only when the
key is absent. -/
def emplace (em : hashmapE) (k : Nat) (v : List Bool) : hashmapE :=
  if List.any em (fun p => p.1 == k) then em else em ++ [(k, v)]

/-- Modelled from the spec: `unordered_map::at`; a missing key throws
`std::out_of_range`, modelled as `none`. -/
def emAt (em : hashmapE) (k : Nat) : Option (List Bool) :=
  Option.map Prod.snd (List.find? (fun p => p.1 == k) em)

/-- `_buildEncodingMap` from `src/util.h` (lines 131–140): depth-first
accumulation of the root-to-leaf path; `emplace` at every node whose
`character` differs from `NOT_A_CHAR`.  A null child of an internal node
would be dereferenced on the recursive call, modelled as `none`. -/
def buildEncodingMapAux : HuffmanNode → hashmapE → List Bool → Option hashmapE
  | .mk c _ none none, encodingMap, str =>
      if c ≠ NOT_A_CHAR then some (emplace encodingMap c str) else none
  | .mk c _ (some zn) (some onode), encodingMap, str =>
      if c ≠ NOT_A_CHAR then some (emplace encodingMap c str)
      else
        match buildEncodingMapAux zn encodingMap (str ++ [false]) with
        | none => none
        | some em1 => buildEncodingMapAux onode em1 (str ++ [true])
  | .mk c _ (some zn) none, encodingMap, str =>
      if c ≠ NOT_A_CHAR then some (emplace encodingMap c str)
      else
        match buildEncodingMapAux zn encodingMap (str ++ [false]) with
        | none => none
        | some _ => none
  | .mk c _ none (some _), encodingMap, str =>
      if c ≠ NOT_A_CHAR then some (emplace encodingMap c str) else none

/-- `buildEncodingMap` from `src/util.h` (lines 145–149). -/
def buildEncodingMap (tree : HuffmanNode) : Option hashmapE :=
  buildEncodingMapAux tree [] []

/-- The per-symbol loop of `encode` (`src/util.h` lines 163–185): look up
each input symbol's code with `at`, write its bits and count them, then do
the same for the sentinel's code.  The returned pair is the concatenated
bit string (`buildString`, which is also exactly the sequence of bits
written to the sink) and the final `size`. -/
def encodeLoop : List Nat → hashmapE → List Bool → Nat →
    Option (List Bool × Nat)
  | [], encodingMap, acc, size =>
      match emAt encodingMap PSEUDO_EOF with
      | none => none
      | some eof => some (acc ++ eof, size + eof.length)
  | cur :: rest, encodingMap, acc, size =>
      match emAt encodingMap cur with
      | none => none
      | some code => encodeLoop rest encodingMap (acc ++ code) (size + code.length)

/-- `encode` from `src/util.h` (lines 158–188).  With `makeFile` false the
body is skipped and the empty string is returned with `size` untouched. -/
def encode (input : List Nat) (encodingMap : hashmapE) (size : Nat)
    (makeFile : Bool) : Option (List Bool × Nat) :=
  if makeFile then encodeLoop input encodingMap [] size
  else some ([], size)

/-- The loop of `decode` (`src/util.h` lines 200–215), one recursive step
per loop iteration.  The bit source's `eof()` is modelled (from the spec of
the external bit source) as "no bits remain".  Each iteration: exit on eof;
break on the sentinel leaf; emit and reset to the root on a real leaf; then
read one bit and descend.  Dereferencing a null `curNode` is `none`. -/
def decodeLoop (encodingTree : HuffmanNode) :
    List Bool → Option HuffmanNode → Option (List Nat)
  | [], _ => some []
  | _ :: _, none => none
  | b :: bs, some curNode =>
      if curNode.character = PSEUDO_EOF then some []
      else if curNode.character ≠ NOT_A_CHAR then
        Option.map (fun out => curNode.character :: out)
          (decodeLoop encodingTree bs
            (if b then encodingTree.one else encodingTree.zero))
      else
        decodeLoop encodingTree bs (if b then curNode.one else curNode.zero)

/-- `decode` from `src/util.h` (lines 196–218): run the loop from the root;
the returned symbol list is both `buildString` and the bytes written to the
output stream. -/
def decode (input : List Bool) (encodingTree : HuffmanNode) :
    Option (List Nat) :=
  decodeLoop encodingTree input (some encodingTree)

/-- `compress` from `src/util.h` (lines 227–251).  The file system is
abstracted as `fileContents`: `some s` when `filename` names an openable
file with symbol sequence `s`, `none` otherwise (then `isFile` is false and
the later read pass produces no symbols).  The result carries the persisted
header (the frequency map written by `output << map`), the returned bit
string, and the final `size`. -/
def compress (filename : List Nat) (fileContents : Option (List Nat)) :
    Option (hashmapF × List Bool × Nat) :=
  let isFile : Bool := fileContents.isSome
  let map : hashmapF := buildFrequencyMap filename isFile (fileContents.getD []) []
  match buildEncodingTree map with
  | none => none
  | some root =>
      match buildEncodingMap root with
      | none => none
      | some encodingMap =>
          match encode (fileContents.getD []) encodingMap 0 true with
          | none => none
          | some (encodedMessage, size) => some (map, encodedMessage, size)

/-- `decompress` from `src/util.h` (lines 263–287), minus the output-file
naming (external).  The persisted frequency map read back by
`input >> frequencyMap` round-trips losslessly (spec §6), so it is passed
directly; `payload` is the bit stream that follows the header. -/
def decompress (frequencyMap : hashmapF) (payload : List Bool) :
    Option (List Nat) :=
  match buildEncodingTree frequencyMap with
  | none => none
  | some root => decode payload root

/-! ## Derived structural notions used in the statements -/

/-- A full binary Huffman tree: every node is either a leaf whose `character`
differs from `NOT_A_CHAR` with both children absent, or an internal node
whose `character` equals `NOT_A_CHAR` with both children present. -/
def fullTree : HuffmanNode → Bool
  | .mk c _ none none => c != NOT_A_CHAR
  | .mk c _ (some z) (some o) => c == NOT_A_CHAR && fullTree z && fullTree o
  | .mk _ _ (some _) none => false
  | .mk _ _ none (some _) => false

/-- The symbols at the leaves, left to right. -/
def leafChars : HuffmanNode → List Nat
  | .mk c _ none none => [c]
  | .mk _ _ (some z) (some o) => leafChars z ++ leafChars o
  | .mk _ _ (some _) none => []
  | .mk _ _ none (some _) => []

/-- Every node of a tree (the node itself and all descendants). -/
def nodesOf : HuffmanNode → List HuffmanNode
  | .mk c w none none => [.mk c w none none]
  | .mk c w (some z) (some o) =>
      .mk c w (some z) (some o) :: (nodesOf z ++ nodesOf o)
  | .mk c w (some z) none => .mk c w (some z) none :: nodesOf z
  | .mk c w none (some o) => .mk c w none (some o) :: nodesOf o

/-- The depth of the leaf carrying symbol `a` (0 when `a` is absent). -/
def depthN : HuffmanNode → Nat → Nat
  | .mk _ _ (some z) (some o), a =>
      if a ∈ leafChars z then depthN z a + 1
      else if a ∈ leafChars o then depthN o a + 1
      else 0
  | .mk _ _ none none, _ => 0
  | .mk _ _ (some _) none, _ => 0
  | .mk _ _ none (some _), _ => 0

/-- The root-to-leaf bit paths of a tree, one entry per leaf, left to
right (`false` = the `zero` child, `true` = the `one` child). -/
def codes : HuffmanNode → List (Nat × List Bool)
  | .mk c _ none none => [(c, [])]
  | .mk _ _ (some z) (some o) =>
      List.map (fun e => (e.1, false :: e.2)) (codes z) ++
      List.map (fun e => (e.1, true :: e.2)) (codes o)
  | .mk _ _ (some _) none => []
  | .mk _ _ none (some _) => []

/-- Sum of all counts stored in a frequency map. -/
def hmValuesSum (m : hashmapF) : Nat :=
  (List.map Prod.snd m).sum

/-- The weighted path length of a tree with respect to a frequency map:
sum over the map's entries of count times the symbol's depth. -/
def wpl (m : hashmapF) (t : HuffmanNode) : Nat :=
  (List.map (fun p => p.2 * depthN t p.1) m).sum

/-! ## Lemmas about the external containers -/

theorem containsKey_iff (m : hashmapF) (k : Nat) :
    containsKey m k = true ↔ k ∈ hmKeys m := by
  unfold containsKey hmKeys
  induction m with
  | nil => simp
  | cons p rest ih =>
      simp only [List.any_cons, List.map_cons, List.mem_cons, Bool.or_eq_true,
        beq_iff_eq, ih]
      constructor
      · rintro (h | h)
        · exact Or.inl h.symm
        · exact Or.inr h
      · rintro (h | h)
        · exact Or.inl h.symm
        · exact Or.inr h

theorem put_map_keys (m : hashmapF) (k v : Nat) :
    List.map Prod.fst (List.map (fun p => if p.1 == k then (k, v) else p) m) =
      List.map Prod.fst m := by
  induction m with
  | nil => rfl
  | cons p rest ih =>
      simp only [List.map_cons, ih]
      by_cases hp : p.1 = k
      · simp [hp]
      · simp [hp]

theorem put_map_find_ne (m : hashmapF) (k v k2 : Nat) (h : k2 ≠ k) :
    List.find? (fun q => q.1 == k2)
        (List.map (fun p => if p.1 == k then (k, v) else p) m) =
      List.find? (fun q => q.1 == k2) m := by
  induction m with
  | nil => rfl
  | cons p rest ih =>
      rw [List.map_cons]
      by_cases hp : p.1 = k
      · have hne : ¬ p.1 = k2 := by rw [hp]; exact Ne.symm h
        rw [if_pos (by simp [hp])]
        rw [List.find?_cons_of_neg _ (by simp [Ne.symm h]),
          List.find?_cons_of_neg _ (by simp [hne])]
        exact ih
      · rw [if_neg (by simp [hp])]
        by_cases hp2 : p.1 = k2
        · rw [List.find?_cons_of_pos _ (by simp [hp2]),
            List.find?_cons_of_pos _ (by simp [hp2])]
        · rw [List.find?_cons_of_neg _ (by simp [hp2]),
            List.find?_cons_of_neg _ (by simp [hp2])]
          exact ih

theorem hmKeys_put_mem (m : hashmapF) (k v : Nat) (h : k ∈ hmKeys m) :
    hmKeys (hmPut m k v) = hmKeys m := by
  unfold hmPut
  rw [if_pos ((containsKey_iff m k).2 h)]
  exact put_map_keys m k v

theorem hmKeys_put_new (m : hashmapF) (k v : Nat) (h : k ∉ hmKeys m) :
    hmKeys (hmPut m k v) = hmKeys m ++ [k] := by
  unfold hmPut
  rw [if_neg (by simp [containsKey_iff, h])]
  unfold hmKeys
  simp

theorem hmGet_put_same (m : hashmapF) (k v : Nat) :
    hmGet (hmPut m k v) k = v := by
  unfold hmGet hmPut
  by_cases h : containsKey m k = true
  · rw [if_pos h]
    rw [containsKey_iff] at h
    induction m with
    | nil => simp [hmKeys] at h
    | cons p rest ih =>
        rw [List.map_cons]
        by_cases hp : p.1 = k
        · rw [if_pos (by simp [hp])]
          rw [List.find?_cons_of_pos _ (by simp)]
          simp
        · rw [if_neg (by simp [hp])]
          rw [List.find?_cons_of_neg _ (by simp [hp])]
          refine ih ?_
          rcases (by simpa [hmKeys] using h : k = p.1 ∨ k ∈ hmKeys rest) with h1 | h1
          · exact absurd h1.symm hp
          · exact h1
  · rw [if_neg h]
    rw [List.find?_append]
    have hnone : List.find? (fun q => q.1 == k) m = none := by
      rw [List.find?_eq_none]
      intro p hp
      intro hc
      apply h
      rw [containsKey_iff]
      unfold hmKeys
      exact List.mem_map.2 ⟨p, hp, by simpa using hc⟩
    rw [hnone]
    simp

theorem hmGet_put_other (m : hashmapF) (k v k2 : Nat) (h : k2 ≠ k) :
    hmGet (hmPut m k v) k2 = hmGet m k2 := by
  unfold hmGet hmPut
  by_cases hc : containsKey m k = true
  · rw [if_pos hc, put_map_find_ne m k v k2 h]
  · rw [if_neg hc]
    rw [List.find?_append]
    have : List.find? (fun q => q.1 == k2) [(k, v)] = none := by
      simp [Ne.symm h]
    rw [this]
    simp

theorem hmGet_of_not_contains (m : hashmapF) (k : Nat)
    (h : ¬ containsKey m k = true) : hmGet m k = 0 := by
  unfold hmGet
  have hnone : List.find? (fun q => q.1 == k) m = none := by
    rw [List.find?_eq_none]
    intro p hp hc
    exact h (by unfold containsKey; exact List.any_eq_true.2 ⟨p, hp, hc⟩)
  rw [hnone]
  rfl

theorem mem_hmKeys_put (m : hashmapF) (k v k2 : Nat) :
    k2 ∈ hmKeys (hmPut m k v) ↔ k2 ∈ hmKeys m ∨ k2 = k := by
  by_cases h : k ∈ hmKeys m
  · rw [hmKeys_put_mem m k v h]
    constructor
    · exact Or.inl
    · rintro (h2 | h2)
      · exact h2
      · rw [h2]; exact h
  · rw [hmKeys_put_new m k v h]
    simp

theorem hmKeys_put_nodup (m : hashmapF) (k v : Nat)
    (h : (hmKeys m).Nodup) : (hmKeys (hmPut m k v)).Nodup := by
  by_cases hm : k ∈ hmKeys m
  · rw [hmKeys_put_mem m k v hm]; exact h
  · rw [hmKeys_put_new m k v hm]
    simpa [List.nodup_append] using ⟨h, hm⟩

theorem put_map_id (m : hashmapF) (k v : Nat) (h : k ∉ hmKeys m) :
    List.map (fun p => if p.1 == k then (k, v) else p) m = m := by
  induction m with
  | nil => rfl
  | cons p rest ih =>
      have hp : ¬ p.1 = k := fun hc => h (by simp [hmKeys, hc])
      rw [List.map_cons, if_neg (by simp [hp]),
        ih (fun hc => h (by simp [hmKeys] at hc ⊢; exact Or.inr hc))]

/-- One step of the `buildFrequencyMap` loop body: both branches add exactly
one to the stepped symbol's count and leave the others unchanged. -/
theorem freqStep_get (m : hashmapF) (c k : Nat) :
    hmGet (if containsKey m c then hmPut m c (hmGet m c + 1) else hmPut m c 1) k
      = hmGet m k + (if k = c then 1 else 0) := by
  by_cases hc : containsKey m c = true
  · rw [if_pos hc]
    by_cases hk : k = c
    · rw [hk, hmGet_put_same, if_pos rfl]
    · rw [hmGet_put_other m c _ k hk, if_neg hk]
      exact (Nat.add_zero _).symm
  · rw [if_neg hc]
    by_cases hk : k = c
    · rw [hk, hmGet_put_same, if_pos rfl, hmGet_of_not_contains m c hc]
    · rw [hmGet_put_other m c _ k hk, if_neg hk]
      exact (Nat.add_zero _).symm

theorem freqLoop_get (S : List Nat) (m : hashmapF) (k : Nat) :
    hmGet (buildFrequencyMapLoop S m) k = hmGet m k + S.count k := by
  induction S generalizing m with
  | nil => simp [buildFrequencyMapLoop]
  | cons c rest ih =>
      rw [buildFrequencyMapLoop, ih, freqStep_get]
      rw [List.count_cons]
      by_cases hk : k = c
      · simp [hk]
        omega
      · simp [hk, Ne.symm hk]

theorem freqLoop_mem_keys (S : List Nat) (m : hashmapF) (k : Nat) :
    k ∈ hmKeys (buildFrequencyMapLoop S m) ↔ k ∈ hmKeys m ∨ k ∈ S := by
  induction S generalizing m with
  | nil => simp [buildFrequencyMapLoop]
  | cons c rest ih =>
      rw [buildFrequencyMapLoop, ih]
      by_cases hc : containsKey m c = true
      · rw [if_pos hc, mem_hmKeys_put]
        constructor
        · rintro ((h | h) | h)
          · exact Or.inl h
          · rw [h]; exact Or.inr (List.mem_cons_self c rest)
          · exact Or.inr (List.mem_cons_of_mem c h)
        · rintro (h | h)
          · exact Or.inl (Or.inl h)
          · rcases List.mem_cons.1 h with h2 | h2
            · exact Or.inl (Or.inr h2)
            · exact Or.inr h2
      · rw [if_neg hc, mem_hmKeys_put]
        constructor
        · rintro ((h | h) | h)
          · exact Or.inl h
          · rw [h]; exact Or.inr (List.mem_cons_self c rest)
          · exact Or.inr (List.mem_cons_of_mem c h)
        · rintro (h | h)
          · exact Or.inl (Or.inl h)
          · rcases List.mem_cons.1 h with h2 | h2
            · exact Or.inl (Or.inr h2)
            · exact Or.inr h2

theorem freqLoop_nodup (S : List Nat) (m : hashmapF)
    (h : (hmKeys m).Nodup) : (hmKeys (buildFrequencyMapLoop S m)).Nodup := by
  induction S generalizing m with
  | nil => exact h
  | cons c rest ih =>
      rw [buildFrequencyMapLoop]
      by_cases hc : containsKey m c = true
      · rw [if_pos hc]; exact ih _ (hmKeys_put_nodup m c _ h)
      · rw [if_neg hc]; exact ih _ (hmKeys_put_nodup m c _ h)

theorem sum_put_inc (m : hashmapF) (c : Nat) (hnd : (hmKeys m).Nodup)
    (hc : containsKey m c = true) :
    hmValuesSum (hmPut m c (hmGet m c + 1)) = hmValuesSum m + 1 := by
  induction m with
  | nil => simp [containsKey] at hc
  | cons p rest ih =>
      have hnd' := hnd
      unfold hmKeys at hnd'
      rw [List.map_cons] at hnd'
      have hhead : p.1 ∉ List.map Prod.fst rest := (List.nodup_cons.1 hnd').1
      have hnd2 : (hmKeys rest).Nodup := (List.nodup_cons.1 hnd').2
      by_cases hp : p.1 = c
      · have hrest : c ∉ hmKeys rest := by
          rw [← hp]; exact hhead
        have hget : hmGet (p :: rest) c = p.2 := by
          unfold hmGet
          rw [List.find?_cons_of_pos _ (by simp [hp])]
          rfl
        unfold hmPut
        rw [if_pos hc, List.map_cons, if_pos (by simp [hp]),
          put_map_id rest c _ hrest, hget]
        unfold hmValuesSum
        simp [Nat.add_assoc, Nat.add_comm, Nat.add_left_comm]
      · have hcr : containsKey rest c = true := by
          unfold containsKey at hc
          rcases List.any_eq_true.1 hc with ⟨q, hq, hqc⟩
          rcases List.mem_cons.1 hq with h1 | h1
          · exact absurd (by simpa using (h1 ▸ hqc : (p.1 == c) = true)) hp
          · exact List.any_eq_true.2 ⟨q, h1, hqc⟩
        have hget : hmGet (p :: rest) c = hmGet rest c := by
          unfold hmGet
          rw [List.find?_cons_of_neg _ (by simp [hp])]
        have hput : hmPut (p :: rest) c (hmGet (p :: rest) c + 1)
            = p :: hmPut rest c (hmGet rest c + 1) := by
          unfold hmPut
          rw [if_pos hc, if_pos hcr, List.map_cons, if_neg (by simp [hp]), hget]
        rw [hput]
        unfold hmValuesSum
        rw [List.map_cons, List.sum_cons]
        have := ih hnd2 hcr
        unfold hmValuesSum at this
        rw [this]
        simp [List.sum_cons, Nat.add_assoc, Nat.add_comm, Nat.add_left_comm]

theorem sum_put_new (m : hashmapF) (c v : Nat)
    (hc : ¬ containsKey m c = true) :
    hmValuesSum (hmPut m c v) = hmValuesSum m + v := by
  unfold hmPut hmValuesSum
  rw [if_neg hc]
  simp

theorem freqLoop_sum (S : List Nat) (m : hashmapF)
    (hnd : (hmKeys m).Nodup) :
    hmValuesSum (buildFrequencyMapLoop S m) = hmValuesSum m + S.length := by
  induction S generalizing m with
  | nil => simp [buildFrequencyMapLoop]
  | cons c rest ih =>
      rw [buildFrequencyMapLoop]
      by_cases hc : containsKey m c = true
      · rw [if_pos hc, ih _ (hmKeys_put_nodup m c _ hnd),
          sum_put_inc m c hnd hc]
        simp [Nat.add_assoc, Nat.add_comm, Nat.add_left_comm]
      · rw [if_neg hc, ih _ (hmKeys_put_nodup m c _ hnd),
          sum_put_new m c 1 hc]
        simp [Nat.add_assoc, Nat.add_comm, Nat.add_left_comm]

theorem buildFrequencyMap_eq (filename : List Nat) (isFile : Bool)
    (contents : List Nat) :
    buildFrequencyMap filename isFile contents [] =
      hmPut (buildFrequencyMapLoop (if isFile then contents else filename) [])
        PSEUDO_EOF 1 := rfl

theorem buildFrequencyMap_nodup (filename : List Nat) (isFile : Bool)
    (contents : List Nat) :
    (hmKeys (buildFrequencyMap filename isFile contents [])).Nodup := by
  rw [buildFrequencyMap_eq]
  exact hmKeys_put_nodup _ _ _ (freqLoop_nodup _ [] (by simp [hmKeys]))

theorem buildFrequencyMap_mem_keys (filename : List Nat) (isFile : Bool)
    (contents : List Nat) (k : Nat) :
    k ∈ hmKeys (buildFrequencyMap filename isFile contents []) ↔
      k ∈ (if isFile then contents else filename) ∨ k = PSEUDO_EOF := by
  rw [buildFrequencyMap_eq, mem_hmKeys_put, freqLoop_mem_keys]
  simp [hmKeys]

/-- C5 support: the count of each real symbol of the consumed sequence. -/
theorem buildFrequencyMap_get_symbol (filename : List Nat) (isFile : Bool)
    (contents : List Nat) (c : Nat) (hc : c ≠ PSEUDO_EOF) :
    hmGet (buildFrequencyMap filename isFile contents []) c =
      (if isFile then contents else filename).count c := by
  rw [buildFrequencyMap_eq, hmGet_put_other _ _ _ _ hc, freqLoop_get]
  simp [hmGet]

/-- C5 support: the sentinel's final count is one more than its count before
the final `put` (the "additive" reading), and that final count is 1. -/
theorem buildFrequencyMap_get_sentinel (filename : List Nat) (isFile : Bool)
    (contents : List Nat)
    (hS : ∀ c ∈ (if isFile then contents else filename), c < 256) :
    hmGet (buildFrequencyMap filename isFile contents []) PSEUDO_EOF =
      hmGet (buildFrequencyMapLoop (if isFile then contents else filename) [])
        PSEUDO_EOF + 1 ∧
    hmGet (buildFrequencyMap filename isFile contents []) PSEUDO_EOF = 1 := by
  have h0 : hmGet (buildFrequencyMapLoop
      (if isFile then contents else filename) []) PSEUDO_EOF = 0 := by
    rw [freqLoop_get]
    have : (if isFile then contents else filename).count PSEUDO_EOF = 0 := by
      rw [List.count_eq_zero]
      intro hmem
      exact absurd (hS _ hmem) (by simp [PSEUDO_EOF])
    rw [this]
    simp [hmGet]
  constructor
  · rw [buildFrequencyMap_eq, hmGet_put_same, h0]
  · rw [buildFrequencyMap_eq, hmGet_put_same]

/-- C1/C3/C4 support: every key of the built model is a byte or the
sentinel, so never the internal marker. -/
theorem buildFrequencyMap_keys_lt (filename : List Nat) (isFile : Bool)
    (contents : List Nat)
    (hS : ∀ c ∈ (if isFile then contents else filename), c < 256) :
    ∀ k ∈ hmKeys (buildFrequencyMap filename isFile contents []), k ≤ PSEUDO_EOF := by
  intro k hk
  rcases (buildFrequencyMap_mem_keys filename isFile contents k).1 hk with h | h
  · exact Nat.le_of_lt (Nat.lt_of_lt_of_le (hS k h) (by simp [PSEUDO_EOF]))
  · rw [h]

/-!
## Claim C5
-/

/-- C5: for every input sequence S (the file's bytes when `isFile`, the
filename's characters otherwise), `buildFrequencyMap` maps every distinct
symbol of S to its number of occurrences, and the sentinel receives count
1, additively on top of its prior count (which is necessarily 0, the
sentinel lying outside the byte range). -/
theorem buildFrequencyMap_counts_spec (filename : List Nat) (isFile : Bool)
    (contents : List Nat)
    (hS : ∀ c ∈ (if isFile then contents else filename), c < 256) :
    (∀ c ∈ (if isFile then contents else filename),
      hmGet (buildFrequencyMap filename isFile contents []) c =
        (if isFile then contents else filename).count c) ∧
    hmGet (buildFrequencyMap filename isFile contents []) PSEUDO_EOF =
      hmGet (buildFrequencyMapLoop (if isFile then contents else filename) [])
        PSEUDO_EOF + 1 ∧
    hmGet (buildFrequencyMap filename isFile contents []) PSEUDO_EOF = 1 := by
  refine ⟨fun c hc => ?_, buildFrequencyMap_get_sentinel filename isFile contents hS⟩
  have : c ≠ PSEUDO_EOF := by
    intro h
    exact absurd (hS c hc) (by simp [h, PSEUDO_EOF])
  exact buildFrequencyMap_get_symbol filename isFile contents c this

/-- Witness for C5 at the concrete input "aab" read from a file. -/
theorem buildFrequencyMap_counts_spec_witness :
    (∀ c ∈ (if true then [97, 97, 98] else [102]), c < 256) ∧
    ((∀ c ∈ (if true then [97, 97, 98] else [102]),
      hmGet (buildFrequencyMap [102] true [97, 97, 98] []) c =
        (if true then [97, 97, 98] else [102]).count c) ∧
    hmGet (buildFrequencyMap [102] true [97, 97, 98] []) PSEUDO_EOF =
      hmGet (buildFrequencyMapLoop (if true then [97, 97, 98] else [102]) [])
        PSEUDO_EOF + 1 ∧
    hmGet (buildFrequencyMap [102] true [97, 97, 98] []) PSEUDO_EOF = 1) :=
  ⟨by decide, buildFrequencyMap_counts_spec [102] true [97, 97, 98] (by decide)⟩

/-!
## Claim C6
-/

/-- C6: the counts in the built frequency model sum to `length S + 1`, and
an empty input yields the model containing only the sentinel with count
1. -/
theorem buildFrequencyMap_sum_spec (filename : List Nat) (isFile : Bool)
    (contents : List Nat)
    (hS : ∀ c ∈ (if isFile then contents else filename), c < 256) :
    hmValuesSum (buildFrequencyMap filename isFile contents []) =
      (if isFile then contents else filename).length + 1 ∧
    ((if isFile then contents else filename) = [] →
      buildFrequencyMap filename isFile contents [] = [(PSEUDO_EOF, 1)]) := by
  constructor
  · rw [buildFrequencyMap_eq]
    have hnotin : ¬ containsKey
        (buildFrequencyMapLoop (if isFile then contents else filename) [])
        PSEUDO_EOF = true := by
      rw [containsKey_iff, freqLoop_mem_keys]
      rintro (h | h)
      · simp [hmKeys] at h
      · exact absurd (hS _ h) (by simp [PSEUDO_EOF])
    rw [sum_put_new _ _ _ hnotin, freqLoop_sum _ [] (by simp [hmKeys])]
    simp [hmValuesSum]
  · intro hS0
    rw [buildFrequencyMap_eq, hS0]
    rfl

/-- Witness for C6 at the concrete inputs "aab" (file mode) and the empty
file. -/
theorem buildFrequencyMap_sum_spec_witness :
    (∀ c ∈ (if true then [97, 97, 98] else [102]), c < 256) ∧
    (hmValuesSum (buildFrequencyMap [102] true [97, 97, 98] []) =
      (if true then [97, 97, 98] else [102]).length + 1 ∧
    ((if true then ([97, 97, 98] : List Nat) else [102]) = [] →
      buildFrequencyMap [102] true [97, 97, 98] [] = [(PSEUDO_EOF, 1)])) ∧
    (hmValuesSum (buildFrequencyMap [102] true [] []) =
      (if true then ([] : List Nat) else [102]).length + 1 ∧
    ((if true then ([] : List Nat) else [102]) = [] →
      buildFrequencyMap [102] true [] [] = [(PSEUDO_EOF, 1)])) :=
  ⟨by decide, buildFrequencyMap_sum_spec [102] true [97, 97, 98] (by decide),
    buildFrequencyMap_sum_spec [102] true [] (by decide)⟩

/-! ## Structural lemmas about the priority queue and the tree builder -/

/-- Structural induction principle for `HuffmanNode` (the nested `Option`
children make the auto-generated recursor inconvenient). -/
theorem HuffmanNode.recFull {P : HuffmanNode → Prop}
    (h1 : ∀ c w, P (.mk c w none none))
    (h2 : ∀ c w z o, P z → P o → P (.mk c w (some z) (some o)))
    (h3 : ∀ c w z, P z → P (.mk c w (some z) none))
    (h4 : ∀ c w o, P o → P (.mk c w none (some o))) :
    ∀ t, P t
  | .mk c w none none => h1 c w
  | .mk c w (some z) (some o) =>
      h2 c w z o (HuffmanNode.recFull h1 h2 h3 h4 z)
        (HuffmanNode.recFull h1 h2 h3 h4 o)
  | .mk c w (some z) none => h3 c w z (HuffmanNode.recFull h1 h2 h3 h4 z)
  | .mk c w none (some o) => h4 c w o (HuffmanNode.recFull h1 h2 h3 h4 o)

theorem pqPush_perm (n : HuffmanNode) (l : List HuffmanNode) :
    List.Perm (pqPush n l) (n :: l) := by
  induction l with
  | nil => simp [pqPush]
  | cons m rest ih =>
      rw [pqPush]
      by_cases h : n.count < m.count
      · rw [if_pos h]
      · rw [if_neg h]
        exact List.Perm.trans (List.Perm.cons m ih) (List.Perm.swap n m rest)

theorem pqPush_length (n : HuffmanNode) (l : List HuffmanNode) :
    (pqPush n l).length = l.length + 1 :=
  (pqPush_perm n l).length_eq

theorem mergeLoop_single (t : HuffmanNode) : mergeLoop [t] = some t := by
  rw [mergeLoop]

theorem mergeLoop_cons2 (a b : HuffmanNode) (rest : List HuffmanNode) :
    mergeLoop (a :: b :: rest) =
      mergeLoop (pqPush
        (HuffmanNode.mk NOT_A_CHAR (a.count + b.count) (some a) (some b))
        rest) := by
  rw [mergeLoop]

/-- The merge loop on a non-empty queue of full trees yields a full tree
whose leaves are, up to permutation, all the leaves in the queue. -/
theorem mergeLoop_spec :
    ∀ (nn : Nat) (l : List HuffmanNode), l.length = nn → l ≠ [] →
      (∀ x ∈ l, fullTree x = true) →
      ∃ t, mergeLoop l = some t ∧ fullTree t = true ∧
        List.Perm (leafChars t) ((List.map leafChars l).flatten) := by
  intro nn
  induction nn using Nat.strong_induction_on with
  | _ nn ih =>
      intro l hlen hne hfull
      match l with
      | [] => exact absurd rfl hne
      | [t] =>
          refine ⟨t, mergeLoop_single t, hfull t (by simp), ?_⟩
          simp
      | a :: b :: rest =>
          have hfa : fullTree a = true := hfull a (by simp)
          have hfb : fullTree b = true := hfull b (by simp)
          have hfX : fullTree (HuffmanNode.mk NOT_A_CHAR
              (a.count + b.count) (some a) (some b)) = true := by
            rw [fullTree]
            simp [hfa, hfb]
          have hperm := pqPush_perm (HuffmanNode.mk NOT_A_CHAR
            (a.count + b.count) (some a) (some b)) rest
          have hlen2 : (pqPush (HuffmanNode.mk NOT_A_CHAR
              (a.count + b.count) (some a) (some b)) rest).length = rest.length + 1 :=
            pqPush_length _ _
          have hlt : rest.length + 1 < nn := by
            rw [← hlen]
            simp
          have hne2 : pqPush (HuffmanNode.mk NOT_A_CHAR
              (a.count + b.count) (some a) (some b)) rest ≠ [] := by
            intro hc
            rw [hc] at hlen2
            simp at hlen2
          have hfull2 : ∀ x ∈ pqPush (HuffmanNode.mk NOT_A_CHAR
              (a.count + b.count) (some a) (some b)) rest, fullTree x = true := by
            intro x hx
            rcases List.mem_cons.1 ((hperm.mem_iff).1 hx) with h | h
            · rw [h]; exact hfX
            · exact hfull x (by simp [h])
          obtain ⟨t, hml, hft, hpm⟩ :=
            ih (rest.length + 1) hlt _ hlen2 hne2 hfull2
          refine ⟨t, ?_, hft, ?_⟩
          · rw [mergeLoop_cons2]
            exact hml
          · refine hpm.trans ?_
            refine ((hperm.map leafChars).flatten).trans ?_
            rw [List.map_cons, List.flatten]
            rw [leafChars]
            simp [List.append_assoc]

/-- With at least two queue entries the merge loop's survivor is an
internal (`NOT_A_CHAR`) node. -/
theorem mergeLoop_internal :
    ∀ (nn : Nat) (l : List HuffmanNode), l.length = nn → 2 ≤ l.length →
      ∀ t, mergeLoop l = some t → t.character = NOT_A_CHAR := by
  intro nn
  induction nn using Nat.strong_induction_on with
  | _ nn ih =>
      intro l hlen h2 t hml
      match l with
      | [] => simp at h2
      | [x] => simp at h2
      | a :: b :: rest =>
          rw [mergeLoop_cons2] at hml
          match rest, hlen, hml with
          | [], hlen, hml =>
              rw [show pqPush (HuffmanNode.mk NOT_A_CHAR
                (a.count + b.count) (some a) (some b)) [] =
                [HuffmanNode.mk NOT_A_CHAR
                  (a.count + b.count) (some a) (some b)] from rfl,
                mergeLoop_single] at hml
              cases hml
              rfl
          | r :: rs, hlen, hml =>
              have hlen2 : (pqPush (HuffmanNode.mk NOT_A_CHAR
                  (a.count + b.count) (some a) (some b)) (r :: rs)).length =
                  (r :: rs).length + 1 := pqPush_length _ _
              have hlt : (r :: rs).length + 1 < nn := by
                rw [← hlen]
                simp
              exact ih _ hlt _ hlen2 (by rw [hlen2]; simp) t hml

theorem pushLeaves_perm (ks : List Nat) (m : hashmapF)
    (pq : List HuffmanNode) :
    List.Perm (pushLeaves ks m pq)
      (List.map (fun k => HuffmanNode.mk k (hmGet m k) none none) ks ++ pq) := by
  induction ks generalizing pq with
  | nil => simp [pushLeaves]
  | cons k rest ih =>
      rw [pushLeaves]
      refine (ih _).trans ?_
      rw [List.map_cons]
      refine (List.Perm.append_left _ (pqPush_perm _ _)).trans ?_
      exact List.perm_middle

/-- `buildEncodingTree` on a model with at least one key returns a full
tree whose leaf symbols are exactly the model's keys (up to order),
provided the internal marker is not among the keys. -/
theorem buildEncodingTree_spec (m : hashmapF) (hne : hmKeys m ≠ [])
    (hmark : NOT_A_CHAR ∉ hmKeys m) :
    ∃ t, buildEncodingTree m = some t ∧ fullTree t = true ∧
      List.Perm (leafChars t) (hmKeys m) := by
  have hperm := pushLeaves_perm (hmKeys m) m []
  rw [List.append_nil] at hperm
  have hlen : (pushLeaves (hmKeys m) m []).length = (hmKeys m).length := by
    rw [hperm.length_eq, List.length_map]
  have hne2 : pushLeaves (hmKeys m) m [] ≠ [] := by
    intro hc
    rw [hc] at hlen
    exact hne (List.length_eq_zero.1 hlen.symm)
  have hfull : ∀ x ∈ pushLeaves (hmKeys m) m [], fullTree x = true := by
    intro x hx
    rcases List.mem_map.1 (hperm.mem_iff.1 hx) with ⟨k, hk, hxk⟩
    rw [← hxk, fullTree]
    simp only [bne_iff_ne, ne_eq, decide_eq_true_eq]
    intro hc
    exact hmark (hc ▸ hk)
  obtain ⟨t, hml, hft, hpm⟩ :=
    mergeLoop_spec (pushLeaves (hmKeys m) m []).length _ rfl hne2 hfull
  refine ⟨t, hml, hft, ?_⟩
  refine hpm.trans ?_
  refine ((hperm.map leafChars).flatten).trans ?_
  rw [List.map_map]
  have : (List.map (leafChars ∘ fun k =>
      HuffmanNode.mk k (hmGet m k) none none) (hmKeys m)) =
      List.map (fun k => [k]) (hmKeys m) := by
    apply List.map_congr_left
    intro k hk
    rfl
  rw [this]
  have hjoin : ∀ (ks : List Nat), (List.map (fun k => [k]) ks).flatten = ks := by
    intro ks
    induction ks with
    | nil => rfl
    | cons x xs ihx => simp [ihx]
  rw [hjoin]

theorem nodesOf_full (t : HuffmanNode) (h : fullTree t = true) :
    ∀ n ∈ nodesOf t,
      (n.character ≠ NOT_A_CHAR ∧ n.zero = none ∧ n.one = none) ∨
      (n.character = NOT_A_CHAR ∧ n.zero ≠ none ∧ n.one ≠ none) := by
  induction t using HuffmanNode.recFull with
  | h1 c w =>
      intro n hn
      rw [nodesOf] at hn
      rcases List.mem_singleton.1 hn with rfl
      rw [fullTree] at h
      left
      refine ⟨?_, rfl, rfl⟩
      simpa using h
  | h2 c w z o ihz iho =>
      intro n hn
      rw [fullTree] at h
      simp only [Bool.and_eq_true, beq_iff_eq] at h
      rw [nodesOf] at hn
      rcases List.mem_cons.1 hn with rfl | hn2
      · right
        refine ⟨h.1.1, by simp [HuffmanNode.zero], by simp [HuffmanNode.one]⟩
      · rcases List.mem_append.1 hn2 with h3 | h3
        · exact ihz h.1.2 n h3
        · exact iho h.2 n h3
  | h3 c w z ih => rw [fullTree] at h; cases h
  | h4 c w o ih => rw [fullTree] at h; cases h

/-!
## Claim C4
-/

/-- C4: every node of the tree returned by `buildEncodingTree` is either a
leaf (`character ≠ NOT_A_CHAR`, both children absent) or an internal node
(`character = NOT_A_CHAR`, both children present); no node is partially
merged.  The hypotheses hold for every model built by `buildFrequencyMap`:
the key list is non-empty (the sentinel is always inserted) and never
contains the internal marker. -/
theorem buildEncodingTree_nodes_spec (m : hashmapF) (hne : hmKeys m ≠ [])
    (hmark : NOT_A_CHAR ∉ hmKeys m) (t : HuffmanNode)
    (ht : buildEncodingTree m = some t) :
    ∀ n ∈ nodesOf t,
      (n.character ≠ NOT_A_CHAR ∧ n.zero = none ∧ n.one = none) ∨
      (n.character = NOT_A_CHAR ∧ n.zero ≠ none ∧ n.one ≠ none) := by
  obtain ⟨t2, ht2, hft, _⟩ := buildEncodingTree_spec m hne hmark
  rw [ht2] at ht
  cases ht
  exact nodesOf_full _ hft

/-- Witness for C4 on the model {a: 1, sentinel: 1}. -/
theorem buildEncodingTree_nodes_spec_witness :
    hmKeys [(97, 1), (256, 1)] ≠ [] ∧
    NOT_A_CHAR ∉ hmKeys [(97, 1), (256, 1)] ∧
    (∀ n ∈ nodesOf (HuffmanNode.mk NOT_A_CHAR 2
        (some (HuffmanNode.mk 97 1 none none))
        (some (HuffmanNode.mk 256 1 none none))),
      (n.character ≠ NOT_A_CHAR ∧ n.zero = none ∧ n.one = none) ∨
      (n.character = NOT_A_CHAR ∧ n.zero ≠ none ∧ n.one ≠ none)) := by
  refine ⟨by decide, by decide, ?_⟩
  refine buildEncodingTree_nodes_spec [(97, 1), (256, 1)] (by decide) (by decide) _ ?_
  simp [buildEncodingTree, mergeLoop, pushLeaves, pqPush, hmKeys, hmGet,
    HuffmanNode.count, NOT_A_CHAR]

/-! ## The code table: paths, lookup, prefix-freeness -/

theorem codes_keys (t : HuffmanNode) :
    List.map Prod.fst (codes t) = leafChars t := by
  induction t using HuffmanNode.recFull with
  | h1 c w => rfl
  | h2 c w z o ihz iho =>
      rw [codes, leafChars, List.map_append, List.map_map, List.map_map]
      rw [show (Prod.fst ∘ fun e : Nat × List Bool => (e.1, false :: e.2))
        = Prod.fst from rfl]
      rw [show (Prod.fst ∘ fun e : Nat × List Bool => (e.1, true :: e.2))
        = Prod.fst from rfl]
      rw [ihz, iho]
  | h3 c w z ih => rfl
  | h4 c w o ih => rfl

theorem codes_mem_of_leafChar (t : HuffmanNode) (c : Nat)
    (hc : c ∈ leafChars t) : ∃ p, (c, p) ∈ codes t := by
  have := codes_keys t
  rw [← this] at hc
  rcases List.mem_map.1 hc with ⟨e, he, hfst⟩
  exact ⟨e.2, by rw [← hfst]; simpa using he⟩

theorem codes_char_mem (t : HuffmanNode) (c : Nat) (p : List Bool)
    (h : (c, p) ∈ codes t) : c ∈ leafChars t := by
  rw [← codes_keys t]
  exact List.mem_map.2 ⟨(c, p), h, rfl⟩

/-- Codes of distinct symbols in a full tree: neither extends the other. -/
theorem codes_no_extension (t : HuffmanNode) (h : fullTree t = true) :
    ∀ e1 ∈ codes t, ∀ e2 ∈ codes t, e1.1 ≠ e2.1 →
      ∀ s, e1.2 ++ s ≠ e2.2 := by
  induction t using HuffmanNode.recFull with
  | h1 c w =>
      intro e1 he1 e2 he2 hne
      rw [codes] at he1 he2
      rcases List.mem_singleton.1 he1 with rfl
      rcases List.mem_singleton.1 he2 with rfl
      exact absurd rfl hne
  | h2 c w z o ihz iho =>
      rw [fullTree] at h
      simp only [Bool.and_eq_true, beq_iff_eq] at h
      intro e1 he1 e2 he2 hne s hs
      rw [codes] at he1 he2
      rcases List.mem_append.1 he1 with h1 | h1 <;>
        rcases List.mem_append.1 he2 with h2 | h2
      · rcases List.mem_map.1 h1 with ⟨d1, hd1, rfl⟩
        rcases List.mem_map.1 h2 with ⟨d2, hd2, rfl⟩
        simp only [List.cons_append, List.cons.injEq] at hs
        exact ihz h.1.2 d1 hd1 d2 hd2 (by simpa using hne) s hs.2
      · rcases List.mem_map.1 h1 with ⟨d1, hd1, rfl⟩
        rcases List.mem_map.1 h2 with ⟨d2, hd2, rfl⟩
        simp at hs
      · rcases List.mem_map.1 h1 with ⟨d1, hd1, rfl⟩
        rcases List.mem_map.1 h2 with ⟨d2, hd2, rfl⟩
        simp at hs
      · rcases List.mem_map.1 h1 with ⟨d1, hd1, rfl⟩
        rcases List.mem_map.1 h2 with ⟨d2, hd2, rfl⟩
        simp only [List.cons_append, List.cons.injEq] at hs
        exact iho h.2 d1 hd1 d2 hd2 (by simpa using hne) s hs.2
  | h3 c w z ih => rw [fullTree] at h; cases h
  | h4 c w o ih => rw [fullTree] at h; cases h

/-- In a tree whose root is internal every code is non-empty. -/
theorem codes_ne_nil_of_internal (z o : Option HuffmanNode) (c w : Nat)
    (hz : z.isSome) (e : Nat × List Bool)
    (he : e ∈ codes (HuffmanNode.mk c w z o)) : e.2 ≠ [] := by
  match z, o with
  | none, none => cases hz
  | some zn, some onode =>
      rw [codes] at he
      rcases List.mem_append.1 he with h1 | h1 <;>
        rcases List.mem_map.1 h1 with ⟨d, hd, rfl⟩ <;> simp
  | some zn, none => rw [codes] at he; cases he
  | none, some onode => cases hz

/-- The recursive encoding-map builder on a full tree with distinct leaf
symbols appends exactly the path-prefixed code table. -/
theorem buildEncodingMapAux_spec (t : HuffmanNode) (h : fullTree t = true) :
    ∀ (em : hashmapE) (p : List Bool),
      (∀ c ∈ leafChars t, ∀ q ∈ em, q.1 ≠ c) →
      (leafChars t).Nodup →
      buildEncodingMapAux t em p =
        some (em ++ List.map (fun e => (e.1, p ++ e.2)) (codes t)) := by
  induction t using HuffmanNode.recFull with
  | h1 c w =>
      intro em p hdisj hnd
      rw [buildEncodingMapAux]
      rw [if_pos (by simpa [fullTree] using h)]
      rw [emplace, if_neg ?_]
      · rw [codes]
        simp
      · rw [List.any_eq_true]
        rintro ⟨q, hq, hqc⟩
        exact hdisj c (by rw [leafChars]; simp) q hq (by simpa using hqc)
  | h2 c w z o ihz iho =>
      intro em p hdisj hnd
      rw [fullTree] at h
      simp only [Bool.and_eq_true, beq_iff_eq] at h
      rw [leafChars] at hdisj hnd
      have hndz := (List.nodup_append.1 hnd).1
      have hndo := (List.nodup_append.1 hnd).2.1
      have hdisjzo := (List.nodup_append.1 hnd).2.2
      rw [buildEncodingMapAux, if_neg (by simp [h.1.1])]
      rw [ihz h.1.2 em (p ++ [false])
        (fun c2 hc2 q hq => hdisj c2 (List.mem_append.2 (Or.inl hc2)) q hq) hndz]
      have hred : (match some (em ++ List.map
            (fun e => (e.1, p ++ [false] ++ e.2)) (codes z)) with
          | none => none
          | some em1 => buildEncodingMapAux o em1 (p ++ [true])) =
          buildEncodingMapAux o
            (em ++ List.map (fun e => (e.1, p ++ [false] ++ e.2)) (codes z))
            (p ++ [true]) := rfl
      rw [hred]
      rw [iho h.2 _ (p ++ [true]) ?_ hndo]
      · rw [codes]
        simp only [List.map_append, List.map_map, List.append_assoc]
        rfl
      · intro c2 hc2 q hq
        rcases List.mem_append.1 hq with h3 | h3
        · exact hdisj c2 (List.mem_append.2 (Or.inr hc2)) q h3
        · rcases List.mem_map.1 h3 with ⟨d, hd, rfl⟩
          intro hc
          have hc2' : d.1 = c2 := hc
          exact hdisjzo (hc2' ▸ codes_char_mem z d.1 d.2 hd) hc2
  | h3 c w z ih => rw [fullTree] at h; cases h
  | h4 c w o ih => rw [fullTree] at h; cases h

theorem buildEncodingMap_eq_codes (t : HuffmanNode) (h : fullTree t = true)
    (hnd : (leafChars t).Nodup) :
    buildEncodingMap t = some (codes t) := by
  rw [buildEncodingMap, buildEncodingMapAux_spec t h [] []
    (by intro c hc q hq; cases hq) hnd]
  simp

theorem find_of_mem_nodup {α : Type} (l : List (Nat × α))
    (hnd : (List.map Prod.fst l).Nodup) (c : Nat) (p : α)
    (h : (c, p) ∈ l) :
    List.find? (fun q => q.1 == c) l = some (c, p) := by
  induction l with
  | nil => cases h
  | cons q rest ih =>
      rw [List.map_cons, List.nodup_cons] at hnd
      rcases List.mem_cons.1 h with rfl | h2
      · rw [List.find?_cons_of_pos _ (by simp)]
      · have hq : ¬ q.1 = c := by
          intro hc
          exact hnd.1 (hc ▸ List.mem_map.2 ⟨(c, p), h2, rfl⟩)
        rw [List.find?_cons_of_neg _ (by simp [hq])]
        exact ih hnd.2 h2

theorem emAt_of_mem (t : HuffmanNode) (hnd : (leafChars t).Nodup)
    (c : Nat) (p : List Bool) (h : (c, p) ∈ codes t) :
    emAt (codes t) c = some p := by
  rw [emAt, find_of_mem_nodup (codes t) (by rw [codes_keys]; exact hnd) c p h]
  rfl

theorem emAt_mem {em : hashmapE} {c : Nat} {p : List Bool}
    (h : emAt em c = some p) : (c, p) ∈ em := by
  rw [emAt] at h
  match hf : List.find? (fun q => q.1 == c) em with
  | none => rw [hf] at h; cases h
  | some q =>
      rw [hf] at h
      have hq := List.find?_some hf
      have hm := List.mem_of_find?_eq_some hf
      have : q.2 = p := by simpa using h
      have hq1 : q.1 = c := by simpa using hq
      have : q = (c, p) := by
        cases q
        simp_all
      rw [← this]
      exact hm

/-!
## Claim C7
-/

/-- C7: in a code table built by `buildEncodingMap` from a tree built by
`buildEncodingTree` over at least two symbols, no symbol's bit code is a
proper prefix of another symbol's bit code.  (The proof gives the stronger
fact that no code extends another at all; the hypotheses hold for every
model built by `buildFrequencyMap`.) -/
theorem encodingMap_no_code_extends_spec (m : hashmapF)
    (hne : hmKeys m ≠ []) (hmark : NOT_A_CHAR ∉ hmKeys m)
    (hnd : (hmKeys m).Nodup) (h2 : 2 ≤ (hmKeys m).length)
    (t : HuffmanNode) (ht : buildEncodingTree m = some t)
    (em : hashmapE) (hem : buildEncodingMap t = some em) :
    ∀ e1 ∈ em, ∀ e2 ∈ em, e1.1 ≠ e2.1 →
      ¬ ∃ s, s ≠ [] ∧ e1.2 ++ s = e2.2 := by
  obtain ⟨t2, ht2, hft, hpm⟩ := buildEncodingTree_spec m hne hmark
  rw [ht2] at ht
  cases ht
  have hndl : (leafChars t).Nodup := hpm.nodup_iff.2 hnd
  rw [buildEncodingMap_eq_codes t hft hndl] at hem
  cases hem
  intro e1 he1 e2 he2 hne12
  rintro ⟨s, hs, hcat⟩
  exact codes_no_extension t hft e1 he1 e2 he2 hne12 s hcat

/-- Witness for C7 on the model {a: 1, b: 2, sentinel: 1}. -/
theorem encodingMap_no_code_extends_spec_witness :
    hmKeys [(97, 1), (98, 2), (256, 1)] ≠ [] ∧
    NOT_A_CHAR ∉ hmKeys [(97, 1), (98, 2), (256, 1)] ∧
    (hmKeys [(97, 1), (98, 2), (256, 1)]).Nodup ∧
    2 ≤ (hmKeys [(97, 1), (98, 2), (256, 1)]).length ∧
    (∀ e1 ∈ [(98, [false]), (97, [true, false]), (256, [true, true])],
      ∀ e2 ∈ [(98, [false]), (97, [true, false]), (256, [true, true])],
        e1.1 ≠ e2.1 → ¬ ∃ s, s ≠ [] ∧ e1.2 ++ s = e2.2) := by
  refine ⟨by decide, by decide, by decide, by decide, ?_⟩
  refine encodingMap_no_code_extends_spec [(97, 1), (98, 2), (256, 1)]
    (by decide) (by decide) (by decide) (by decide)
    (HuffmanNode.mk NOT_A_CHAR 4 (some (HuffmanNode.mk 98 2 none none))
      (some (HuffmanNode.mk NOT_A_CHAR 2 (some (HuffmanNode.mk 97 1 none none))
        (some (HuffmanNode.mk 256 1 none none))))) ?_
    [(98, [false]), (97, [true, false]), (256, [true, true])] ?_
  · simp [buildEncodingTree, mergeLoop, pushLeaves, pqPush, hmKeys, hmGet,
      HuffmanNode.count, NOT_A_CHAR]
  · rfl

theorem buildEncodingTree_singleton (k w : Nat) :
    buildEncodingTree [(k, w)] = some (HuffmanNode.mk k w none none) := by
  rw [buildEncodingTree]
  rw [show pushLeaves (hmKeys [(k, w)]) [(k, w)] [] =
    [HuffmanNode.mk k (hmGet [(k, w)] k) none none] from rfl]
  rw [show hmGet [(k, w)] k = w by simp [hmGet]]
  exact mergeLoop_single _

theorem buildEncodingMap_leaf (k w : Nat) (hk : k ≠ NOT_A_CHAR) :
    buildEncodingMap (HuffmanNode.mk k w none none) = some [(k, [])] := by
  rw [buildEncodingMap, buildEncodingMapAux, if_pos hk]
  simp [emplace]

/-!
## Claim C8
-/

/-- C8: a frequency model with exactly one distinct symbol yields a tree
that is a single leaf (no children), a code table binding that symbol to
the empty bit sequence, and `decode` treats that root itself as a leaf:
for the sentinel it stops at once with empty output, for a real symbol its
very first step emits that symbol (before reading past the root). -/
theorem single_symbol_spec (k w : Nat) (hk : k ≠ NOT_A_CHAR) :
    buildEncodingTree [(k, w)] = some (HuffmanNode.mk k w none none) ∧
    buildEncodingMap (HuffmanNode.mk k w none none) = some [(k, [])] ∧
    (k = PSEUDO_EOF → ∀ bits,
      decode bits (HuffmanNode.mk k w none none) = some []) ∧
    (k ≠ PSEUDO_EOF → ∀ (b : Bool) (bs : List Bool),
      decode (b :: bs) (HuffmanNode.mk k w none none) =
        Option.map (fun out => k :: out)
          (decodeLoop (HuffmanNode.mk k w none none) bs none)) := by
  refine ⟨buildEncodingTree_singleton k w, buildEncodingMap_leaf k w hk, ?_, ?_⟩
  · intro hke bits
    match bits with
    | [] => rfl
    | b :: bs =>
        rw [decode, decodeLoop]
        rw [if_pos (by simpa [HuffmanNode.character] using hke)]
  · intro hke b bs
    rw [decode, decodeLoop]
    rw [if_neg (by simpa [HuffmanNode.character] using hke)]
    rw [if_pos (by simpa [HuffmanNode.character] using hk)]
    have : (if b then (HuffmanNode.mk k w none none).one
        else (HuffmanNode.mk k w none none).zero) = none := by
      cases b <;> rfl
    rw [this]
    rfl

/-- Witness for C8 at the sentinel-only model (empty input) and at a
real-symbol singleton model. -/
theorem single_symbol_spec_witness :
    ((256 : Nat) ≠ NOT_A_CHAR ∧
      (buildEncodingTree [(256, 1)] = some (HuffmanNode.mk 256 1 none none) ∧
      buildEncodingMap (HuffmanNode.mk 256 1 none none) = some [(256, [])] ∧
      ((256 : Nat) = PSEUDO_EOF → ∀ bits,
        decode bits (HuffmanNode.mk 256 1 none none) = some []) ∧
      ((256 : Nat) ≠ PSEUDO_EOF → ∀ (b : Bool) (bs : List Bool),
        decode (b :: bs) (HuffmanNode.mk 256 1 none none) =
          Option.map (fun out => 256 :: out)
            (decodeLoop (HuffmanNode.mk 256 1 none none) bs none)))) ∧
    ((97 : Nat) ≠ NOT_A_CHAR ∧
      (buildEncodingTree [(97, 3)] = some (HuffmanNode.mk 97 3 none none) ∧
      buildEncodingMap (HuffmanNode.mk 97 3 none none) = some [(97, [])] ∧
      ((97 : Nat) = PSEUDO_EOF → ∀ bits,
        decode bits (HuffmanNode.mk 97 3 none none) = some []) ∧
      ((97 : Nat) ≠ PSEUDO_EOF → ∀ (b : Bool) (bs : List Bool),
        decode (b :: bs) (HuffmanNode.mk 97 3 none none) =
          Option.map (fun out => 97 :: out)
            (decodeLoop (HuffmanNode.mk 97 3 none none) bs none)))) :=
  ⟨⟨by decide, single_symbol_spec 256 1 (by decide)⟩,
   ⟨by decide, single_symbol_spec 97 3 (by decide)⟩⟩

/-!
## Claim C9
-/

theorem encodeLoop_none (input : List Nat) (em : hashmapE) :
    ∀ (acc : List Bool) (size : Nat),
      (∃ c ∈ input, emAt em c = none) →
      encodeLoop input em acc size = none := by
  induction input with
  | nil =>
      rintro acc size ⟨c, hc, _⟩
      cases hc
  | cons c rest ih =>
      rintro acc size ⟨d, hd, hnone⟩
      rw [encodeLoop]
      rcases List.mem_cons.1 hd with rfl | hd2
      · rw [hnone]
      · match hc : emAt em c with
        | none => rfl
        | some code => exact ih _ _ ⟨d, hd2, hnone⟩

theorem encodeLoop_some (input : List Nat) (em : hashmapE)
    (eof : List Bool) (heof : emAt em PSEUDO_EOF = some eof) :
    ∀ (acc : List Bool) (size : Nat),
      (∀ c ∈ input, (emAt em c).isSome) →
      encodeLoop input em acc size =
        some (acc ++ ((List.map (fun c => (emAt em c).getD []) input).flatten
            ++ eof),
          size + ((List.map (fun c => (emAt em c).getD []) input).flatten
            ++ eof).length) := by
  induction input with
  | nil =>
      intro acc size hall
      rw [encodeLoop, heof]
      simp
  | cons c rest ih =>
      intro acc size hall
      rw [encodeLoop]
      match hc : emAt em c with
      | none =>
          exact absurd (hall c (by simp)) (by simp [hc])
      | some code =>
          have hred : (match some code with
              | none => none
              | some code =>
                  encodeLoop rest em (acc ++ code) (size + code.length)) =
              encodeLoop rest em (acc ++ code) (size + code.length) := rfl
          rw [hred, ih _ _ (fun d hd => hall d (by simp [hd]))]
          rw [List.map_cons, List.flatten_cons, hc]
          simp [List.append_assoc]
          omega

/-- C9: a source symbol with no entry in the code table makes `encode`
abort (the `at` lookup throws, modelled as `none`) rather than produce
output; and when every source symbol has an entry (and the table carries
the sentinel's code, as every table built by `buildEncodingMap` does),
`encode` succeeds and returns exactly the concatenated codes of the
symbols followed by the sentinel's code, with `size` equal to the number
of bits written. -/
theorem encode_spec (input : List Nat) (em : hashmapE) :
    ((∃ c ∈ input, emAt em c = none) →
      encode input em 0 true = none) ∧
    (∀ eof, emAt em PSEUDO_EOF = some eof →
      (∀ c ∈ input, (emAt em c).isSome) →
      ∃ bits, encode input em 0 true = some (bits, bits.length) ∧
        bits = (List.map (fun c => (emAt em c).getD []) input).flatten
          ++ eof) := by
  constructor
  · intro h
    rw [encode, if_pos rfl]
    exact encodeLoop_none input em [] 0 h
  · intro eof heof hall
    rw [encode, if_pos rfl]
    rw [encodeLoop_some input em eof heof [] 0 hall]
    refine ⟨(List.map (fun c => (emAt em c).getD []) input).flatten ++ eof,
      ?_, rfl⟩
    simp

/-- Witness for C9: an unencodable symbol aborts; an encodable input
yields the concatenated codes plus the sentinel code. -/
theorem encode_spec_witness :
    encode [98] [(97, [false]), (256, [true])] 0 true = none ∧
    (∃ bits, encode [97] [(97, [false]), (256, [true])] 0 true =
        some (bits, bits.length) ∧
      bits = (List.map (fun c => (emAt [(97, [false]), (256, [true])] c).getD [])
          [97]).flatten ++ [true]) :=
  ⟨(encode_spec [98] [(97, [false]), (256, [true])]).1
      ⟨98, by decide, by decide⟩,
   (encode_spec [97] [(97, [false]), (256, [true])]).2 [true]
      (by decide) (by decide)⟩

/-!
## Claim C10
-/

/-- C10: when the filename does not name an openable file, `compress`
builds the frequency model from the filename's characters, but the encode
pass reads from the unopenable stream and produces no symbols, so the
returned bit string is exactly the sentinel's code from the code table of
the filename-derived tree (with `size` its length); the filename's
characters are never themselves encoded. -/
theorem compress_nofile_spec (filename : List Nat)
    (hf : ∀ c ∈ filename, c < 256) :
    ∃ t em pe,
      buildEncodingTree (buildFrequencyMap filename false [] []) = some t ∧
      buildEncodingMap t = some em ∧
      emAt em PSEUDO_EOF = some pe ∧
      compress filename none =
        some (buildFrequencyMap filename false [] [], pe, pe.length) := by
  set m : hashmapF := buildFrequencyMap filename false [] [] with hm
  have hS : ∀ c ∈ (if false then ([] : List Nat) else filename), c < 256 := by
    simpa using hf
  have hmem : PSEUDO_EOF ∈ hmKeys m :=
    (buildFrequencyMap_mem_keys filename false [] PSEUDO_EOF).2 (Or.inr rfl)
  have hne : hmKeys m ≠ [] := by
    intro hc
    rw [hc] at hmem
    cases hmem
  have hmark : NOT_A_CHAR ∉ hmKeys m := by
    intro hc
    have := buildFrequencyMap_keys_lt filename false [] hS NOT_A_CHAR hc
    simp [NOT_A_CHAR, PSEUDO_EOF] at this
  have hnd : (hmKeys m).Nodup := buildFrequencyMap_nodup filename false []
  obtain ⟨t, ht, hft, hpm⟩ := buildEncodingTree_spec m hne hmark
  have hndl : (leafChars t).Nodup := hpm.nodup_iff.2 hnd
  have hem := buildEncodingMap_eq_codes t hft hndl
  have hpe : PSEUDO_EOF ∈ leafChars t := hpm.mem_iff.2 hmem
  obtain ⟨pe, hpe2⟩ := codes_mem_of_leafChar t _ hpe
  have hemat : emAt (codes t) PSEUDO_EOF = some pe := emAt_of_mem t hndl _ pe hpe2
  refine ⟨t, codes t, pe, ht, hem, hemat, ?_⟩
  rw [compress]
  simp only [Option.isSome_none, Option.getD_none, ← hm, ht, hem]
  rw [encode, if_pos rfl, encodeLoop, hemat]
  simp

/-- Witness for C10 at the filename "a". -/
theorem compress_nofile_spec_witness :
    (∀ c ∈ [97], c < 256) ∧
    (∃ t em pe,
      buildEncodingTree (buildFrequencyMap [97] false [] []) = some t ∧
      buildEncodingMap t = some em ∧
      emAt em PSEUDO_EOF = some pe ∧
      compress [97] none =
        some (buildFrequencyMap [97] false [] [], pe, pe.length)) :=
  ⟨by decide, compress_nofile_spec [97] (by decide)⟩

/-! ## Decoding along code paths -/

theorem leafChars_ne_marker (t : HuffmanNode) (h : fullTree t = true) :
    ∀ c ∈ leafChars t, c ≠ NOT_A_CHAR := by
  induction t using HuffmanNode.recFull with
  | h1 c w =>
      intro d hd
      rw [leafChars] at hd
      rcases List.mem_singleton.1 hd with rfl
      rw [fullTree] at h
      simpa using h
  | h2 c w z o ihz iho =>
      rw [fullTree] at h
      simp only [Bool.and_eq_true, beq_iff_eq] at h
      intro d hd
      rw [leafChars] at hd
      rcases List.mem_append.1 hd with h3 | h3
      · exact ihz h.1.2 d h3
      · exact iho h.2 d h3
  | h3 c w z ih => rw [fullTree] at h; cases h
  | h4 c w o ih => rw [fullTree] at h; cases h

theorem root_shape (root : HuffmanNode) (hfull : fullTree root = true)
    (hroot : root.character = NOT_A_CHAR) :
    ∃ w z o, root = HuffmanNode.mk NOT_A_CHAR w (some z) (some o) := by
  match root, hfull, hroot with
  | .mk c w none none, hfull, hroot =>
      rw [fullTree] at hfull
      rw [HuffmanNode.character] at hroot
      rw [hroot] at hfull
      simp at hfull
  | .mk c w (some z) (some o), hfull, hroot =>
      exact ⟨w, z, o, by rw [show c = NOT_A_CHAR from hroot]⟩
  | .mk c w (some z) none, hfull, hroot => rw [fullTree] at hfull; cases hfull
  | .mk c w none (some o), hfull, hroot => rw [fullTree] at hfull; cases hfull

/-- A decode step sitting at the sentinel leaf stops with empty output
(whether or not bits remain). -/
theorem decodeLoop_sentinel (root : HuffmanNode) (w : Nat)
    (bits : List Bool) :
    decodeLoop root bits (some (HuffmanNode.mk PSEUDO_EOF w none none)) =
      some [] := by
  match bits with
  | [] => rfl
  | b :: bs =>
      rw [decodeLoop]
      simp [HuffmanNode.character]

/-- A decode step sitting at a real leaf with bits remaining emits the
leaf's symbol, resets to the root, and proceeds exactly as a step from the
root (the root, being internal, emits nothing). -/
theorem decodeLoop_emit (root : HuffmanNode)
    (hroot : root.character = NOT_A_CHAR) (c w : Nat)
    (hce : c ≠ PSEUDO_EOF) (hcm : c ≠ NOT_A_CHAR) (b : Bool)
    (bs : List Bool) :
    decodeLoop root (b :: bs) (some (HuffmanNode.mk c w none none)) =
      Option.map (fun out => c :: out)
        (decodeLoop root (b :: bs) (some root)) := by
  conv_rhs => rw [decodeLoop]
  rw [if_neg (by rw [hroot]; simp [NOT_A_CHAR, PSEUDO_EOF]),
    if_neg (by rw [hroot]; simp)]
  rw [decodeLoop,
    if_neg (by simpa [HuffmanNode.character] using hce),
    if_pos (by simpa [HuffmanNode.character] using hcm)]
  rfl

/-- Consuming a leaf's code path from a full subtree lands the decoder at
that leaf. -/
theorem decodeLoop_descend (root : HuffmanNode) :
    ∀ (u : HuffmanNode), fullTree u = true →
      ∀ (c : Nat) (p : List Bool), (c, p) ∈ codes u →
      ∃ wc, ∀ (bs : List Bool),
        decodeLoop root (p ++ bs) (some u) =
          decodeLoop root bs (some (HuffmanNode.mk c wc none none)) := by
  intro u
  induction u using HuffmanNode.recFull with
  | h1 d w =>
      intro hfull c p hp
      rw [codes] at hp
      rcases List.mem_singleton.1 hp with h
      have hc : c = d := congrArg Prod.fst h
      have hpn : p = ([] : List Bool) := congrArg Prod.snd h
      refine ⟨w, fun bs => ?_⟩
      rw [hpn, hc, List.nil_append]
  | h2 d w z o ihz iho =>
      intro hfull c p hp
      rw [fullTree] at hfull
      simp only [Bool.and_eq_true, beq_iff_eq] at hfull
      rw [codes] at hp
      rcases List.mem_append.1 hp with h3 | h3
      · rcases List.mem_map.1 h3 with ⟨e, he, heq⟩
        have hc : c = e.1 := (congrArg Prod.fst heq).symm
        have hpe : p = false :: e.2 := (congrArg Prod.snd heq).symm
        obtain ⟨wc, hw⟩ := ihz hfull.1.2 e.1 e.2 (by
          rcases e with ⟨e1, e2⟩
          exact he)
        refine ⟨wc, fun bs => ?_⟩
        rw [hpe, hc, List.cons_append, decodeLoop,
          if_neg (by rw [HuffmanNode.character, hfull.1.1]
                     simp [NOT_A_CHAR, PSEUDO_EOF]),
          if_neg (by rw [HuffmanNode.character, hfull.1.1]; simp)]
        rw [show (if false then (HuffmanNode.mk d w (some z) (some o)).one
            else (HuffmanNode.mk d w (some z) (some o)).zero) = some z from rfl]
        exact hw bs
      · rcases List.mem_map.1 h3 with ⟨e, he, heq⟩
        have hc : c = e.1 := (congrArg Prod.fst heq).symm
        have hpe : p = true :: e.2 := (congrArg Prod.snd heq).symm
        obtain ⟨wc, hw⟩ := iho hfull.2 e.1 e.2 (by
          rcases e with ⟨e1, e2⟩
          exact he)
        refine ⟨wc, fun bs => ?_⟩
        rw [hpe, hc, List.cons_append, decodeLoop,
          if_neg (by rw [HuffmanNode.character, hfull.1.1]
                     simp [NOT_A_CHAR, PSEUDO_EOF]),
          if_neg (by rw [HuffmanNode.character, hfull.1.1]; simp)]
        rw [show (if true then (HuffmanNode.mk d w (some z) (some o)).one
            else (HuffmanNode.mk d w (some z) (some o)).zero) = some o from rfl]
        exact hw bs
  | h3 d w z ih => intro hfull; rw [fullTree] at hfull; cases hfull
  | h4 d w o ih => intro hfull; rw [fullTree] at hfull; cases hfull

/-- The decoder inverts the encoder: walking the concatenated codes of the
symbols of `S` followed by the sentinel's code (and arbitrary trailing
bits, covering byte padding) reproduces `S`. -/
theorem decodeLoop_decodes (root : HuffmanNode)
    (hfull : fullTree root = true) (hroot : root.character = NOT_A_CHAR)
    (hnd : (leafChars root).Nodup) (eofp : List Bool)
    (heof : (PSEUDO_EOF, eofp) ∈ codes root) :
    ∀ (S : List Nat), (∀ c ∈ S, c ≠ PSEUDO_EOF ∧ c ∈ leafChars root) →
    ∀ (extra : List Bool),
      decodeLoop root
        ((List.map (fun c => (emAt (codes root) c).getD []) S).flatten
          ++ (eofp ++ extra)) (some root) = some S := by
  obtain ⟨wr, zr, onr, hshape⟩ := root_shape root hfull hroot
  have heofne : eofp ≠ [] := by
    have := codes_ne_nil_of_internal (some zr) (some onr) NOT_A_CHAR wr
      (by rfl) (PSEUDO_EOF, eofp) (by rw [← hshape]; exact heof)
    simpa using this
  intro S
  induction S with
  | nil =>
      intro hS extra
      rw [List.map_nil, List.flatten_nil, List.nil_append]
      obtain ⟨wc, hw⟩ := decodeLoop_descend root root hfull PSEUDO_EOF eofp heof
      rw [hw extra]
      exact decodeLoop_sentinel root wc extra
  | cons c rest ih =>
      intro hS extra
      have hc := hS c (by simp)
      obtain ⟨p, hp⟩ := codes_mem_of_leafChar root c hc.2
      have hemat : emAt (codes root) c = some p := emAt_of_mem root hnd c p hp
      rw [List.map_cons, List.flatten_cons, hemat]
      rw [show (some p).getD ([] : List Bool) = p from rfl]
      rw [List.append_assoc]
      obtain ⟨wc, hw⟩ := decodeLoop_descend root root hfull c p hp
      rw [hw]
      set X := (List.map (fun c => (emAt (codes root) c).getD []) rest).flatten
        ++ (eofp ++ extra) with hX
      have hXne : X ≠ [] := by
        rw [hX]
        intro hcon
        rcases List.append_eq_nil.1 hcon with ⟨_, h2⟩
        rcases List.append_eq_nil.1 h2 with ⟨h3, _⟩
        exact heofne h3
      obtain ⟨b, bs, hbs⟩ : ∃ b bs, X = b :: bs := by
        match X, hXne with
        | b :: bs, _ => exact ⟨b, bs, rfl⟩
      rw [hbs]
      rw [decodeLoop_emit root hroot c wc hc.1
        (leafChars_ne_marker root hfull c hc.2) b bs]
      rw [← hbs, hX]
      rw [ih (fun d hd => hS d (by simp [hd])) extra]
      rfl

theorem two_le_length_of_mem_ne {α : Type} {l : List α} {a b : α}
    (ha : a ∈ l) (hb : b ∈ l) (hab : a ≠ b) : 2 ≤ l.length := by
  match l with
  | [] => cases ha
  | [x] =>
      rcases List.mem_singleton.1 ha with rfl
      rcases List.mem_singleton.1 hb with rfl
      exact absurd rfl hab
  | x :: y :: rest =>
      rw [List.length_cons, List.length_cons]
      omega

theorem buildEncodingTree_internal (m : hashmapF)
    (h2 : 2 ≤ (hmKeys m).length) (t : HuffmanNode)
    (ht : buildEncodingTree m = some t) : t.character = NOT_A_CHAR := by
  have hperm := pushLeaves_perm (hmKeys m) m []
  rw [List.append_nil] at hperm
  have hlen : (pushLeaves (hmKeys m) m []).length = (hmKeys m).length := by
    rw [hperm.length_eq, List.length_map]
  exact mergeLoop_internal (pushLeaves (hmKeys m) m []).length _ rfl
    (by rw [hlen]; exact h2) t ht

/-!
## Claim C1
-/

/-- C1: round trip.  For every finite byte sequence S (including the empty
and the single-symbol sequence), compressing the file S and then
decompressing the produced output — the persisted frequency-map header
followed by the payload bits (plus any trailing padding bits `extra`) —
yields exactly S. -/
theorem compress_decompress_roundtrip (filename S : List Nat)
    (hS : ∀ c ∈ S, c < 256) (extra : List Bool) :
    ∃ m bits size, compress filename (some S) = some (m, bits, size) ∧
      decompress m (bits ++ extra) = some S := by
  match S, hS with
  | [], hS =>
      refine ⟨[(PSEUDO_EOF, 1)], [], 0, ?_, ?_⟩
      · rw [compress]
        simp only [Option.isSome_some, Option.getD_some,
          show buildFrequencyMap filename true [] [] = [(PSEUDO_EOF, 1)]
            from rfl,
          buildEncodingTree_singleton,
          buildEncodingMap_leaf PSEUDO_EOF 1 (by decide)]
        rfl
      · rw [List.nil_append, decompress]
        simp only [buildEncodingTree_singleton]
        exact decodeLoop_sentinel (HuffmanNode.mk PSEUDO_EOF 1 none none) 1
          extra
  | c0 :: S', hS =>
      set m : hashmapF := buildFrequencyMap filename true (c0 :: S') []
        with hm
      have hS' : ∀ c ∈ (if true then (c0 :: S') else filename), c < 256 := by
        simpa using hS
      have hmem : PSEUDO_EOF ∈ hmKeys m :=
        (buildFrequencyMap_mem_keys filename true (c0 :: S') PSEUDO_EOF).2
          (Or.inr rfl)
      have hne : hmKeys m ≠ [] := by
        intro hc
        rw [hc] at hmem
        cases hmem
      have hmark : NOT_A_CHAR ∉ hmKeys m := by
        intro hc
        have := buildFrequencyMap_keys_lt filename true (c0 :: S') hS'
          NOT_A_CHAR hc
        simp [NOT_A_CHAR, PSEUDO_EOF] at this
      have hnd := buildFrequencyMap_nodup filename true (c0 :: S')
      obtain ⟨t, ht, hft, hpm⟩ := buildEncodingTree_spec m hne hmark
      have hndl : (leafChars t).Nodup := hpm.nodup_iff.2 hnd
      have hem := buildEncodingMap_eq_codes t hft hndl
      have hpeofmem : PSEUDO_EOF ∈ leafChars t := hpm.mem_iff.2 hmem
      obtain ⟨eofp, heofp⟩ := codes_mem_of_leafChar t _ hpeofmem
      have heofat : emAt (codes t) PSEUDO_EOF = some eofp :=
        emAt_of_mem t hndl _ _ heofp
      have hmemS : ∀ c ∈ (c0 :: S'), c ∈ leafChars t := by
        intro c hc
        refine hpm.mem_iff.2 ?_
        exact (buildFrequencyMap_mem_keys filename true (c0 :: S') c).2
          (Or.inl (by simpa using hc))
      have hallS : ∀ c ∈ (c0 :: S'), (emAt (codes t) c).isSome := by
        intro c hc
        obtain ⟨p, hp⟩ := codes_mem_of_leafChar t c (hmemS c hc)
        rw [emAt_of_mem t hndl c p hp]
        rfl
      have h2 : 2 ≤ (hmKeys m).length := by
        have hc0 : c0 ∈ hmKeys m :=
          (buildFrequencyMap_mem_keys filename true (c0 :: S') c0).2
            (Or.inl (by simp))
        refine two_le_length_of_mem_ne hc0 hmem ?_
        intro hc
        have := hS c0 (by simp)
        rw [hc] at this
        simp [PSEUDO_EOF] at this
      have hti : t.character = NOT_A_CHAR := buildEncodingTree_internal m h2 t ht
      have henc : encode (c0 :: S') (codes t) 0 true =
          some ((List.map (fun c => (emAt (codes t) c).getD [])
              (c0 :: S')).flatten ++ eofp,
            0 + ((List.map (fun c => (emAt (codes t) c).getD [])
              (c0 :: S')).flatten ++ eofp).length) := by
        rw [encode, if_pos rfl,
          encodeLoop_some (c0 :: S') (codes t) eofp heofat [] 0 hallS]
        rw [List.nil_append]
      refine ⟨m,
        (List.map (fun c => (emAt (codes t) c).getD []) (c0 :: S')).flatten
          ++ eofp,
        0 + ((List.map (fun c => (emAt (codes t) c).getD [])
          (c0 :: S')).flatten ++ eofp).length, ?_, ?_⟩
      · rw [compress]
        simp only [Option.isSome_some, Option.getD_some, ← hm, ht, hem, henc]
      · rw [decompress, ht]
        show decode ((List.map (fun c => (emAt (codes t) c).getD [])
            (c0 :: S')).flatten ++ eofp ++ extra) t = some (c0 :: S')
        rw [decode, List.append_assoc]
        exact decodeLoop_decodes t hft hti hndl eofp heofp (c0 :: S')
          (fun c hc => ⟨fun hce => by
              have := hS c hc
              rw [hce] at this
              simp [PSEUDO_EOF] at this,
            hmemS c hc⟩) extra

/-- Witness for C1 on the file contents "aab" with empty padding and on the
empty file with two padding bits. -/
theorem compress_decompress_roundtrip_witness :
    ((∀ c ∈ [97, 97, 98], c < 256) ∧
      (∃ m bits size, compress [102] (some [97, 97, 98]) =
          some (m, bits, size) ∧
        decompress m (bits ++ []) = some [97, 97, 98])) ∧
    ((∀ c ∈ ([] : List Nat), c < 256) ∧
      (∃ m bits size, compress [102] (some []) = some (m, bits, size) ∧
        decompress m (bits ++ [false, false]) = some [])) :=
  ⟨⟨by decide, compress_decompress_roundtrip [102] [97, 97, 98] (by decide) []⟩,
   ⟨by decide, compress_decompress_roundtrip [102] [] (by decide)
      [false, false]⟩⟩

/-!
## Claim C2 (evidence)
-/

/-- C2 evidence: the decode loop does NOT report an error on a truncated
bit source.  For the model of the two-byte file "ab", the full payload
`[1,0,1,1,0]` decodes to "ab", but the truncated source `[1,0,1]` — which
never reaches the sentinel leaf — makes `decode` exit its loop at eof and
return the partially decoded output "a" as its ordinary, indistinguishable
result.  (`some` here is the normal return of the modelled function; the
`none` that models an aborting error is never produced.) -/
theorem decode_truncation_returns_partial :
    ∃ t, buildEncodingTree [(97, 1), (98, 1), (256, 1)] = some t ∧
      decode [true, false, true, true, false] t = some [97, 98] ∧
      decode [true, false, true] t = some [97] := by
  refine ⟨HuffmanNode.mk NOT_A_CHAR 3
    (some (HuffmanNode.mk 256 1 none none))
    (some (HuffmanNode.mk NOT_A_CHAR 2
      (some (HuffmanNode.mk 97 1 none none))
      (some (HuffmanNode.mk 98 1 none none)))), ?_, ?_, ?_⟩
  · simp [buildEncodingTree, mergeLoop, pushLeaves, pqPush, hmKeys, hmGet,
      HuffmanNode.count, NOT_A_CHAR]
  · rfl
  · rfl

/-!
## Optimality of the built tree (claim C3)

The weighted-path-length optimality of the greedy merge is proved on a
plain binary-tree type `HTree` carrying a weight per node, following the
classic exchange-argument proof; a bridge then transports the result to
`buildEncodingTree`'s `HuffmanNode` trees.
-/

/-- A weighted binary code tree: leaves carry a symbol and its weight,
inner nodes cache the weight of their subtree. -/
inductive HTree : Type where
  | leaf (w : Nat) (a : Nat)
  | node (w : Nat) (l r : HTree)

/-- Symbols at the leaves. -/
def HTree.alpha : HTree → Finset Nat
  | .leaf _ a => {a}
  | .node _ l r => alpha l ∪ alpha r

/-- Well-separated tree: each symbol occurs in at most one leaf. -/
def HTree.sep : HTree → Prop
  | .leaf _ _ => True
  | .node _ l r => alpha l ∩ alpha r = ∅ ∧ sep l ∧ sep r

/-- Depth of a symbol's leaf (0 when absent). -/
def HTree.dep : HTree → Nat → Nat
  | .leaf _ _, _ => 0
  | .node _ l r, a =>
      if a ∈ alpha l then dep l a + 1
      else if a ∈ alpha r then dep r a + 1
      else 0

/-- Height. -/
def HTree.hgt : HTree → Nat
  | .leaf _ _ => 0
  | .node _ l r => max (hgt l) (hgt r) + 1

/-- Weight assigned to a symbol by the tree's leaves. -/
def HTree.frq : HTree → Nat → Nat
  | .leaf w a, b => if b = a then w else 0
  | .node _ l r, b => frq l b + frq r b

/-- Total leaf weight. -/
def HTree.wt : HTree → Nat
  | .leaf w _ => w
  | .node _ l r => wt l + wt r

/-- Weighted path length (cost). -/
def HTree.cost : HTree → Nat
  | .leaf _ _ => 0
  | .node _ l r => wt l + cost l + wt r + cost r

/-- The weight stored at the root. -/
def HTree.cached : HTree → Nat
  | .leaf w _ => w
  | .node w _ _ => w

/-- `t` beats every separated tree over the same symbols and weights. -/
def optimalTree (t : HTree) : Prop :=
  ∀ u : HTree, u.sep → t.alpha = u.alpha → t.frq = u.frq →
    t.cost ≤ u.cost

/-- `a` and `b` are two distinct symbols of minimal weight in `t`. -/
def lowPair (t : HTree) (a b : Nat) : Prop :=
  a ∈ t.alpha ∧ b ∈ t.alpha ∧ a ≠ b ∧
  ∀ c ∈ t.alpha, c ≠ a → c ≠ b → t.frq a ≤ t.frq c ∧ t.frq b ≤ t.frq c

/-- Symbols of a forest. -/
def alphaF : List HTree → Finset Nat
  | [] => ∅
  | t :: ts => t.alpha ∪ alphaF ts

/-- Separated forest: separated trees with pairwise disjoint symbols. -/
def sepF : List HTree → Prop
  | [] => True
  | t :: ts => (t.alpha ∩ alphaF ts = ∅) ∧ t.sep ∧ sepF ts

/-- Weight a forest assigns to a symbol. -/
def frqF : List HTree → Nat → Nat
  | [], _ => 0
  | t :: ts, b => t.frq b + frqF ts b

/-- Height of a forest. -/
def hgtF : List HTree → Nat
  | [] => 0
  | t :: ts => max t.hgt (hgtF ts)

/-- Forest sorted by ascending cached root weight (the order `insortF`
maintains). -/
def sortedF : List HTree → Prop
  | [] => True
  | [_] => True
  | t1 :: t2 :: ts => t1.cached ≤ t2.cached ∧ sortedF (t2 :: ts)

/-- Merge two trees under a fresh root (the step of the greedy merge). -/
def unite (t1 t2 : HTree) : HTree :=
  .node (t1.cached + t2.cached) t1 t2

/-- Sorted insertion by cached weight, placing the new tree after every
tree of smaller-or-equal cached weight (mirrors `pqPush`). -/
def insortF (u : HTree) : List HTree → List HTree
  | [] => [u]
  | t :: ts => if u.cached < t.cached then u :: t :: ts else t :: insortF u ts

/-- The greedy Huffman merge on a sorted forest (mirrors `mergeLoop`). -/
def huffmanAlg : List HTree → Option HTree
  | [] => none
  | [t] => some t
  | t1 :: t2 :: ts => huffmanAlg (insortF (unite t1 t2) ts)
termination_by ts => ts.length
decreasing_by
  have h : ∀ (l : List HTree) (u : HTree), (insortF u l).length = l.length + 1 := by
    intro l
    induction l with
    | nil => intro u; rfl
    | cons x xs ih =>
        intro u
        rw [insortF]
        split
        · rfl
        · rw [List.length_cons, ih, List.length_cons]
  simp [h]

theorem noInter {A B : Finset Nat} {a : Nat} (h : A ∩ B = ∅)
    (h1 : a ∈ A) (h2 : a ∈ B) : False := by
  have : a ∈ A ∩ B := Finset.mem_inter.2 ⟨h1, h2⟩
  rw [h] at this
  cases this

theorem HTree.alpha_nonempty (t : HTree) : ∃ a, a ∈ t.alpha := by
  induction t with
  | leaf w a => exact ⟨a, by simp [alpha]⟩
  | node w l r ihl ihr =>
      rcases ihl with ⟨a, ha⟩
      exact ⟨a, by simp [alpha, ha]⟩

theorem HTree.dep_le_hgt (t : HTree) (a : Nat) : t.dep a ≤ t.hgt := by
  induction t with
  | leaf w b => simp [dep, hgt]
  | node w l r ihl ihr =>
      rw [dep, hgt]
      by_cases h1 : a ∈ l.alpha
      · simp only [h1, if_true]
        omega
      · by_cases h2 : a ∈ r.alpha
        · simp only [h1, h2, if_true, if_false]
          omega
        · simp [h1, h2]

/-- Some symbol sits at full height. -/
theorem HTree.exists_at_hgt (t : HTree) (hs : t.sep) :
    ∃ a ∈ t.alpha, t.dep a = t.hgt := by
  induction t with
  | leaf w a => exact ⟨a, by simp [alpha], rfl⟩
  | node w l r ihl ihr =>
      rcases hs with ⟨hd, hsl, hsr⟩
      rw [hgt]
      rcases Nat.le_total l.hgt r.hgt with hmax | hmax
      · rcases ihr hsr with ⟨a, ha, hda⟩
        refine ⟨a, by simp [alpha, ha], ?_⟩
        have hanl : a ∉ l.alpha := fun hc => noInter hd hc ha
        rw [dep, if_neg hanl, if_pos ha, hda]
        omega
      · rcases ihl hsl with ⟨a, ha, hda⟩
        refine ⟨a, by simp [alpha, ha], ?_⟩
        rw [dep, if_pos ha, hda]
        omega

theorem HTree.frq_off (t : HTree) (a : Nat) (h : a ∉ t.alpha) :
    t.frq a = 0 := by
  induction t with
  | leaf w b =>
      rw [alpha] at h
      rw [frq, if_neg (by simpa using h)]
  | node w l r ihl ihr =>
      rw [alpha] at h
      simp only [Finset.mem_union] at h
      rw [frq, ihl (fun hc => h (Or.inl hc)), ihr (fun hc => h (Or.inr hc))]

theorem frqF_off (ts : List HTree) (a : Nat) (h : a ∉ alphaF ts) :
    frqF ts a = 0 := by
  induction ts with
  | nil => rfl
  | cons t ts ih =>
      rw [alphaF] at h
      simp only [Finset.mem_union] at h
      rw [frqF, HTree.frq_off t a (fun hc => h (Or.inl hc)),
        ih (fun hc => h (Or.inr hc))]

theorem HTree.wt_eq_sum (t : HTree) (hs : t.sep) :
    t.wt = ∑ a ∈ t.alpha, t.frq a := by
  induction t with
  | leaf w a => simp [wt, alpha, frq]
  | node w l r ihl ihr =>
      rcases hs with ⟨hd, hsl, hsr⟩
      have hdisj : Disjoint l.alpha r.alpha :=
        Finset.disjoint_iff_inter_eq_empty.2 hd
      rw [wt, alpha, Finset.sum_union hdisj]
      have h1 : ∑ a ∈ l.alpha, HTree.frq (.node w l r) a
          = ∑ a ∈ l.alpha, l.frq a := by
        refine Finset.sum_congr rfl (fun a ha => ?_)
        rw [frq, HTree.frq_off r a (fun hc => noInter hd ha hc)]
        omega
      have h2 : ∑ a ∈ r.alpha, HTree.frq (.node w l r) a
          = ∑ a ∈ r.alpha, r.frq a := by
        refine Finset.sum_congr rfl (fun a ha => ?_)
        rw [frq, HTree.frq_off l a (fun hc => noInter hd hc ha)]
        omega
      rw [h1, h2, ihl hsl, ihr hsr]

/-- Cost is the weighted path length: sum of weight times depth. -/
theorem HTree.cost_eq_sum (t : HTree) (hs : t.sep) :
    t.cost = ∑ a ∈ t.alpha, t.frq a * t.dep a := by
  induction t with
  | leaf w a => simp [cost, alpha, frq, dep]
  | node w l r ihl ihr =>
      rcases hs with ⟨hd, hsl, hsr⟩
      have hdisj : Disjoint l.alpha r.alpha :=
        Finset.disjoint_iff_inter_eq_empty.2 hd
      rw [cost, alpha, Finset.sum_union hdisj]
      have h1 : ∑ a ∈ l.alpha, HTree.frq (.node w l r) a *
          HTree.dep (.node w l r) a = ∑ a ∈ l.alpha, l.frq a * (l.dep a + 1) := by
        refine Finset.sum_congr rfl (fun a ha => ?_)
        rw [frq, dep, if_pos ha,
          HTree.frq_off r a (fun hc => noInter hd ha hc)]
        ring
      have h2 : ∑ a ∈ r.alpha, HTree.frq (.node w l r) a *
          HTree.dep (.node w l r) a = ∑ a ∈ r.alpha, r.frq a * (r.dep a + 1) := by
        refine Finset.sum_congr rfl (fun a ha => ?_)
        rw [frq, dep, if_neg (fun hc => noInter hd hc ha), if_pos ha,
          HTree.frq_off l a (fun hc => noInter hd hc ha)]
        ring
      rw [h1, h2]
      have h3 : ∑ a ∈ l.alpha, l.frq a * (l.dep a + 1)
          = (∑ a ∈ l.alpha, l.frq a * l.dep a) + ∑ a ∈ l.alpha, l.frq a := by
        rw [← Finset.sum_add_distrib]
        refine Finset.sum_congr rfl (fun a ha => ?_)
        ring
      have h4 : ∑ a ∈ r.alpha, r.frq a * (r.dep a + 1)
          = (∑ a ∈ r.alpha, r.frq a * r.dep a) + ∑ a ∈ r.alpha, r.frq a := by
        rw [← Finset.sum_add_distrib]
        refine Finset.sum_congr rfl (fun a ha => ?_)
        ring
      rw [h3, h4, ← ihl hsl, ← ihr hsr, ← HTree.wt_eq_sum l hsl,
        ← HTree.wt_eq_sum r hsr]
      ring

theorem HTree.hgt_zero_cost (t : HTree) (h : t.hgt = 0) : t.cost = 0 := by
  cases t with
  | leaf w a => rfl
  | node w l r => rw [hgt] at h; omega

/-- The sibling symbol of `a`: when `a`'s leaf shares its parent with
another leaf, that leaf's symbol; otherwise `a` itself. -/
def sib : HTree → Nat → Nat
  | .leaf _ _, a => a
  | .node _ (.leaf _ b) (.leaf _ c), a =>
      if a = b then c else if a = c then b else a
  | .node _ (.leaf _ b) (.node wr r1 r2), a =>
      if a = b then a
      else if a ∈ HTree.alpha (.node wr r1 r2) then sib (.node wr r1 r2) a
      else a
  | .node _ (.node wl l1 l2) t2, a =>
      if a ∈ HTree.alpha (.node wl l1 l2) then sib (.node wl l1 l2) a
      else if a ∈ t2.alpha then sib t2 a else a

theorem mem_alpha_leaf {b w a : Nat} :
    b ∈ (HTree.leaf w a).alpha ↔ b = a := by
  rw [HTree.alpha]
  exact Finset.mem_singleton

theorem sib_off (t : HTree) (a : Nat) (h : a ∉ t.alpha) : sib t a = a := by
  induction t, a using sib.induct <;> simp_all [sib, HTree.alpha]

theorem sib_mem (t : HTree) (a : Nat) : a ∈ t.alpha → sib t a ∈ t.alpha := by
  induction t, a using sib.induct with
  | case1 w b a => exact fun h => h
  | case2 w wb wc c a =>
      intro h
      rw [sib, if_pos rfl, HTree.alpha]
      exact Finset.mem_union.2 (Or.inr (mem_alpha_leaf.2 rfl))
  | case3 w wb b wc a hab =>
      intro h
      rw [sib, if_neg hab, if_pos rfl, HTree.alpha]
      exact Finset.mem_union.2 (Or.inl (mem_alpha_leaf.2 rfl))
  | case4 w wb b wc c a hab hac =>
      intro h
      rw [sib, if_neg hab, if_neg hac]
      exact h
  | case5 w wb wr r1 r2 a =>
      intro h
      rw [sib, if_pos rfl]
      exact h
  | case6 w wb b wr r1 r2 a hab hmem ih =>
      intro h
      rw [sib, if_neg hab, if_pos hmem, HTree.alpha]
      exact Finset.mem_union.2 (Or.inr (ih hmem))
  | case7 w wb b wr r1 r2 a hab hnmem =>
      intro h
      rw [sib, if_neg hab, if_neg hnmem]
      exact h
  | case8 w wl l1 l2 t2 a hmem ih =>
      intro h
      rw [sib, if_pos hmem, HTree.alpha]
      exact Finset.mem_union.2 (Or.inl (ih hmem))
  | case9 w wl l1 l2 t2 a hn1 hmem ih =>
      intro h
      rw [sib, if_neg hn1, if_pos hmem, HTree.alpha]
      exact Finset.mem_union.2 (Or.inr (ih hmem))
  | case10 w wl l1 l2 t2 a hn1 hn2 =>
      intro h
      rw [sib, if_neg hn1, if_neg hn2]
      exact h

theorem sib_ne_mem (t : HTree) (a : Nat) (h : sib t a ≠ a) :
    sib t a ∈ t.alpha := by
  by_cases ha : a ∈ t.alpha
  · exact sib_mem t a ha
  · exact absurd (sib_off t a ha) h

theorem dep_sib (t : HTree) (a : Nat) : t.sep → t.dep (sib t a) = t.dep a := by
  induction t, a using sib.induct with
  | case1 w b a => intro hs; rfl
  | case2 w wb wc c a =>
      rintro ⟨hd, -, -⟩
      have hac : a ≠ c := by
        intro hc
        exact noInter hd (mem_alpha_leaf.2 rfl) (mem_alpha_leaf.2 hc)
      rw [sib, if_pos rfl]
      rw [HTree.dep,
        if_neg (show c ∉ (HTree.leaf wb a).alpha from
          fun hcc => hac (mem_alpha_leaf.1 hcc).symm),
        if_pos (show c ∈ (HTree.leaf wc c).alpha from mem_alpha_leaf.2 rfl)]
      conv_rhs => rw [HTree.dep,
        if_pos (show a ∈ (HTree.leaf wb a).alpha from mem_alpha_leaf.2 rfl)]
      rfl
  | case3 w wb b wc a hab =>
      rintro ⟨hd, -, -⟩
      rw [sib, if_neg hab, if_pos rfl]
      rw [HTree.dep,
        if_pos (show b ∈ (HTree.leaf wb b).alpha from mem_alpha_leaf.2 rfl)]
      conv_rhs => rw [HTree.dep,
        if_neg (show a ∉ (HTree.leaf wb b).alpha from
          fun hcc => hab (mem_alpha_leaf.1 hcc)),
        if_pos (show a ∈ (HTree.leaf wc a).alpha from mem_alpha_leaf.2 rfl)]
      rfl
  | case4 w wb b wc c a hab hac =>
      intro hs
      rw [sib, if_neg hab, if_neg hac]
  | case5 w wb wr r1 r2 a =>
      intro hs
      rw [sib, if_pos rfl]
  | case6 w wb b wr r1 r2 a hab hmem ih =>
      rintro ⟨hd, -, hs2⟩
      rw [sib, if_neg hab, if_pos hmem]
      have hsmem : sib (.node wr r1 r2) a ∈ HTree.alpha (.node wr r1 r2) :=
        sib_mem _ a hmem
      have hsb : sib (.node wr r1 r2) a ∉ HTree.alpha (.leaf wb b) :=
        fun hc => noInter hd hc hsmem
      have hanb : a ∉ HTree.alpha (.leaf wb b) :=
        fun hc => hab (mem_alpha_leaf.1 hc)
      conv_rhs => rw [HTree.dep, if_neg hanb, if_pos hmem]
      rw [HTree.dep, if_neg hsb, if_pos hsmem, ih hs2]
  | case7 w wb b wr r1 r2 a hab hnmem =>
      intro hs
      rw [sib, if_neg hab, if_neg hnmem]
  | case8 w wl l1 l2 t2 a hmem ih =>
      rintro ⟨hd, hs1, -⟩
      rw [sib, if_pos hmem]
      have hsmem : sib (.node wl l1 l2) a ∈ HTree.alpha (.node wl l1 l2) :=
        sib_mem _ a hmem
      conv_rhs => rw [HTree.dep, if_pos hmem]
      rw [HTree.dep, if_pos hsmem, ih hs1]
  | case9 w wl l1 l2 t2 a hn1 hmem ih =>
      rintro ⟨hd, -, hs2⟩
      rw [sib, if_neg hn1, if_pos hmem]
      have hsmem : sib t2 a ∈ t2.alpha := sib_mem _ a hmem
      have hsn1 : sib t2 a ∉ HTree.alpha (.node wl l1 l2) :=
        fun hc => noInter hd hc hsmem
      conv_rhs => rw [HTree.dep, if_neg hn1, if_pos hmem]
      rw [HTree.dep, if_neg hsn1, if_pos hsmem, ih hs2]
  | case10 w wl l1 l2 t2 a hn1 hn2 =>
      intro hs
      rw [sib, if_neg hn1, if_neg hn2]

theorem dep_hgt_sib_ne (t : HTree) (a : Nat) :
    t.sep → a ∈ t.alpha → t.dep a = t.hgt → 0 < t.hgt → sib t a ≠ a := by
  induction t, a using sib.induct with
  | case1 w b a =>
      intro hs ha hdh hh
      rw [HTree.hgt] at hh
      omega
  | case2 w wb wc c a =>
      rintro ⟨hd, -, -⟩ ha hdh hh
      have hac : a ≠ c := by
        intro hc
        exact noInter hd (mem_alpha_leaf.2 rfl) (mem_alpha_leaf.2 hc)
      rw [sib, if_pos rfl]
      exact Ne.symm hac
  | case3 w wb b wc a hab =>
      intro hs ha hdh hh
      rw [sib, if_neg hab, if_pos rfl]
      exact Ne.symm hab
  | case4 w wb b wc c a hab hac =>
      intro hs ha hdh hh
      exfalso
      rw [HTree.alpha] at ha
      rcases Finset.mem_union.1 ha with h | h
      · exact hab (mem_alpha_leaf.1 h)
      · exact hac (mem_alpha_leaf.1 h)
  | case5 w wb wr r1 r2 a =>
      intro hs ha hdh hh
      exfalso
      rw [HTree.dep,
        if_pos (show a ∈ (HTree.leaf wb a).alpha from mem_alpha_leaf.2 rfl)]
        at hdh
      rw [HTree.dep] at hdh
      rw [HTree.hgt, HTree.hgt, HTree.hgt] at hdh
      omega
  | case6 w wb b wr r1 r2 a hab hmem ih =>
      rintro ⟨hd, -, hs2⟩ ha hdh hh
      rw [sib, if_neg hab, if_pos hmem]
      have hanb : a ∉ HTree.alpha (.leaf wb b) :=
        fun hc => hab (mem_alpha_leaf.1 hc)
      refine ih hs2 hmem ?_ (by rw [HTree.hgt]; omega)
      rw [HTree.dep, if_neg hanb, if_pos hmem] at hdh
      rw [HTree.hgt, HTree.hgt] at hdh
      omega
  | case7 w wb b wr r1 r2 a hab hnmem =>
      intro hs ha hdh hh
      exfalso
      rw [HTree.alpha] at ha
      rcases Finset.mem_union.1 ha with h | h
      · exact hab (mem_alpha_leaf.1 h)
      · exact hnmem h
  | case8 w wl l1 l2 t2 a hmem ih =>
      rintro ⟨hd, hs1, -⟩ ha hdh hh
      rw [sib, if_pos hmem]
      have hle := HTree.dep_le_hgt (HTree.node wl l1 l2) a
      refine ih hs1 hmem ?_ (by rw [HTree.hgt]; omega)
      rw [HTree.dep, if_pos hmem] at hdh
      rw [HTree.hgt] at hdh
      omega
  | case9 w wl l1 l2 t2 a hn1 hmem ih =>
      rintro ⟨hd, -, hs2⟩ ha hdh hh
      rw [sib, if_neg hn1, if_pos hmem]
      have hle := HTree.dep_le_hgt t2 a
      have hlh : 0 < HTree.hgt (HTree.node wl l1 l2) := by
        rw [HTree.hgt]
        omega
      rw [HTree.dep, if_neg hn1, if_pos hmem] at hdh
      rw [HTree.hgt] at hdh
      exact ih hs2 hmem (by omega) (by omega)
  | case10 w wl l1 l2 t2 a hn1 hn2 =>
      intro hs ha hdh hh
      exfalso
      rw [HTree.alpha] at ha
      rcases Finset.mem_union.1 ha with h | h
      · exact hn1 h
      · exact hn2 h

theorem sib_sib (t : HTree) (a : Nat) : t.sep → sib t (sib t a) = a := by
  induction t, a using sib.induct with
  | case1 w b a => intro hs; rfl
  | case2 w wb wc c a =>
      rintro ⟨hd, -, -⟩
      have hac : a ≠ c := by
        intro hc
        exact noInter hd (mem_alpha_leaf.2 rfl) (mem_alpha_leaf.2 hc)
      have hi : sib (HTree.node w (HTree.leaf wb a) (HTree.leaf wc c)) a = c := by
        rw [sib, if_pos rfl]
      rw [hi, sib, if_neg (Ne.symm hac), if_pos rfl]
  | case3 w wb b wc a hab =>
      intro hs
      have hi : sib (HTree.node w (HTree.leaf wb b) (HTree.leaf wc a)) a = b := by
        rw [sib, if_neg hab, if_pos rfl]
      rw [hi, sib, if_pos rfl]
  | case4 w wb b wc c a hab hac =>
      intro hs
      have hi : sib (HTree.node w (HTree.leaf wb b) (HTree.leaf wc c)) a = a := by
        rw [sib, if_neg hab, if_neg hac]
      rw [hi, hi]
  | case5 w wb wr r1 r2 a =>
      intro hs
      have hi : sib (HTree.node w (HTree.leaf wb a) (HTree.node wr r1 r2)) a
          = a := by
        rw [sib, if_pos rfl]
      rw [hi, hi]
  | case6 w wb b wr r1 r2 a hab hmem ih =>
      rintro ⟨hd, -, hs2⟩
      have hi : sib (HTree.node w (HTree.leaf wb b) (HTree.node wr r1 r2)) a
          = sib (HTree.node wr r1 r2) a := by
        rw [sib, if_neg hab, if_pos hmem]
      rw [hi]
      have hsmem : sib (.node wr r1 r2) a ∈ HTree.alpha (.node wr r1 r2) :=
        sib_mem _ a hmem
      have hsb : ¬ sib (.node wr r1 r2) a = b :=
        fun hc => noInter hd (mem_alpha_leaf.2 hc) hsmem
      rw [sib, if_neg hsb, if_pos hsmem]
      exact ih hs2
  | case7 w wb b wr r1 r2 a hab hnmem =>
      intro hs
      have hi : sib (HTree.node w (HTree.leaf wb b) (HTree.node wr r1 r2)) a
          = a := by
        rw [sib, if_neg hab, if_neg hnmem]
      rw [hi, hi]
  | case8 w wl l1 l2 t2 a hmem ih =>
      rintro ⟨hd, hs1, -⟩
      have hi : sib (HTree.node w (HTree.node wl l1 l2) t2) a
          = sib (HTree.node wl l1 l2) a := by
        rw [sib, if_pos hmem]
      rw [hi]
      have hsmem : sib (.node wl l1 l2) a ∈ HTree.alpha (.node wl l1 l2) :=
        sib_mem _ a hmem
      rw [sib, if_pos hsmem]
      exact ih hs1
  | case9 w wl l1 l2 t2 a hn1 hmem ih =>
      rintro ⟨hd, -, hs2⟩
      have hi : sib (HTree.node w (HTree.node wl l1 l2) t2) a = sib t2 a := by
        rw [sib, if_neg hn1, if_pos hmem]
      rw [hi]
      have hsmem : sib t2 a ∈ t2.alpha := sib_mem _ a hmem
      have hsn1 : sib t2 a ∉ HTree.alpha (.node wl l1 l2) :=
        fun hc => noInter hd hc hsmem
      rw [sib, if_neg hsn1, if_pos hsmem]
      exact ih hs2
  | case10 w wl l1 l2 t2 a hn1 hn2 =>
      intro hs
      have hi : sib (HTree.node w (HTree.node wl l1 l2) t2) a = a := by
        rw [sib, if_neg hn1, if_neg hn2]
      rw [hi, hi]

theorem sib_reciprocal (t : HTree) (hs : t.sep) (a b : Nat)
    (h : sib t a = b) : sib t b = a := by
  rw [← h, sib_sib t a hs]

/-- Swap the leaves carrying `a` and `b` (with replacement weights). -/
def swapLv : HTree → Nat → Nat → Nat → Nat → HTree
  | .leaf wc c, wa, a, wb, b =>
      if c = a then .leaf wb b
      else if c = b then .leaf wa a
      else .leaf wc c
  | .node w l r, wa, a, wb, b =>
      .node w (swapLv l wa a wb b) (swapLv r wa a wb b)

theorem swapLv_self_off (t : HTree) (a : Nat) (wa wb : Nat)
    (h : a ∉ t.alpha) : swapLv t wa a wb a = t := by
  induction t with
  | leaf wc c =>
      rw [swapLv]
      have hca : ¬ c = a := fun hc => h (mem_alpha_leaf.2 hc.symm)
      rw [if_neg hca, if_neg hca]
  | node w l r ihl ihr =>
      rw [HTree.alpha] at h
      simp only [Finset.mem_union] at h
      rw [swapLv, ihl (fun hc => h (Or.inl hc)), ihr (fun hc => h (Or.inr hc))]

theorem swapLv_id (t : HTree) (a : Nat) (hs : t.sep) :
    swapLv t (t.frq a) a (t.frq a) a = t := by
  induction t with
  | leaf wc c =>
      rw [swapLv]
      by_cases hca : c = a
      · rw [if_pos hca, HTree.frq, if_pos hca.symm, hca]
      · rw [if_neg hca, if_neg hca]
  | node w l r ihl ihr =>
      rcases hs with ⟨hd, hsl, hsr⟩
      rw [swapLv]
      by_cases hal : a ∈ l.alpha
      · have har : a ∉ r.alpha := fun hc => noInter hd hal hc
        have hfr : HTree.frq (.node w l r) a = l.frq a := by
          rw [HTree.frq, HTree.frq_off r a har]
          omega
        rw [hfr, ihl hsl, swapLv_self_off r a _ _ har]
      · by_cases har : a ∈ r.alpha
        · have hfr : HTree.frq (.node w l r) a = r.frq a := by
            rw [HTree.frq, HTree.frq_off l a hal]
            omega
          rw [hfr, ihr hsr, swapLv_self_off l a _ _ hal]
        · rw [swapLv_self_off l a _ _ hal, swapLv_self_off r a _ _ har]

theorem hgt_swapLv (t : HTree) (wa a wb b : Nat) :
    (swapLv t wa a wb b).hgt = t.hgt := by
  induction t with
  | leaf wc c =>
      rw [swapLv]
      split_ifs <;> rfl
  | node w l r ihl ihr => rw [swapLv, HTree.hgt, ihl, ihr, HTree.hgt]

theorem alpha_swapLv (t : HTree) (wa a wb b : Nat) :
    (swapLv t wa a wb b).alpha =
      (if a ∈ t.alpha then
        if b ∈ t.alpha then t.alpha else (t.alpha \ {a}) ∪ {b}
      else
        if b ∈ t.alpha then (t.alpha \ {b}) ∪ {a} else t.alpha) := by
  induction t with
  | leaf wc c =>
      rw [swapLv]
      by_cases hca : c = a
      · rw [if_pos hca]
        by_cases hcb : c = b
        · rw [if_pos (mem_alpha_leaf.2 hca.symm),
            if_pos (mem_alpha_leaf.2 hcb.symm)]
          rw [HTree.alpha, HTree.alpha, ← hcb]
        · rw [if_pos (mem_alpha_leaf.2 hca.symm),
            if_neg (fun hc => hcb (mem_alpha_leaf.1 hc).symm)]
          rw [HTree.alpha, HTree.alpha, hca]
          ext x
          simp [Finset.mem_sdiff]
      · rw [if_neg hca]
        by_cases hcb : c = b
        · rw [if_pos hcb,
            if_neg (fun hc => hca (mem_alpha_leaf.1 hc).symm),
            if_pos (mem_alpha_leaf.2 hcb.symm)]
          rw [HTree.alpha, HTree.alpha, hcb]
          ext x
          simp [Finset.mem_sdiff]
        · rw [if_neg hcb,
            if_neg (fun hc => hca (mem_alpha_leaf.1 hc).symm),
            if_neg (fun hc => hcb (mem_alpha_leaf.1 hc).symm)]
  | node w l r ihl ihr =>
      rw [swapLv, HTree.alpha, HTree.alpha, ihl, ihr]
      by_cases hal : a ∈ l.alpha <;> by_cases har : a ∈ r.alpha <;>
        by_cases hbl : b ∈ l.alpha <;> by_cases hbr : b ∈ r.alpha <;>
        simp only [hal, har, hbl, hbr, Finset.mem_union, if_true, if_false,
          or_true, true_or, or_false, false_or, if_pos, if_neg,
          not_false_iff] <;>
        · ext x
          by_cases hxa : x = a <;> by_cases hxb : x = b <;>
            simp [Finset.mem_union, Finset.mem_sdiff, Finset.mem_singleton,
              hxa, hxb, hal, har, hbl, hbr]

/-- The transposition of the two symbols `a` and `b`. -/
def permT (a b x : Nat) : Nat :=
  if x = a then b else if x = b then a else x

theorem permT_invol (a b x : Nat) : permT a b (permT a b x) = x := by
  unfold permT
  split_ifs <;> omega

theorem permT_inj {a b x y : Nat} (h : permT a b x = permT a b y) : x = y := by
  have := congrArg (permT a b) h
  rwa [permT_invol, permT_invol] at this

theorem swapLv_leaf_eq (wc c wa a wb b : Nat) :
    swapLv (.leaf wc c) wa a wb b =
      .leaf (if c = a then wb else if c = b then wa else wc) (permT a b c) := by
  rw [swapLv]
  unfold permT
  split_ifs <;> rfl

theorem mem_alpha_swapLv (t : HTree) (wa a wb b x : Nat) :
    x ∈ (swapLv t wa a wb b).alpha ↔ permT a b x ∈ t.alpha := by
  induction t with
  | leaf wc c =>
      rw [swapLv_leaf_eq, mem_alpha_leaf, mem_alpha_leaf]
      constructor
      · rintro rfl
        rw [permT_invol]
      · intro h
        rw [← h, permT_invol]
  | node w l r ihl ihr =>
      rw [swapLv, HTree.alpha, HTree.alpha, Finset.mem_union,
        Finset.mem_union, ihl, ihr]

/-- `swapLv` relabels every leaf by the transposition `a ↔ b`, so taking
siblings commutes with the transposition. -/
theorem sib_swapLv (t : HTree) (wa a wb b y : Nat) :
    sib (swapLv t wa a wb b) (permT a b y) = permT a b (sib t y) := by
  induction t, y using sib.induct with
  | case1 w c y => rw [swapLv_leaf_eq, sib, sib]
  | case2 w wb2 wc c y =>
      rw [swapLv, swapLv_leaf_eq, swapLv_leaf_eq, sib, sib, if_pos rfl,
        if_pos rfl]
  | case3 w wb2 b2 wc y hyb =>
      rw [swapLv, swapLv_leaf_eq, swapLv_leaf_eq, sib, sib, if_neg hyb,
        if_neg (fun hc => hyb (permT_inj hc)), if_pos rfl, if_pos rfl]
  | case4 w wb2 b2 wc c y hyb hyc =>
      rw [swapLv, swapLv_leaf_eq, swapLv_leaf_eq, sib, sib, if_neg hyb,
        if_neg hyc, if_neg (fun hc => hyb (permT_inj hc)),
        if_neg (fun hc => hyc (permT_inj hc))]
  | case5 w wb2 wr r1 r2 y =>
      rw [swapLv, swapLv_leaf_eq, sib, if_pos rfl]
      rw [show swapLv (.node wr r1 r2) wa a wb b =
        .node wr (swapLv r1 wa a wb b) (swapLv r2 wa a wb b) from rfl]
      rw [sib, if_pos rfl]
  | case6 w wb2 b2 wr r1 r2 y hyb hymem ih =>
      rw [swapLv, swapLv_leaf_eq]
      rw [show swapLv (.node wr r1 r2) wa a wb b =
        .node wr (swapLv r1 wa a wb b) (swapLv r2 wa a wb b) from rfl]
      rw [sib, if_neg (fun hc => hyb (permT_inj hc)),
        if_pos (by
          rw [show HTree.node wr (swapLv r1 wa a wb b) (swapLv r2 wa a wb b) =
            swapLv (.node wr r1 r2) wa a wb b from rfl]
          rw [mem_alpha_swapLv, permT_invol]
          exact hymem)]
      rw [show HTree.node wr (swapLv r1 wa a wb b) (swapLv r2 wa a wb b) =
        swapLv (.node wr r1 r2) wa a wb b from rfl]
      rw [ih, sib, if_neg hyb, if_pos hymem]
  | case7 w wb2 b2 wr r1 r2 y hyb hynmem =>
      rw [swapLv, swapLv_leaf_eq]
      rw [show swapLv (.node wr r1 r2) wa a wb b =
        .node wr (swapLv r1 wa a wb b) (swapLv r2 wa a wb b) from rfl]
      rw [sib, if_neg (fun hc => hyb (permT_inj hc)),
        if_neg (by
          rw [show HTree.node wr (swapLv r1 wa a wb b) (swapLv r2 wa a wb b) =
            swapLv (.node wr r1 r2) wa a wb b from rfl]
          rw [mem_alpha_swapLv, permT_invol]
          exact hynmem)]
      rw [sib, if_neg hyb, if_neg hynmem]
  | case8 w wl l1 l2 t2 y hymem ih =>
      rw [swapLv]
      rw [show swapLv (.node wl l1 l2) wa a wb b =
        .node wl (swapLv l1 wa a wb b) (swapLv l2 wa a wb b) from rfl]
      rw [sib, if_pos (by
          rw [show HTree.node wl (swapLv l1 wa a wb b) (swapLv l2 wa a wb b) =
            swapLv (.node wl l1 l2) wa a wb b from rfl]
          rw [mem_alpha_swapLv, permT_invol]
          exact hymem)]
      rw [show HTree.node wl (swapLv l1 wa a wb b) (swapLv l2 wa a wb b) =
        swapLv (.node wl l1 l2) wa a wb b from rfl]
      rw [ih, sib, if_pos hymem]
  | case9 w wl l1 l2 t2 y hyn1 hymem ih =>
      rw [swapLv]
      rw [show swapLv (.node wl l1 l2) wa a wb b =
        .node wl (swapLv l1 wa a wb b) (swapLv l2 wa a wb b) from rfl]
      rw [sib, if_neg (by
          rw [show HTree.node wl (swapLv l1 wa a wb b) (swapLv l2 wa a wb b) =
            swapLv (.node wl l1 l2) wa a wb b from rfl]
          rw [mem_alpha_swapLv, permT_invol]
          exact hyn1),
        if_pos (by rw [mem_alpha_swapLv, permT_invol]; exact hymem)]
      rw [ih, sib, if_neg hyn1, if_pos hymem]
  | case10 w wl l1 l2 t2 y hyn1 hyn2 =>
      rw [swapLv]
      rw [show swapLv (.node wl l1 l2) wa a wb b =
        .node wl (swapLv l1 wa a wb b) (swapLv l2 wa a wb b) from rfl]
      rw [sib, if_neg (by
          rw [show HTree.node wl (swapLv l1 wa a wb b) (swapLv l2 wa a wb b) =
            swapLv (.node wl l1 l2) wa a wb b from rfl]
          rw [mem_alpha_swapLv, permT_invol]
          exact hyn1),
        if_neg (by rw [mem_alpha_swapLv, permT_invol]; exact hyn2)]
      rw [sib, if_neg hyn1, if_neg hyn2]

/-- Depth in a swapped tree is depth of the transposed symbol. -/
theorem dep_swapLv (t : HTree) (wa a wb b x : Nat) :
    (swapLv t wa a wb b).dep x = t.dep (permT a b x) := by
  induction t with
  | leaf wc c => rw [swapLv_leaf_eq, HTree.dep, HTree.dep]
  | node w l r ihl ihr =>
      rw [swapLv, HTree.dep, ihl, ihr]
      conv_rhs => rw [HTree.dep]
      by_cases h1 : x ∈ (swapLv l wa a wb b).alpha
      · rw [if_pos h1, if_pos ((mem_alpha_swapLv l wa a wb b x).1 h1)]
      · rw [if_neg h1, if_neg (fun hc => h1 ((mem_alpha_swapLv l wa a wb b x).2 hc))]
        by_cases h2 : x ∈ (swapLv r wa a wb b).alpha
        · rw [if_pos h2, if_pos ((mem_alpha_swapLv r wa a wb b x).1 h2)]
        · rw [if_neg h2,
            if_neg (fun hc => h2 ((mem_alpha_swapLv r wa a wb b x).2 hc))]

theorem sep_swapLv (t : HTree) (wa a wb b : Nat) (hs : t.sep) :
    (swapLv t wa a wb b).sep := by
  induction t with
  | leaf wc c => rw [swapLv_leaf_eq]; trivial
  | node w l r ihl ihr =>
      rcases hs with ⟨hd, hsl, hsr⟩
      rw [swapLv]
      refine ⟨?_, ihl hsl, ihr hsr⟩
      rw [Finset.eq_empty_iff_forall_not_mem]
      intro x hx
      rw [Finset.mem_inter, mem_alpha_swapLv, mem_alpha_swapLv] at hx
      exact noInter hd hx.1 hx.2

theorem frq_swapLv (t : HTree) (wa a wb b x : Nat) (hs : t.sep)
    (hab : a ≠ b) :
    (swapLv t wa a wb b).frq x =
      if x = a then (if b ∈ t.alpha then wa else 0)
      else if x = b then (if a ∈ t.alpha then wb else 0)
      else t.frq x := by
  induction t with
  | leaf wc c =>
      rw [swapLv_leaf_eq, HTree.frq]
      unfold permT
      by_cases hca : c = a <;> by_cases hcb : c = b <;>
        by_cases hxa : x = a <;> by_cases hxb : x = b <;>
        by_cases hxc : x = c <;>
        simp_all [HTree.frq, mem_alpha_leaf, eq_comm] <;> omega
  | node w l r ihl ihr =>
      rcases hs with ⟨hd, hsl, hsr⟩
      rw [swapLv, HTree.frq, ihl hsl, ihr hsr]
      by_cases hxa : x = a
      · rw [if_pos hxa, if_pos hxa, if_pos hxa]
        by_cases hbl : b ∈ l.alpha
        · have hbr : b ∉ r.alpha := fun hc => noInter hd hbl hc
          rw [if_pos hbl, if_neg hbr,
            if_pos (by rw [HTree.alpha]; exact Finset.mem_union.2 (Or.inl hbl))]
          omega
        · by_cases hbr : b ∈ r.alpha
          · rw [if_neg hbl, if_pos hbr,
              if_pos (by rw [HTree.alpha]; exact Finset.mem_union.2 (Or.inr hbr))]
            omega
          · rw [if_neg hbl, if_neg hbr, if_neg (by
              rw [HTree.alpha]
              intro hc
              rcases Finset.mem_union.1 hc with hc | hc
              · exact hbl hc
              · exact hbr hc)]
      · rw [if_neg hxa, if_neg hxa, if_neg hxa]
        by_cases hxb : x = b
        · rw [if_pos hxb, if_pos hxb, if_pos hxb]
          by_cases hal : a ∈ l.alpha
          · have har : a ∉ r.alpha := fun hc => noInter hd hal hc
            rw [if_pos hal, if_neg har,
              if_pos (by rw [HTree.alpha]; exact Finset.mem_union.2 (Or.inl hal))]
            omega
          · by_cases har : a ∈ r.alpha
            · rw [if_neg hal, if_pos har,
                if_pos (by rw [HTree.alpha]; exact Finset.mem_union.2 (Or.inr har))]
              omega
            · rw [if_neg hal, if_neg har, if_neg (by
                rw [HTree.alpha]
                intro hc
                rcases Finset.mem_union.1 hc with hc | hc
                · exact hal hc
                · exact har hc)]
        · rw [if_neg hxb, if_neg hxb, if_neg hxb, HTree.frq]

theorem alpha_swapLv_mem (t : HTree) (wa a wb b : Nat)
    (ha : a ∈ t.alpha) (hb : b ∈ t.alpha) :
    (swapLv t wa a wb b).alpha = t.alpha := by
  rw [alpha_swapLv, if_pos ha, if_pos hb]

/-- Swap the positions of symbols `a` and `b`, keeping each symbol's
weight. -/
def swapSym (t : HTree) (a b : Nat) : HTree :=
  swapLv t (t.frq a) a (t.frq b) b

theorem alpha_swapSym (t : HTree) (a b : Nat)
    (ha : a ∈ t.alpha) (hb : b ∈ t.alpha) :
    (swapSym t a b).alpha = t.alpha :=
  alpha_swapLv_mem t (t.frq a) a (t.frq b) b ha hb

theorem sep_swapSym (t : HTree) (a b : Nat) (hs : t.sep) :
    (swapSym t a b).sep :=
  sep_swapLv t (t.frq a) a (t.frq b) b hs

theorem frq_swapSym (t : HTree) (a b : Nat) (hs : t.sep)
    (ha : a ∈ t.alpha) (hb : b ∈ t.alpha) (x : Nat) :
    (swapSym t a b).frq x = t.frq x := by
  by_cases hab : a = b
  · rw [swapSym, hab, swapLv_id t b hs]
  · rw [swapSym, frq_swapLv t (t.frq a) a (t.frq b) b x hs hab]
    by_cases hxa : x = a
    · rw [if_pos hxa, if_pos hb, hxa]
    · rw [if_neg hxa]
      by_cases hxb : x = b
      · rw [if_pos hxb, if_pos ha, hxb]
      · rw [if_neg hxb]

theorem dep_swapSym (t : HTree) (a b x : Nat) :
    (swapSym t a b).dep x = t.dep (permT a b x) :=
  dep_swapLv t (t.frq a) a (t.frq b) b x

theorem hgt_swapSym (t : HTree) (a b : Nat) :
    (swapSym t a b).hgt = t.hgt :=
  hgt_swapLv t (t.frq a) a (t.frq b) b

/-- Exchanging two symbols trades their depths in the cost. -/
theorem cost_swapSym (t : HTree) (a b : Nat) (hs : t.sep)
    (ha : a ∈ t.alpha) (hb : b ∈ t.alpha) (hab : a ≠ b) :
    (swapSym t a b).cost + (t.frq a * t.dep a + t.frq b * t.dep b)
      = t.cost + (t.frq a * t.dep b + t.frq b * t.dep a) := by
  have hsep2 : (swapSym t a b).sep := sep_swapSym t a b hs
  have halpha : (swapSym t a b).alpha = t.alpha := alpha_swapSym t a b ha hb
  rw [HTree.cost_eq_sum _ hsep2, HTree.cost_eq_sum t hs, halpha]
  have hsummand : ∀ x ∈ t.alpha,
      (swapSym t a b).frq x * (swapSym t a b).dep x
        = t.frq x * t.dep (permT a b x) := by
    intro x _
    rw [frq_swapSym t a b hs ha hb x, dep_swapSym]
  rw [Finset.sum_congr rfl hsummand]
  have hins : t.alpha = insert a (insert b (t.alpha \ ({a, b} : Finset Nat))) := by
    ext x
    rw [Finset.mem_insert, Finset.mem_insert, Finset.mem_sdiff,
      Finset.mem_insert, Finset.mem_singleton]
    constructor
    · intro hx
      by_cases hxa : x = a
      · exact Or.inl hxa
      · by_cases hxb : x = b
        · exact Or.inr (Or.inl hxb)
        · exact Or.inr (Or.inr ⟨hx, fun hc => hc.elim hxa hxb⟩)
    · rintro (h | h | ⟨hx, -⟩)
      · rw [h]; exact ha
      · rw [h]; exact hb
      · exact hx

  have hna : a ∉ insert b (t.alpha \ ({a, b} : Finset Nat)) := by
    rw [Finset.mem_insert, Finset.mem_sdiff]
    rintro (h | ⟨-, h⟩)
    · exact hab h
    · exact h (Finset.mem_insert.2 (Or.inl rfl))
  have hnb : b ∉ t.alpha \ ({a, b} : Finset Nat) := by
    rw [Finset.mem_sdiff]
    rintro ⟨-, h⟩
    exact h (Finset.mem_insert.2 (Or.inr (Finset.mem_singleton.2 rfl)))
  rw [hins, Finset.sum_insert hna, Finset.sum_insert hna,
    Finset.sum_insert hnb, Finset.sum_insert hnb]
  have hpa : permT a b a = b := by rw [permT, if_pos rfl]
  have hpb : permT a b b = a := by
    rw [permT, if_neg (fun h => hab h.symm), if_pos rfl]
  have hrest : ∑ x ∈ t.alpha \ ({a, b} : Finset Nat),
        t.frq x * t.dep (permT a b x)
      = ∑ x ∈ t.alpha \ ({a, b} : Finset Nat), t.frq x * t.dep x := by
    refine Finset.sum_congr rfl (fun x hx => ?_)
    rw [Finset.mem_sdiff, Finset.mem_insert, Finset.mem_singleton] at hx
    have hxa : ¬ x = a := fun h => hx.2 (Or.inl h)
    have hxb : ¬ x = b := fun h => hx.2 (Or.inr h)
    rw [permT, if_neg hxa, if_neg hxb]
  rw [hpa, hpb, hrest]
  ring

/-- Moving a lighter symbol down and a heavier one up never increases
the cost. -/
theorem cost_swapSym_le (t : HTree) (a b : Nat) (hs : t.sep)
    (ha : a ∈ t.alpha) (hb : b ∈ t.alpha)
    (hf : t.frq a ≤ t.frq b) (hd : t.dep a ≤ t.dep b) :
    (swapSym t a b).cost ≤ t.cost := by
  by_cases hab : a = b
  · rw [swapSym, hab, swapLv_id t b hs]
  · have hkey := cost_swapSym t a b hs ha hb hab
    have hineq : t.frq a * t.dep b + t.frq b * t.dep a
        ≤ t.frq a * t.dep a + t.frq b * t.dep b := by
      obtain ⟨d, hdd⟩ : ∃ d, t.dep b = t.dep a + d :=
        ⟨t.dep b - t.dep a, by omega⟩
      rw [hdd, Nat.mul_add, Nat.mul_add]
      have hmul : t.frq a * d ≤ t.frq b * d := Nat.mul_le_mul hf (le_refl d)
      linarith
    linarith

theorem permT_left (a b : Nat) : permT a b a = b := by
  rw [permT, if_pos rfl]

theorem permT_right (a b : Nat) : permT a b b = a := by
  unfold permT
  split_ifs with h1 h2
  · exact h1
  · rfl
  · exact absurd rfl h2

theorem permT_off {a b x : Nat} (hxa : x ≠ a) (hxb : x ≠ b) :
    permT a b x = x := by
  rw [permT, if_neg hxa, if_neg hxb]

/-- The four-symbol exchange: bring `a` and `b` to the positions of `c`
and `d`, leaving everything else in place. -/
def swapFour (t : HTree) (a b c d : Nat) : HTree :=
  if a = d then swapSym t b c
  else if b = c then swapSym t a d
  else swapSym (swapSym t a c) b d

theorem alpha_swapFour (t : HTree) (a b c d : Nat)
    (ha : a ∈ t.alpha) (hb : b ∈ t.alpha)
    (hc : c ∈ t.alpha) (hd : d ∈ t.alpha) :
    (swapFour t a b c d).alpha = t.alpha := by
  rw [swapFour]
  split_ifs with h1 h2
  · exact alpha_swapSym t b c hb hc
  · exact alpha_swapSym t a d ha hd
  · rw [alpha_swapSym (swapSym t a c) b d
        (by rw [alpha_swapSym t a c ha hc]; exact hb)
        (by rw [alpha_swapSym t a c ha hc]; exact hd),
      alpha_swapSym t a c ha hc]

theorem sep_swapFour (t : HTree) (a b c d : Nat) (hs : t.sep) :
    (swapFour t a b c d).sep := by
  rw [swapFour]
  split_ifs with h1 h2
  · exact sep_swapSym t b c hs
  · exact sep_swapSym t a d hs
  · exact sep_swapSym (swapSym t a c) b d (sep_swapSym t a c hs)

theorem frq_swapFour (t : HTree) (a b c d : Nat) (hs : t.sep)
    (ha : a ∈ t.alpha) (hb : b ∈ t.alpha)
    (hc : c ∈ t.alpha) (hd : d ∈ t.alpha) (x : Nat) :
    (swapFour t a b c d).frq x = t.frq x := by
  rw [swapFour]
  split_ifs with h1 h2
  · exact frq_swapSym t b c hs hb hc x
  · exact frq_swapSym t a d hs ha hd x
  · rw [frq_swapSym (swapSym t a c) b d (sep_swapSym t a c hs)
        (by rw [alpha_swapSym t a c ha hc]; exact hb)
        (by rw [alpha_swapSym t a c ha hc]; exact hd) x,
      frq_swapSym t a c hs ha hc x]

/-- After the four-symbol exchange aimed at a sibling pair `c`, `d`, the
symbols `a` and `b` are siblings. -/
theorem sib_swapFour (t : HTree) (a b c d : Nat) (hs : t.sep)
    (hab : a ≠ b) (hcd : c ≠ d) (hsib : sib t c = d) :
    sib (swapFour t a b c d) a = b := by
  have hdc : sib t d = c := sib_reciprocal t hs c d hsib
  rw [swapFour]
  split_ifs with h1 h2
  · -- `a = d`: swap `b` and `c`; the sibling of `a` was `c`, now labelled `b`.
    have hac : a ≠ c := fun hcon => hcd (hcon.symm.trans h1)
    have hstep : sib (swapSym t b c) (permT b c a) = permT b c (sib t a) :=
      sib_swapLv t (t.frq b) b (t.frq c) c a
    rw [permT_off hab hac] at hstep
    rw [hstep, h1, hdc, permT_right]
  · -- `b = c`: swap `a` and `d`; the sibling of `d` was `c = b`.
    have hstep : sib (swapSym t a d) (permT a d d) = permT a d (sib t d) :=
      sib_swapLv t (t.frq a) a (t.frq d) d d
    rw [permT_right] at hstep
    rw [hstep, hdc, ← h2, permT_off (fun hcon => hab hcon.symm)
      (fun hcon => hcd (h2.symm.trans hcon))]
  · -- general case: move `a` onto `c`, then `b` onto `d`.
    have hstep1 : sib (swapSym t a c) (permT a c c) = permT a c (sib t c) :=
      sib_swapLv t (t.frq a) a (t.frq c) c c
    rw [permT_right, hsib, permT_off (fun hcon => h1 hcon.symm) (fun hcon => hcd hcon.symm)] at hstep1
    have hstep2 : sib (swapSym (swapSym t a c) b d) (permT b d a)
        = permT b d (sib (swapSym t a c) a) :=
      sib_swapLv (swapSym t a c) ((swapSym t a c).frq b) b
        ((swapSym t a c).frq d) d a
    rw [permT_off hab h1] at hstep2
    rw [hstep2, hstep1, permT_right]

/-- The four-symbol exchange toward two deepest positions does not
increase cost when `a` and `b` carry minimal weights. -/
theorem cost_swapFour_le (t : HTree) (a b c d : Nat) (hs : t.sep)
    (ha : a ∈ t.alpha) (hb : b ∈ t.alpha)
    (hc : c ∈ t.alpha) (hd : d ∈ t.alpha)
    (hab : a ≠ b) (hcd : c ≠ d)
    (hdepc : t.dep c = t.hgt) (hdepd : t.dep d = t.hgt)
    (hfab : t.frq a ≤ t.frq b)
    (hmin : ∀ x ∈ t.alpha, x ≠ a → x ≠ b →
      t.frq a ≤ t.frq x ∧ t.frq b ≤ t.frq x) :
    (swapFour t a b c d).cost ≤ t.cost := by
  rw [swapFour]
  split_ifs with h1 h2
  · -- `a = d`: single swap of `b` and `c`.
    refine cost_swapSym_le t b c hs hb hc ?_ ?_
    · by_cases hcb : c = b
      · rw [hcb]
      · have hca : c ≠ a := fun hcon => hcd (hcon.trans h1)
        exact (hmin c hc hca hcb).2
    · rw [hdepc]; exact HTree.dep_le_hgt t b
  · -- `b = c`: single swap of `a` and `d`.
    refine cost_swapSym_le t a d hs ha hd ?_ ?_
    · by_cases hdb : d = b
      · rw [hdb]; exact hfab
      · exact (hmin d hd (fun hcon => h1 hcon.symm) hdb).1
    · rw [hdepd]; exact HTree.dep_le_hgt t a
  · -- general case: two swaps in sequence.
    have hstep1 : (swapSym t a c).cost ≤ t.cost := by
      refine cost_swapSym_le t a c hs ha hc ?_ ?_
      · by_cases hca : c = a
        · rw [hca]
        · by_cases hcb : c = b
          · rw [hcb]; exact hfab
          · exact (hmin c hc hca hcb).1
      · rw [hdepc]; exact HTree.dep_le_hgt t a
    have hsep1 : (swapSym t a c).sep := sep_swapSym t a c hs
    have halpha1 : (swapSym t a c).alpha = t.alpha := alpha_swapSym t a c ha hc
    have hstep2 : (swapSym (swapSym t a c) b d).cost ≤ (swapSym t a c).cost := by
      refine cost_swapSym_le (swapSym t a c) b d hsep1
        (by rw [halpha1]; exact hb) (by rw [halpha1]; exact hd) ?_ ?_
      · rw [frq_swapSym t a c hs ha hc b, frq_swapSym t a c hs ha hc d]
        by_cases hdb : d = b
        · rw [hdb]
        · exact (hmin d hd (fun hcon => h1 hcon.symm) hdb).2
      · have hdd1 : (swapSym t a c).dep d = t.dep d := by
          rw [dep_swapSym, permT_off (fun hcon => h1 hcon.symm)
            (fun hcon => hcd hcon.symm)]
        rw [hdd1, hdepd, ← hgt_swapSym t a c]
        exact HTree.dep_le_hgt (swapSym t a c) b
    exact le_trans hstep2 hstep1

/-- Collapse the two-leaf parent of symbol `a` into a single leaf
labelled `a`, carrying the two leaves' combined weight. -/
def mergeSib : HTree → Nat → HTree
  | .leaf w c, _ => .leaf w c
  | .node w (.leaf wb b) (.leaf wc c), a =>
      if a = b ∨ a = c then .leaf (wb + wc) a
      else .node w (.leaf wb b) (.leaf wc c)
  | .node w (.leaf wb b) (.node wr r1 r2), a =>
      .node w (.leaf wb b) (mergeSib (.node wr r1 r2) a)
  | .node w (.node wl l1 l2) t2, a =>
      .node w (mergeSib (.node wl l1 l2) a) (mergeSib t2 a)

/-- Replace the leaf of symbol `a` by an inner node over fresh leaves
`a` and `b` with the given weights, keeping the cached weight. -/
def splitLf : HTree → Nat → Nat → Nat → Nat → HTree
  | .leaf wc c, wa, a, wb, b =>
      if c = a then .node wc (.leaf wa a) (.leaf wb b) else .leaf wc c
  | .node w l r, wa, a, wb, b =>
      .node w (splitLf l wa a wb b) (splitLf r wa a wb b)

theorem cached_splitLf (t : HTree) (wa a wb b : Nat) :
    (splitLf t wa a wb b).cached = t.cached := by
  cases t with
  | leaf wc c =>
      rw [splitLf]
      split_ifs with h
      · rw [HTree.cached, HTree.cached]
      · rfl
  | node w l r => rfl

theorem splitLf_off (t : HTree) (wa a wb b : Nat) (h : a ∉ t.alpha) :
    splitLf t wa a wb b = t := by
  induction t with
  | leaf wc c =>
      rw [splitLf, if_neg (fun hc => h (mem_alpha_leaf.2 hc.symm))]
  | node w l r ihl ihr =>
      rw [HTree.alpha] at h
      simp only [Finset.mem_union] at h
      rw [splitLf, ihl (fun hc => h (Or.inl hc)), ihr (fun hc => h (Or.inr hc))]

theorem alpha_splitLf (t : HTree) (wa a wb b : Nat) :
    (splitLf t wa a wb b).alpha =
      if a ∈ t.alpha then t.alpha ∪ {b} else t.alpha := by
  induction t with
  | leaf wc c =>
      rw [splitLf]
      by_cases hca : c = a
      · rw [if_pos hca, if_pos (mem_alpha_leaf.2 hca.symm), HTree.alpha,
          HTree.alpha, HTree.alpha, HTree.alpha, hca]
      · rw [if_neg hca, if_neg (fun hc => hca (mem_alpha_leaf.1 hc).symm)]
  | node w l r ihl ihr =>
      rw [splitLf, HTree.alpha, ihl, ihr, HTree.alpha]
      by_cases hl : a ∈ l.alpha <;> by_cases hr : a ∈ r.alpha
      · rw [if_pos hl, if_pos hr,
          if_pos (Finset.mem_union.2 (Or.inl hl))]
        ext x
        simp only [Finset.mem_union, Finset.mem_singleton]
        tauto
      · rw [if_pos hl, if_neg hr,
          if_pos (Finset.mem_union.2 (Or.inl hl))]
        ext x
        simp only [Finset.mem_union, Finset.mem_singleton]
        tauto
      · rw [if_neg hl, if_pos hr,
          if_pos (Finset.mem_union.2 (Or.inr hr))]
        ext x
        simp only [Finset.mem_union, Finset.mem_singleton]
        tauto
      · rw [if_neg hl, if_neg hr, if_neg (by
          rw [Finset.mem_union]
          rintro (hc | hc)
          · exact hl hc
          · exact hr hc)]

theorem sep_splitLf (t : HTree) (wa a wb b : Nat) (hs : t.sep)
    (hb : b ∉ t.alpha) (hab : a ≠ b) :
    (splitLf t wa a wb b).sep := by
  induction t with
  | leaf wc c =>
      rw [splitLf]
      split_ifs with hca
      · refine ⟨?_, trivial, trivial⟩
        rw [HTree.alpha, HTree.alpha, Finset.eq_empty_iff_forall_not_mem]
        intro x hx
        rw [Finset.mem_inter, Finset.mem_singleton, Finset.mem_singleton] at hx
        exact hab (hx.1.symm.trans hx.2)
      · trivial
  | node w l r ihl ihr =>
      rcases hs with ⟨hd, hsl, hsr⟩
      rw [HTree.alpha] at hb
      simp only [Finset.mem_union] at hb
      have hbl : b ∉ l.alpha := fun hc => hb (Or.inl hc)
      have hbr : b ∉ r.alpha := fun hc => hb (Or.inr hc)
      rw [splitLf]
      refine ⟨?_, ihl hsl hbl, ihr hsr hbr⟩
      rw [alpha_splitLf, alpha_splitLf, Finset.eq_empty_iff_forall_not_mem]
      intro x hx
      rw [Finset.mem_inter] at hx
      rcases hx with ⟨hx1, hx2⟩
      by_cases hl : a ∈ l.alpha <;> by_cases hr : a ∈ r.alpha
      · exact noInter hd hl hr
      · rw [if_pos hl] at hx1
        rw [if_neg hr] at hx2
        rcases Finset.mem_union.1 hx1 with h1 | h1
        · exact noInter hd h1 hx2
        · exact hbr (Finset.mem_singleton.1 h1 ▸ hx2)
      · rw [if_neg hl] at hx1
        rw [if_pos hr] at hx2
        rcases Finset.mem_union.1 hx2 with h2 | h2
        · exact noInter hd hx1 h2
        · exact hbl (Finset.mem_singleton.1 h2 ▸ hx1)
      · rw [if_neg hl] at hx1
        rw [if_neg hr] at hx2
        exact noInter hd hx1 hx2

theorem frq_splitLf (t : HTree) (wa a wb b : Nat) (hs : t.sep)
    (hb : b ∉ t.alpha) (hab : a ≠ b) (x : Nat) :
    (splitLf t wa a wb b).frq x =
      if x = b then (if a ∈ t.alpha then wb else 0)
      else if x = a then (if a ∈ t.alpha then wa else t.frq x)
      else t.frq x := by
  induction t with
  | leaf wc c =>
      have hbc : b ≠ c := fun hc => hb (mem_alpha_leaf.2 hc)
      rw [splitLf]
      by_cases hca : c = a
      · have hmem : a ∈ (HTree.leaf wc c).alpha := mem_alpha_leaf.2 hca.symm
        rw [if_pos hca, if_pos hmem, if_pos hmem]
        simp only [HTree.frq]
        by_cases hxb : x = b <;> by_cases hxa : x = a <;>
          by_cases hxc : x = c <;> simp_all <;> omega
      · have hmem : a ∉ (HTree.leaf wc c).alpha :=
          fun hc => hca (mem_alpha_leaf.1 hc).symm
        rw [if_neg hca, if_neg hmem, if_neg hmem]
        by_cases hxb : x = b
        · rw [if_pos hxb, HTree.frq,
            if_neg (fun hc => hbc (hxb.symm.trans hc))]
        · rw [if_neg hxb]
          by_cases hxa : x = a
          · rw [if_pos hxa]
          · rw [if_neg hxa]
  | node w l r ihl ihr =>
      rcases hs with ⟨hd, hsl, hsr⟩
      rw [HTree.alpha] at hb
      simp only [Finset.mem_union] at hb
      have hbl : b ∉ l.alpha := fun hc => hb (Or.inl hc)
      have hbr : b ∉ r.alpha := fun hc => hb (Or.inr hc)
      rw [splitLf, HTree.frq, ihl hsl hbl, ihr hsr hbr, HTree.frq]
      by_cases hxb : x = b
      · rw [if_pos hxb, if_pos hxb, if_pos hxb]
        by_cases hl : a ∈ l.alpha
        · have hr : a ∉ r.alpha := fun hc => noInter hd hl hc
          rw [if_pos hl, if_neg hr,
            if_pos (by rw [HTree.alpha]; exact Finset.mem_union.2 (Or.inl hl))]
          omega
        · by_cases hr : a ∈ r.alpha
          · rw [if_neg hl, if_pos hr,
              if_pos (by rw [HTree.alpha]; exact Finset.mem_union.2 (Or.inr hr))]
            omega
          · rw [if_neg hl, if_neg hr, if_neg (by
              rw [HTree.alpha]
              intro hc
              rcases Finset.mem_union.1 hc with hc | hc
              · exact hl hc
              · exact hr hc)]
      · rw [if_neg hxb, if_neg hxb, if_neg hxb]
        by_cases hxa : x = a
        · rw [if_pos hxa, if_pos hxa, if_pos hxa]
          by_cases hl : a ∈ l.alpha
          · have hr : a ∉ r.alpha := fun hc => noInter hd hl hc
            rw [if_pos hl, if_neg hr,
              if_pos (by rw [HTree.alpha]; exact Finset.mem_union.2 (Or.inl hl)),
              HTree.frq_off r x (by rw [hxa]; exact hr)]
            omega
          · by_cases hr : a ∈ r.alpha
            · rw [if_neg hl, if_pos hr,
                if_pos (by rw [HTree.alpha]; exact Finset.mem_union.2 (Or.inr hr)),
                HTree.frq_off l x (by rw [hxa]; exact hl)]
              omega
            · rw [if_neg hl, if_neg hr, if_neg (by
                rw [HTree.alpha]
                intro hc
                rcases Finset.mem_union.1 hc with hc | hc
                · exact hl hc
                · exact hr hc)]
        · rw [if_neg hxa, if_neg hxa, if_neg hxa]

theorem wt_splitLf (t : HTree) (wa a wb b : Nat) (hs : t.sep)
    (ha : a ∈ t.alpha) (hw : t.frq a = wa + wb) :
    (splitLf t wa a wb b).wt = t.wt := by
  induction t with
  | leaf wc c =>
      have hca : c = a := (mem_alpha_leaf.1 ha).symm
      rw [splitLf, if_pos hca, HTree.wt, HTree.wt, HTree.wt, HTree.wt]
      rw [HTree.frq, if_pos hca.symm] at hw
      omega
  | node w l r ihl ihr =>
      rcases hs with ⟨hd, hsl, hsr⟩
      have hw2 : l.frq a + r.frq a = wa + wb := hw
      rw [splitLf, HTree.wt, HTree.wt]
      rcases Finset.mem_union.1 (by rw [HTree.alpha] at ha; exact ha) with hl | hr
      · have hnr : a ∉ r.alpha := fun hc => noInter hd hl hc
        rw [HTree.frq_off r a hnr] at hw2
        rw [ihl hsl hl (by omega), splitLf_off r wa a wb b hnr]
      · have hnl : a ∉ l.alpha := fun hc => noInter hd hc hr
        rw [HTree.frq_off l a hnl] at hw2
        rw [ihr hsr hr (by omega), splitLf_off l wa a wb b hnl]

/-- Splitting a leaf of weight `wa + wb` adds exactly `wa + wb` to the
cost. -/
theorem cost_splitLf (t : HTree) (wa a wb b : Nat) (hs : t.sep)
    (ha : a ∈ t.alpha) (hw : t.frq a = wa + wb) :
    (splitLf t wa a wb b).cost = t.cost + wa + wb := by
  induction t with
  | leaf wc c =>
      have hca : c = a := (mem_alpha_leaf.1 ha).symm
      rw [splitLf, if_pos hca, HTree.cost, HTree.cost, HTree.wt, HTree.wt,
        HTree.cost, HTree.cost]
      omega
  | node w l r ihl ihr =>
      rcases hs with ⟨hd, hsl, hsr⟩
      have hw2 : l.frq a + r.frq a = wa + wb := hw
      rw [splitLf, HTree.cost, HTree.cost]
      rcases Finset.mem_union.1 (by rw [HTree.alpha] at ha; exact ha) with hl | hr
      · have hnr : a ∉ r.alpha := fun hc => noInter hd hl hc
        rw [HTree.frq_off r a hnr] at hw2
        rw [ihl hsl hl (by omega), splitLf_off r wa a wb b hnr,
          wt_splitLf l wa a wb b hsl hl (by omega)]
        omega
      · have hnl : a ∉ l.alpha := fun hc => noInter hd hc hr
        rw [HTree.frq_off l a hnl] at hw2
        rw [ihr hsr hr (by omega), splitLf_off l wa a wb b hnl,
          wt_splitLf r wa a wb b hsr hr (by omega)]
        omega

theorem mergeSib_off (t : HTree) (a : Nat) (h : a ∉ t.alpha) :
    mergeSib t a = t := by
  induction t, a using mergeSib.induct with
  | case1 w c x => rw [mergeSib]
  | case2 w wb b wc c a h2 =>
      exfalso
      apply h
      rw [HTree.alpha, Finset.mem_union]
      rcases h2 with h2 | h2
      · exact Or.inl (mem_alpha_leaf.2 h2)
      · exact Or.inr (mem_alpha_leaf.2 h2)
  | case3 w wb b wc c a h2 => rw [mergeSib, if_neg h2]
  | case4 w wb b wr r1 r2 a ih =>
      rw [HTree.alpha, Finset.mem_union] at h
      rw [mergeSib, ih (fun hc => h (Or.inr hc))]
  | case5 w wl l1 l2 t2 a ih1 ih2 =>
      rw [HTree.alpha, Finset.mem_union] at h
      rw [mergeSib, ih1 (fun hc => h (Or.inl hc)), ih2 (fun hc => h (Or.inr hc))]

theorem wt_mergeSib (t : HTree) (a : Nat) :
    (mergeSib t a).wt = t.wt := by
  induction t, a using mergeSib.induct with
  | case1 w c x => rw [mergeSib]
  | case2 w wb b wc c a h2 =>
      rw [mergeSib, if_pos h2, HTree.wt, HTree.wt, HTree.wt, HTree.wt]
  | case3 w wb b wc c a h2 => rw [mergeSib, if_neg h2]
  | case4 w wb b wr r1 r2 a ih =>
      simp only [mergeSib, HTree.wt, ih]
  | case5 w wl l1 l2 t2 a ih1 ih2 =>
      simp only [mergeSib, HTree.wt, ih1, ih2]

theorem alpha_mergeSib_subset (t : HTree) (a : Nat) :
    (mergeSib t a).alpha ⊆ t.alpha := by
  induction t, a using mergeSib.induct with
  | case1 w c x => rw [mergeSib]
  | case2 w wb b wc c a h2 =>
      rw [mergeSib, if_pos h2]
      intro x hx
      have hx2 : x = a := mem_alpha_leaf.1 hx
      rw [hx2, HTree.alpha, Finset.mem_union]
      rcases h2 with h2 | h2
      · exact Or.inl (mem_alpha_leaf.2 h2)
      · exact Or.inr (mem_alpha_leaf.2 h2)
  | case3 w wb b wc c a h2 => rw [mergeSib, if_neg h2]
  | case4 w wb b wr r1 r2 a ih =>
      rw [mergeSib, HTree.alpha, HTree.alpha]
      exact Finset.union_subset_union (fun x hx => hx) ih
  | case5 w wl l1 l2 t2 a ih1 ih2 =>
      rw [mergeSib, HTree.alpha, HTree.alpha]
      exact Finset.union_subset_union ih1 ih2

theorem sep_mergeSib (t : HTree) (a : Nat) (hs : t.sep) :
    (mergeSib t a).sep := by
  induction t, a using mergeSib.induct with
  | case1 w c x => rw [mergeSib]; trivial
  | case2 w wb b wc c a h2 =>
      rw [mergeSib, if_pos h2]
      trivial
  | case3 w wb b wc c a h2 => rw [mergeSib, if_neg h2]; exact hs
  | case4 w wb b wr r1 r2 a ih =>
      rcases hs with ⟨hd, hs1, hs2⟩
      rw [mergeSib]
      refine ⟨?_, hs1, ih hs2⟩
      rw [Finset.eq_empty_iff_forall_not_mem]
      intro x hx
      rw [Finset.mem_inter] at hx
      exact noInter hd hx.1 (alpha_mergeSib_subset _ a hx.2)
  | case5 w wl l1 l2 t2 a ih1 ih2 =>
      rcases hs with ⟨hd, hs1, hs2⟩
      rw [mergeSib]
      refine ⟨?_, ih1 hs1, ih2 hs2⟩
      rw [Finset.eq_empty_iff_forall_not_mem]
      intro x hx
      rw [Finset.mem_inter] at hx
      exact noInter hd (alpha_mergeSib_subset _ a hx.1)
        (alpha_mergeSib_subset _ a hx.2)

theorem alpha_mergeSib (t : HTree) (a : Nat) (hs : t.sep)
    (hne : sib t a ≠ a) :
    (mergeSib t a).alpha = t.alpha \ {sib t a} := by
  induction t, a using mergeSib.induct with
  | case1 w c x => rw [sib] at hne; exact absurd rfl hne
  | case2 w wb b wc c a h2 =>
      have hbc : b ≠ c := by
        intro h
        exact noInter hs.1 (mem_alpha_leaf.2 rfl) (mem_alpha_leaf.2 h)
      rw [mergeSib, if_pos h2]
      rcases h2 with h2 | h2
      · have hac : a ≠ c := fun h => hbc (h2.symm.trans h)
        rw [sib, if_pos h2]
        ext x
        rw [mem_alpha_leaf, Finset.mem_sdiff, HTree.alpha, Finset.mem_union,
          mem_alpha_leaf, mem_alpha_leaf, Finset.mem_singleton]
        constructor
        · intro h
          exact ⟨Or.inl (h.trans h2), fun hc => hac (h.symm.trans hc)⟩
        · rintro ⟨h | h, hnc⟩
          · exact h.trans h2.symm
          · exact absurd h hnc
      · have hab : a ≠ b := fun h => hbc (h.symm.trans h2)
        rw [sib, if_neg hab, if_pos h2]
        ext x
        rw [mem_alpha_leaf, Finset.mem_sdiff, HTree.alpha, Finset.mem_union,
          mem_alpha_leaf, mem_alpha_leaf, Finset.mem_singleton]
        constructor
        · intro h
          exact ⟨Or.inr (h.trans h2), fun hc => hab (h.symm.trans hc)⟩
        · rintro ⟨h | h, hnb⟩
          · exact absurd h hnb
          · exact h.trans h2.symm
  | case3 w wb b wc c a h2 =>
      push_neg at h2
      rw [sib, if_neg h2.1, if_neg h2.2] at hne
      exact absurd rfl hne
  | case4 w wb b wr r1 r2 a ih =>
      rcases hs with ⟨hd, hs1, hs2⟩
      by_cases hab : a = b
      · rw [sib, if_pos hab] at hne
        exact absurd rfl hne
      · by_cases hmem : a ∈ (HTree.node wr r1 r2).alpha
        · rw [sib, if_neg hab, if_pos hmem] at hne ⊢
          have hsmem : sib (HTree.node wr r1 r2) a ∈ (HTree.node wr r1 r2).alpha :=
            sib_mem _ a hmem
          have hsb : sib (HTree.node wr r1 r2) a ≠ b := by
            intro h
            exact noInter hd (mem_alpha_leaf.2 h) hsmem
          rw [mergeSib]
          ext x
          have hkey : ¬ (x = b ∧ x = sib (HTree.node wr r1 r2) a) :=
            fun h => hsb (h.2.symm.trans h.1)
          simp only [HTree.alpha, ih hs2 hne, Finset.mem_union,
            Finset.mem_sdiff, Finset.mem_singleton]
          tauto
        · rw [sib, if_neg hab, if_neg hmem] at hne
          exact absurd rfl hne
  | case5 w wl l1 l2 t2 a ih1 ih2 =>
      rcases hs with ⟨hd, hs1, hs2⟩
      by_cases hm1 : a ∈ (HTree.node wl l1 l2).alpha
      · rw [sib, if_pos hm1] at hne ⊢
        have hsmem : sib (HTree.node wl l1 l2) a ∈ (HTree.node wl l1 l2).alpha :=
          sib_mem _ a hm1
        have hst2 : sib (HTree.node wl l1 l2) a ∉ t2.alpha :=
          fun hc => noInter hd hsmem hc
        have hat2 : a ∉ t2.alpha := fun hc => noInter hd hm1 hc
        rw [mergeSib, mergeSib_off t2 a hat2]
        ext x
        have hkey : ¬ (x ∈ t2.alpha ∧ x = sib (HTree.node wl l1 l2) a) :=
          fun h => hst2 (h.2 ▸ h.1)
        simp only [HTree.alpha, ih1 hs1 hne, Finset.mem_union,
          Finset.mem_sdiff, Finset.mem_singleton]
        tauto
      · by_cases hm2 : a ∈ t2.alpha
        · rw [sib, if_neg hm1, if_pos hm2] at hne ⊢
          have hsmem : sib t2 a ∈ t2.alpha := sib_mem _ a hm2
          have hsl : sib t2 a ∉ (HTree.node wl l1 l2).alpha :=
            fun hc => noInter hd hc hsmem
          rw [mergeSib, mergeSib_off (HTree.node wl l1 l2) a hm1]
          ext x
          have hkey : ¬ (x ∈ (HTree.node wl l1 l2).alpha ∧ x = sib t2 a) :=
            fun h => hsl (h.2 ▸ h.1)
          simp only [HTree.alpha, ih2 hs2 hne, Finset.mem_union,
            Finset.mem_sdiff, Finset.mem_singleton] at hkey ⊢
          tauto
        · rw [sib, if_neg hm1, if_neg hm2] at hne
          exact absurd rfl hne

theorem frq_mergeSib (t : HTree) (a : Nat) (hs : t.sep)
    (hne : sib t a ≠ a) (x : Nat) :
    (mergeSib t a).frq x =
      if x = a then t.frq a + t.frq (sib t a)
      else if x = sib t a then 0 else t.frq x := by
  induction t, a using mergeSib.induct with
  | case1 w c y => rw [sib] at hne; exact absurd rfl hne
  | case2 w wb b wc c a h2 =>
      have hbc : b ≠ c := by
        intro h
        exact noInter hs.1 (mem_alpha_leaf.2 rfl) (mem_alpha_leaf.2 h)
      rw [mergeSib, if_pos h2]
      rcases h2 with h2 | h2
      · have hac : a ≠ c := fun h => hbc (h2.symm.trans h)
        rw [sib, if_pos h2]
        simp only [HTree.frq]
        by_cases hxa : x = a <;> by_cases hxc : x = c <;>
          simp_all <;> omega
      · have hab : a ≠ b := fun h => hbc (h.symm.trans h2)
        rw [sib, if_neg hab, if_pos h2]
        simp only [HTree.frq]
        by_cases hxa : x = a <;> by_cases hxb : x = b <;>
          simp_all <;> omega
  | case3 w wb b wc c a h2 =>
      push_neg at h2
      rw [sib, if_neg h2.1, if_neg h2.2] at hne
      exact absurd rfl hne
  | case4 w wb b wr r1 r2 a ih =>
      rcases hs with ⟨hd, hs1, hs2⟩
      by_cases hab : a = b
      · rw [sib, if_pos hab] at hne
        exact absurd rfl hne
      · by_cases hmem : a ∈ (HTree.node wr r1 r2).alpha
        · rw [sib, if_neg hab, if_pos hmem] at hne ⊢
          have hsb : sib (HTree.node wr r1 r2) a ≠ b := by
            intro h
            exact noInter hd (mem_alpha_leaf.2 h)
              (sib_mem _ a hmem)
          rw [mergeSib]
          simp only [HTree.frq, ih hs2 hne]
          by_cases hxa : x = a <;>
            by_cases hxs : x = sib (HTree.node wr r1 r2) a <;>
            by_cases hxb : x = b <;> simp_all <;> omega
        · rw [sib, if_neg hab, if_neg hmem] at hne
          exact absurd rfl hne
  | case5 w wl l1 l2 t2 a ih1 ih2 =>
      rcases hs with ⟨hd, hs1, hs2⟩
      by_cases hm1 : a ∈ (HTree.node wl l1 l2).alpha
      · rw [sib, if_pos hm1] at hne ⊢
        have hat2 : a ∉ t2.alpha := fun hc => noInter hd hm1 hc
        have hst2 : sib (HTree.node wl l1 l2) a ∉ t2.alpha :=
          fun hc => noInter hd (sib_mem _ a hm1) hc
        have hfa : t2.frq a = 0 := HTree.frq_off t2 a hat2
        have hfs : t2.frq (sib (HTree.node wl l1 l2) a) = 0 :=
          HTree.frq_off t2 _ hst2
        rw [mergeSib, mergeSib_off t2 a hat2]
        simp only [HTree.frq, ih1 hs1 hne]
        by_cases hxa : x = a <;>
          by_cases hxs : x = sib (HTree.node wl l1 l2) a <;>
          simp_all <;> omega
      · by_cases hm2 : a ∈ t2.alpha
        · rw [sib, if_neg hm1, if_pos hm2] at hne ⊢
          have hsl : sib t2 a ∉ (HTree.node wl l1 l2).alpha :=
            fun hc => noInter hd hc (sib_mem _ a hm2)
          have hfa : (HTree.node wl l1 l2).frq a = 0 :=
            HTree.frq_off _ a hm1
          have hfs : (HTree.node wl l1 l2).frq (sib t2 a) = 0 :=
            HTree.frq_off _ _ hsl
          rw [mergeSib, mergeSib_off (HTree.node wl l1 l2) a hm1]
          simp only [HTree.frq] at hfa hfs
          simp only [HTree.frq, ih2 hs2 hne]
          by_cases hxa : x = a <;> by_cases hxs : x = sib t2 a <;>
            simp_all <;> omega
        · rw [sib, if_neg hm1, if_neg hm2] at hne
          exact absurd rfl hne

theorem cost_mergeSib (t : HTree) (a : Nat) (hs : t.sep)
    (hne : sib t a ≠ a) :
    (mergeSib t a).cost + t.frq a + t.frq (sib t a) = t.cost := by
  induction t, a using mergeSib.induct with
  | case1 w c y => rw [sib] at hne; exact absurd rfl hne
  | case2 w wb b wc c a h2 =>
      have hbc : b ≠ c := by
        intro h
        exact noInter hs.1 (mem_alpha_leaf.2 rfl) (mem_alpha_leaf.2 h)
      rw [mergeSib, if_pos h2]
      rcases h2 with h2 | h2
      · have hac : a ≠ c := fun h => hbc (h2.symm.trans h)
        have hcb : ¬ c = b := fun h => hbc h.symm
        rw [sib, if_pos h2]
        simp only [HTree.cost, HTree.wt, HTree.frq]
        rw [if_pos h2, if_neg hac, if_neg hcb]
        simp only [if_true]
        omega
      · have hab : a ≠ b := fun h => hbc (h.symm.trans h2)
        rw [sib, if_neg hab, if_pos h2]
        simp only [HTree.cost, HTree.wt, HTree.frq]
        rw [if_neg hab, if_pos h2, if_neg hbc]
        simp only [if_true]
        omega
  | case3 w wb b wc c a h2 =>
      push_neg at h2
      rw [sib, if_neg h2.1, if_neg h2.2] at hne
      exact absurd rfl hne
  | case4 w wb b wr r1 r2 a ih =>
      rcases hs with ⟨hd, hs1, hs2⟩
      by_cases hab : a = b
      · rw [sib, if_pos hab] at hne
        exact absurd rfl hne
      · by_cases hmem : a ∈ (HTree.node wr r1 r2).alpha
        · rw [sib, if_neg hab, if_pos hmem] at hne ⊢
          have hsb : sib (HTree.node wr r1 r2) a ≠ b := by
            intro h
            exact noInter hd (mem_alpha_leaf.2 h) (sib_mem _ a hmem)
          have hih := ih hs2 hne
          rw [mergeSib]
          simp only [HTree.cost, HTree.wt, HTree.frq, wt_mergeSib] at hih ⊢
          rw [if_neg hab, if_neg hsb]
          omega
        · rw [sib, if_neg hab, if_neg hmem] at hne
          exact absurd rfl hne
  | case5 w wl l1 l2 t2 a ih1 ih2 =>
      rcases hs with ⟨hd, hs1, hs2⟩
      by_cases hm1 : a ∈ (HTree.node wl l1 l2).alpha
      · rw [sib, if_pos hm1] at hne ⊢
        have hat2 : a ∉ t2.alpha := fun hc => noInter hd hm1 hc
        have hst2 : sib (HTree.node wl l1 l2) a ∉ t2.alpha :=
          fun hc => noInter hd (sib_mem _ a hm1) hc
        have hfa : t2.frq a = 0 := HTree.frq_off t2 a hat2
        have hfs : t2.frq (sib (HTree.node wl l1 l2) a) = 0 :=
          HTree.frq_off t2 _ hst2
        have hih := ih1 hs1 hne
        rw [mergeSib, mergeSib_off t2 a hat2]
        simp only [HTree.cost, HTree.wt, HTree.frq, wt_mergeSib] at hih ⊢
        omega
      · by_cases hm2 : a ∈ t2.alpha
        · rw [sib, if_neg hm1, if_pos hm2] at hne ⊢
          have hsl : sib t2 a ∉ (HTree.node wl l1 l2).alpha :=
            fun hc => noInter hd hc (sib_mem _ a hm2)
          have hfa : (HTree.node wl l1 l2).frq a = 0 :=
            HTree.frq_off _ a hm1
          have hfs : (HTree.node wl l1 l2).frq (sib t2 a) = 0 :=
            HTree.frq_off _ _ hsl
          have hih := ih2 hs2 hne
          rw [mergeSib, mergeSib_off (HTree.node wl l1 l2) a hm1]
          simp only [HTree.cost, HTree.wt, HTree.frq, wt_mergeSib]
            at hih hfa hfs ⊢
          omega
        · rw [sib, if_neg hm1, if_neg hm2] at hne
          exact absurd rfl hne

theorem hgt_pos_of_two (u : HTree) (a b : Nat) (ha : a ∈ u.alpha)
    (hb : b ∈ u.alpha) (hab : a ≠ b) : 0 < u.hgt := by
  cases u with
  | leaf w c =>
      exact absurd ((mem_alpha_leaf.1 ha).trans (mem_alpha_leaf.1 hb).symm) hab
  | node w l r => rw [HTree.hgt]; omega

/-- Splitting an optimal tree's leaf `a` of weight `wa + wb` into two
minimal-weight leaves `a`, `b` yields an optimal tree again. -/
theorem optimum_splitLf (t : HTree) (wa a wb b : Nat)
    (hs : t.sep) (ha : a ∈ t.alpha) (hb : b ∉ t.alpha) (hab : a ≠ b)
    (hw : t.frq a = wa + wb) (hwab : wa ≤ wb)
    (hmin : ∀ c ∈ t.alpha, c ≠ a → wa ≤ t.frq c ∧ wb ≤ t.frq c)
    (hopt : optimalTree t) :
    optimalTree (splitLf t wa a wb b) := by
  intro u hu halpha hfrq
  have hsalpha : (splitLf t wa a wb b).alpha = t.alpha ∪ {b} := by
    rw [alpha_splitLf, if_pos ha]
  have hscost : (splitLf t wa a wb b).cost = t.cost + wa + wb :=
    cost_splitLf t wa a wb b hs ha hw
  have hufrq : ∀ x, u.frq x = (splitLf t wa a wb b).frq x :=
    fun x => (congrFun hfrq x).symm
  have hufa : u.frq a = wa := by
    rw [hufrq a, frq_splitLf t wa a wb b hs hb hab a, if_neg hab, if_pos rfl,
      if_pos ha]
  have hufb : u.frq b = wb := by
    rw [hufrq b, frq_splitLf t wa a wb b hs hb hab b, if_pos rfl, if_pos ha]
  have hufc : ∀ x, x ≠ a → x ≠ b → u.frq x = t.frq x := by
    intro x hxa hxb
    rw [hufrq x, frq_splitLf t wa a wb b hs hb hab x, if_neg hxb, if_neg hxa]
  have hua : a ∈ u.alpha := by
    rw [← halpha, hsalpha]
    exact Finset.mem_union.2 (Or.inl ha)
  have hub : b ∈ u.alpha := by
    rw [← halpha, hsalpha]
    exact Finset.mem_union.2 (Or.inr (Finset.mem_singleton.2 rfl))
  have hminu : ∀ x ∈ u.alpha, x ≠ a → x ≠ b →
      u.frq a ≤ u.frq x ∧ u.frq b ≤ u.frq x := by
    intro x hx hxa hxb
    have hxt : x ∈ t.alpha := by
      rw [← halpha, hsalpha] at hx
      rcases Finset.mem_union.1 hx with h | h
      · exact h
      · exact absurd (Finset.mem_singleton.1 h) hxb
    rw [hufa, hufb, hufc x hxa hxb]
    exact hmin x hxt hxa
  have hufab : u.frq a ≤ u.frq b := by
    rw [hufa, hufb]; exact hwab
  have hpos : 0 < u.hgt := hgt_pos_of_two u a b hua hub hab
  obtain ⟨c, hc, hdc⟩ := HTree.exists_at_hgt u hu
  have hnec : sib u c ≠ c := dep_hgt_sib_ne u c hu hc hdc hpos
  have hcd : c ≠ sib u c := fun h => hnec h.symm
  have hdmem : sib u c ∈ u.alpha := sib_mem u c hc
  have hdd : u.dep (sib u c) = u.hgt := (dep_sib u c hu).trans hdc
  have hcostv : (swapFour u a b c (sib u c)).cost ≤ u.cost :=
    cost_swapFour_le u a b c (sib u c) hu hua hub hc hdmem hab hcd hdc hdd
      hufab hminu
  have hsib : sib (swapFour u a b c (sib u c)) a = b :=
    sib_swapFour u a b c (sib u c) hu hab hcd rfl
  have hvsep : (swapFour u a b c (sib u c)).sep :=
    sep_swapFour u a b c (sib u c) hu
  have hvalpha : (swapFour u a b c (sib u c)).alpha = u.alpha :=
    alpha_swapFour u a b c (sib u c) hua hub hc hdmem
  have hvfrq : ∀ x, (swapFour u a b c (sib u c)).frq x = u.frq x :=
    frq_swapFour u a b c (sib u c) hu hua hub hc hdmem
  have hmne : sib (swapFour u a b c (sib u c)) a ≠ a := by
    rw [hsib]; exact fun h => hab h.symm
  have hmcost := cost_mergeSib (swapFour u a b c (sib u c)) a hvsep hmne
  rw [hsib, hvfrq a, hvfrq b, hufa, hufb] at hmcost
  have hmsep : (mergeSib (swapFour u a b c (sib u c)) a).sep :=
    sep_mergeSib (swapFour u a b c (sib u c)) a hvsep
  have hmalpha : t.alpha = (mergeSib (swapFour u a b c (sib u c)) a).alpha := by
    rw [alpha_mergeSib (swapFour u a b c (sib u c)) a hvsep hmne, hsib,
      hvalpha, ← halpha, hsalpha]
    ext x
    simp only [Finset.mem_sdiff, Finset.mem_union, Finset.mem_singleton]
    constructor
    · intro hx
      exact ⟨Or.inl hx, fun hc2 => hb (hc2 ▸ hx)⟩
    · rintro ⟨hx | hx, hnb⟩
      · exact hx
      · exact absurd hx hnb
  have hmfrq : t.frq = (mergeSib (swapFour u a b c (sib u c)) a).frq := by
    funext x
    rw [frq_mergeSib (swapFour u a b c (sib u c)) a hvsep hmne x, hsib]
    by_cases hxa : x = a
    · rw [if_pos hxa, hvfrq a, hvfrq b, hufa, hufb, hxa, hw]
    · rw [if_neg hxa]
      by_cases hxb : x = b
      · rw [if_pos hxb, hxb, HTree.frq_off t b hb]
      · rw [if_neg hxb, hvfrq x, hufc x hxa hxb]
  have hcompare : t.cost ≤ (mergeSib (swapFour u a b c (sib u c)) a).cost :=
    hopt (mergeSib (swapFour u a b c (sib u c)) a) hmsep hmalpha hmfrq
  rw [hscost]
  omega

theorem insortF_length (u : HTree) (ts : List HTree) :
    (insortF u ts).length = ts.length + 1 := by
  induction ts with
  | nil => rfl
  | cons t ts ih =>
      rw [insortF]
      split_ifs
      · rfl
      · rw [List.length_cons, ih, List.length_cons]

theorem insortF_ne_nil (u : HTree) (ts : List HTree) : insortF u ts ≠ [] := by
  intro h
  have hlen := insortF_length u ts
  rw [h] at hlen
  simp at hlen

theorem mem_insortF (u x : HTree) (ts : List HTree) :
    x ∈ insortF u ts ↔ x = u ∨ x ∈ ts := by
  induction ts with
  | nil => simp [insortF]
  | cons t ts ih =>
      rw [insortF]
      split_ifs
      · simp
      · simp only [List.mem_cons, ih]
        tauto

theorem alphaF_insortF (u : HTree) (ts : List HTree) :
    alphaF (insortF u ts) = u.alpha ∪ alphaF ts := by
  induction ts with
  | nil => rfl
  | cons t ts ih =>
      rw [insortF]
      split_ifs
      · rfl
      · rw [alphaF, ih, alphaF, ← Finset.union_assoc, ← Finset.union_assoc,
          Finset.union_comm t.alpha u.alpha]

theorem frqF_insortF (u : HTree) (ts : List HTree) (x : Nat) :
    frqF (insortF u ts) x = u.frq x + frqF ts x := by
  induction ts with
  | nil => rfl
  | cons t ts ih =>
      rw [insortF]
      split_ifs
      · rfl
      · rw [frqF, ih, frqF]
        omega

theorem inter_union_empty (A B C : Finset Nat) :
    A ∩ (B ∪ C) = ∅ ↔ (A ∩ B = ∅) ∧ (A ∩ C = ∅) := by
  simp only [Finset.eq_empty_iff_forall_not_mem, Finset.mem_inter,
    Finset.mem_union]
  constructor
  · intro h
    exact ⟨fun x hx => h x ⟨hx.1, Or.inl hx.2⟩,
           fun x hx => h x ⟨hx.1, Or.inr hx.2⟩⟩
  · rintro ⟨h1, h2⟩ x ⟨hxA, hxBC⟩
    rcases hxBC with h | h
    · exact h1 x ⟨hxA, h⟩
    · exact h2 x ⟨hxA, h⟩

theorem inter_swap_empty (A B : Finset Nat) :
    A ∩ B = ∅ ↔ B ∩ A = ∅ := by
  rw [Finset.inter_comm]

theorem sepF_insortF (u : HTree) (ts : List HTree) :
    sepF (insortF u ts) ↔
      (u.alpha ∩ alphaF ts = ∅ ∧ u.sep ∧ sepF ts) := by
  induction ts with
  | nil => exact Iff.rfl
  | cons t ts ih =>
      rw [insortF]
      split_ifs
      · exact Iff.rfl
      · rw [sepF, ih, alphaF_insortF]
        conv_rhs => rw [sepF]
        rw [alphaF, inter_union_empty, inter_union_empty,
          inter_swap_empty t.alpha u.alpha]
        tauto

theorem sortedF_tail {t : HTree} {ts : List HTree}
    (h : sortedF (t :: ts)) : sortedF ts := by
  cases ts with
  | nil => trivial
  | cons t2 ts2 => exact h.2

theorem sortedF_head_le {t : HTree} {ts : List HTree}
    (h : sortedF (t :: ts)) : ∀ x ∈ ts, t.cached ≤ x.cached := by
  induction ts generalizing t with
  | nil => intro x hx; cases hx
  | cons t2 ts2 ih =>
      intro x hx
      rcases List.mem_cons.1 hx with hx | hx
      · rw [hx]; exact h.1
      · exact le_trans h.1 (ih h.2 x hx)

theorem insortF_head_shape (u : HTree) (ts : List HTree) (y : HTree)
    (ys : List HTree) (h : insortF u ts = y :: ys) :
    y = u ∨ ∃ zs, ts = y :: zs := by
  cases ts with
  | nil =>
      rw [insortF] at h
      exact Or.inl (List.head_eq_of_cons_eq h).symm
  | cons t ts2 =>
      rw [insortF] at h
      split_ifs at h
      · exact Or.inl (List.head_eq_of_cons_eq h).symm
      · exact Or.inr ⟨ts2, by rw [← List.head_eq_of_cons_eq h]⟩

theorem sortedF_insortF (u : HTree) (ts : List HTree) (h : sortedF ts) :
    sortedF (insortF u ts) := by
  induction ts with
  | nil => rw [insortF]; trivial
  | cons t ts ih =>
      rw [insortF]
      split_ifs with hlt
      · exact ⟨Nat.le_of_lt hlt, h⟩
      · have hrest : sortedF (insortF u ts) := ih (sortedF_tail h)
        rcases hins : insortF u ts with _ | ⟨y, ys⟩
        · exact absurd hins (insortF_ne_nil u ts)
        · rw [hins] at hrest
          refine ⟨?_, hrest⟩
          rcases insortF_head_shape u ts y ys hins with hy | ⟨zs, hy⟩
          · rw [hy]
            exact Nat.le_of_not_lt hlt
          · have := sortedF_head_le h
            exact this y (by rw [hy]; exact List.mem_cons_self y zs)

/-- A forest whose trees are all single leaves. -/
def leafF (ts : List HTree) : Prop :=
  ∀ t ∈ ts, ∃ w a, t = HTree.leaf w a

theorem leafF_insortF (u : HTree) (ts : List HTree)
    (hu : ∃ w a, u = HTree.leaf w a) (h : leafF ts) :
    leafF (insortF u ts) := by
  intro x hx
  rcases (mem_insortF u x ts).1 hx with hx | hx
  · rw [hx]; exact hu
  · exact h x hx

theorem frqF_le (ts : List HTree) (wmin : Nat) (hleaf : leafF ts)
    (hsep : sepF ts) (hbound : ∀ t ∈ ts, wmin ≤ t.cached) :
    ∀ c ∈ alphaF ts, wmin ≤ frqF ts c := by
  induction ts with
  | nil => intro c hc; cases hc
  | cons t ts ih =>
      intro c hc
      obtain ⟨w0, a0, ht⟩ := hleaf t (List.mem_cons_self t ts)
      rcases hsep with ⟨hd, hsp, hsF⟩
      rw [alphaF, Finset.mem_union] at hc
      rw [frqF]
      rcases hc with hc | hc
      · rw [ht] at hc ⊢
        have hca : c = a0 := mem_alpha_leaf.1 hc
        rw [hca, HTree.frq, if_pos rfl]
        have hb0 := hbound t (List.mem_cons_self t ts)
        rw [ht, HTree.cached] at hb0
        omega
      · have hrec := ih (fun x hx => hleaf x (List.mem_cons_of_mem t hx)) hsF
          (fun x hx => hbound x (List.mem_cons_of_mem t hx)) c hc
        omega

theorem optimal_leaf (w a : Nat) : optimalTree (HTree.leaf w a) := by
  intro u _ _ _
  rw [HTree.cost]
  exact Nat.zero_le _

theorem alpha_unite (t1 t2 : HTree) :
    (unite t1 t2).alpha = t1.alpha ∪ t2.alpha := rfl

theorem frq_unite (t1 t2 : HTree) (x : Nat) :
    (unite t1 t2).frq x = t1.frq x + t2.frq x := rfl

theorem huffmanAlg_some (ts : List HTree) (h : ts ≠ []) :
    ∃ t, huffmanAlg ts = some t := by
  induction ts using huffmanAlg.induct with
  | case1 => exact absurd rfl h
  | case2 t => exact ⟨t, by rw [huffmanAlg]⟩
  | case3 t1 t2 ts ih =>
      rw [huffmanAlg]
      exact ih (insortF_ne_nil _ _)

theorem alphaF_huffmanAlg (ts : List HTree) (t : HTree)
    (h : huffmanAlg ts = some t) : t.alpha = alphaF ts := by
  induction ts using huffmanAlg.induct with
  | case1 => rw [huffmanAlg] at h; cases h
  | case2 t0 =>
      rw [huffmanAlg] at h
      cases h
      rw [alphaF, alphaF, Finset.union_empty]
  | case3 t1 t2 ts ih =>
      rw [huffmanAlg] at h
      rw [ih h, alphaF_insortF, alpha_unite, alphaF, alphaF,
        Finset.union_assoc]

theorem frqF_huffmanAlg (ts : List HTree) (t : HTree)
    (h : huffmanAlg ts = some t) (x : Nat) : t.frq x = frqF ts x := by
  induction ts using huffmanAlg.induct with
  | case1 => rw [huffmanAlg] at h; cases h
  | case2 t0 =>
      rw [huffmanAlg] at h
      cases h
      rw [frqF, frqF]
      omega
  | case3 t1 t2 ts ih =>
      rw [huffmanAlg] at h
      rw [ih h, frqF_insortF, frq_unite, frqF, frqF]
      omega

theorem sep_huffmanAlg (ts : List HTree) (t : HTree) (hsep : sepF ts)
    (h : huffmanAlg ts = some t) : t.sep := by
  induction ts using huffmanAlg.induct with
  | case1 => rw [huffmanAlg] at h; cases h
  | case2 t0 =>
      rw [huffmanAlg] at h
      cases h
      exact hsep.2.1
  | case3 t1 t2 ts ih =>
      rw [huffmanAlg] at h
      rcases hsep with ⟨hd1, hs1, hd2, hs2, hsts⟩
      rw [alphaF, inter_union_empty] at hd1
      refine ih ?_ h
      rw [sepF_insortF]
      refine ⟨?_, ⟨hd1.1, hs1, hs2⟩, hsts⟩
      rw [alpha_unite, inter_swap_empty, inter_union_empty]
      exact ⟨(inter_swap_empty _ _).1 hd1.2, (inter_swap_empty _ _).1 hd2⟩

theorem splitLf_unite (t1 t2 : HTree) (wa a wb b : Nat) :
    splitLf (unite t1 t2) wa a wb b
      = unite (splitLf t1 wa a wb b) (splitLf t2 wa a wb b) := by
  unfold unite
  rw [splitLf, cached_splitLf, cached_splitLf]

theorem insortF_map_splitLf (u : HTree) (ts : List HTree)
    (wa a wb b : Nat) :
    List.map (fun t => splitLf t wa a wb b) (insortF u ts)
      = insortF (splitLf u wa a wb b)
          (List.map (fun t => splitLf t wa a wb b) ts) := by
  induction ts with
  | nil => rfl
  | cons t ts ih =>
      rw [insortF]
      split_ifs with hlt
      · rw [List.map_cons, List.map_cons, insortF,
          if_pos (by rw [cached_splitLf, cached_splitLf]; exact hlt)]
      · rw [List.map_cons, List.map_cons, insortF,
          if_neg (by rw [cached_splitLf, cached_splitLf]; exact hlt), ih]

theorem huffmanAlg_map_splitLf (ts : List HTree) (wa a wb b : Nat) :
    huffmanAlg (List.map (fun t => splitLf t wa a wb b) ts)
      = Option.map (fun t => splitLf t wa a wb b) (huffmanAlg ts) := by
  induction ts using huffmanAlg.induct with
  | case1 =>
      rw [List.map_nil, huffmanAlg]
      rfl
  | case2 t =>
      rw [List.map_cons, List.map_nil, huffmanAlg, huffmanAlg]
      rfl
  | case3 t1 t2 ts ih =>
      rw [List.map_cons, List.map_cons, huffmanAlg, huffmanAlg,
        ← splitLf_unite, ← insortF_map_splitLf, ih]

theorem map_splitLf_off (ts : List HTree) (wa a wb b : Nat)
    (h : a ∉ alphaF ts) :
    List.map (fun t => splitLf t wa a wb b) ts = ts := by
  induction ts with
  | nil => rfl
  | cons t ts ih =>
      rw [alphaF, Finset.mem_union] at h
      push_neg at h
      rw [List.map_cons, splitLf_off t wa a wb b h.1, ih h.2]

/-- The greedy merge of a separated, weight-sorted forest of leaves
produces a tree of minimal weighted path length. -/
theorem optimum_huffmanAlg :
    ∀ (nn : Nat) (ts : List HTree) (t : HTree), ts.length = nn →
      leafF ts → sepF ts → sortedF ts → huffmanAlg ts = some t →
      optimalTree t := by
  intro nn
  induction nn using Nat.strong_induction_on with
  | _ nn ih =>
      intro ts t hlen hleaf hsep hsort halg
      match ts, hlen with
      | [], hlen =>
          rw [huffmanAlg] at halg
          cases halg
      | [t0], hlen =>
          rw [huffmanAlg] at halg
          obtain ⟨w0, a0, ht⟩ := hleaf t0 (List.mem_cons_self _ _)
          have ht0 : t = t0 := (Option.some.inj halg).symm
          rw [ht0, ht]
          exact optimal_leaf w0 a0
      | t1 :: t2 :: ts', hlen =>
          obtain ⟨w1, a, ht1⟩ := hleaf t1 (by simp)
          obtain ⟨w2, b, ht2⟩ := hleaf t2 (by simp)
          subst ht1 ht2
          rcases hsep with ⟨hd1, hs1, hd2, hs2, hsts⟩
          have hab : a ≠ b := by
            intro h
            apply noInter hd1 (mem_alpha_leaf.2 rfl)
            rw [alphaF, Finset.mem_union]
            exact Or.inl (mem_alpha_leaf.2 h)
          have hanots : a ∉ alphaF ts' := by
            intro hc
            apply noInter hd1 (mem_alpha_leaf.2 rfl)
            rw [alphaF, Finset.mem_union]
            exact Or.inr hc
          have hbnots : b ∉ alphaF ts' :=
            fun hc => noInter hd2 (mem_alpha_leaf.2 rfl) hc
          have hw12 : w1 ≤ w2 := hsort.1
          have hsort2 : sortedF (HTree.leaf w2 b :: ts') := hsort.2
          have hbound : ∀ x ∈ ts', w2 ≤ x.cached := sortedF_head_le hsort2
          have hlen2 : (insortF (HTree.leaf (w1 + w2) a) ts').length < nn := by
            rw [insortF_length, ← hlen]
            simp [List.length_cons]
          obtain ⟨u, hu⟩ :=
            huffmanAlg_some (insortF (HTree.leaf (w1 + w2) a) ts')
              (insortF_ne_nil _ _)
          have hleaf2 : leafF (insortF (HTree.leaf (w1 + w2) a) ts') :=
            leafF_insortF _ _ ⟨w1 + w2, a, rfl⟩
              (fun x hx => hleaf x (List.mem_cons_of_mem _
                (List.mem_cons_of_mem _ hx)))
          have hsep2 : sepF (insortF (HTree.leaf (w1 + w2) a) ts') := by
            rw [sepF_insortF]
            refine ⟨?_, trivial, hsts⟩
            rw [Finset.eq_empty_iff_forall_not_mem]
            intro x hx
            rw [Finset.mem_inter] at hx
            exact hanots ((mem_alpha_leaf.1 hx.1) ▸ hx.2)
          have hsort3 : sortedF (insortF (HTree.leaf (w1 + w2) a) ts') :=
            sortedF_insortF _ _ (sortedF_tail hsort2)
          have hopt_u : optimalTree u :=
            ih _ hlen2 _ u rfl hleaf2 hsep2 hsort3 hu
          have husep : u.sep := sep_huffmanAlg _ u hsep2 hu
          have hualpha : u.alpha = alphaF (insortF (HTree.leaf (w1 + w2) a) ts') :=
            alphaF_huffmanAlg _ u hu
          have hufrq : ∀ x, u.frq x
              = frqF (insortF (HTree.leaf (w1 + w2) a) ts') x :=
            frqF_huffmanAlg _ u hu
          have hua : a ∈ u.alpha := by
            rw [hualpha, alphaF_insortF, Finset.mem_union]
            exact Or.inl (mem_alpha_leaf.2 rfl)
          have hub : b ∉ u.alpha := by
            rw [hualpha, alphaF_insortF, Finset.mem_union]
            rintro (hc | hc)
            · exact hab (mem_alpha_leaf.1 hc).symm
            · exact hbnots hc
          have hufa : u.frq a = w1 + w2 := by
            rw [hufrq a, frqF_insortF, HTree.frq, if_pos rfl,
              frqF_off ts' a hanots]
            omega
          have hmin : ∀ c ∈ u.alpha, c ≠ a →
              w1 ≤ u.frq c ∧ w2 ≤ u.frq c := by
            intro c hc hca
            have hcts : c ∈ alphaF ts' := by
              rw [hualpha, alphaF_insortF, Finset.mem_union] at hc
              rcases hc with hc | hc
              · exact absurd (mem_alpha_leaf.1 hc) hca
              · exact hc
            have h2 : w2 ≤ frqF ts' c :=
              frqF_le ts' w2
                (fun x hx => hleaf x (List.mem_cons_of_mem _
                  (List.mem_cons_of_mem _ hx)))
                hsts hbound c hcts
            have hfc : u.frq c = frqF ts' c := by
              rw [hufrq c, frqF_insortF, HTree.frq, if_neg hca]
              omega
            constructor
            · rw [hfc]; omega
            · rw [hfc]; exact h2
          have hkey : insortF (unite (HTree.leaf w1 a) (HTree.leaf w2 b)) ts'
              = List.map (fun x => splitLf x w1 a w2 b)
                  (insortF (HTree.leaf (w1 + w2) a) ts') := by
            rw [insortF_map_splitLf, map_splitLf_off ts' w1 a w2 b hanots,
              splitLf, if_pos rfl]
            rfl
          have halg2 : huffmanAlg (HTree.leaf w1 a :: HTree.leaf w2 b :: ts')
              = some (splitLf u w1 a w2 b) := by
            rw [huffmanAlg, hkey, huffmanAlg_map_splitLf, hu]
            rfl
          have hteq : t = splitLf u w1 a w2 b := by
            rw [halg] at halg2
            exact Option.some.inj halg2
          rw [hteq]
          exact optimum_splitLf u w1 a w2 b husep hua hub hab hufa hw12
            hmin hopt_u

/-- Interpret a clean weighted binary tree as the C++ node structure:
leaves keep their symbol, inner nodes carry the `NOT_A_CHAR` marker and
the cached weight as `count`. -/
def fromTree : HTree → HuffmanNode
  | .leaf w a => HuffmanNode.mk a w none none
  | .node w l r =>
      HuffmanNode.mk NOT_A_CHAR w (some (fromTree l)) (some (fromTree r))

theorem count_fromTree (t : HTree) : (fromTree t).count = t.cached := by
  cases t <;> rfl

theorem pqPush_map_fromTree (u : HTree) (ts : List HTree) :
    pqPush (fromTree u) (List.map fromTree ts)
      = List.map fromTree (insortF u ts) := by
  induction ts with
  | nil => rfl
  | cons t ts ih =>
      rw [List.map_cons, pqPush, insortF]
      by_cases hlt : u.cached < t.cached
      · rw [if_pos (by rw [count_fromTree, count_fromTree]; exact hlt),
          if_pos hlt, List.map_cons, List.map_cons]
      · rw [if_neg (by rw [count_fromTree, count_fromTree]; exact hlt),
          if_neg hlt, List.map_cons, ih]

theorem mergeLoop_map_fromTree (ts : List HTree) :
    mergeLoop (List.map fromTree ts) = Option.map fromTree (huffmanAlg ts) := by
  induction ts using huffmanAlg.induct with
  | case1 =>
      rw [List.map_nil, mergeLoop, huffmanAlg]
      rfl
  | case2 t =>
      rw [List.map_cons, List.map_nil, mergeLoop, huffmanAlg]
      rfl
  | case3 t1 t2 ts ih =>
      rw [List.map_cons, List.map_cons, mergeLoop, huffmanAlg]
      have hmk : HuffmanNode.mk NOT_A_CHAR
          ((fromTree t1).count + (fromTree t2).count)
          (some (fromTree t1)) (some (fromTree t2)) = fromTree (unite t1 t2) := by
        rw [count_fromTree, count_fromTree]
        rfl
      rw [hmk, pqPush_map_fromTree, ih]

/-- The sorted forest of leaves built from a frequency map's keys — the
`HTree` image of `pushLeaves`. -/
def leafForest : List Nat → hashmapF → List HTree → List HTree
  | [], _, acc => acc
  | k :: rest, m, acc =>
      leafForest rest m (insortF (HTree.leaf (hmGet m k) k) acc)

theorem pushLeaves_map_fromTree (ks : List Nat) (m : hashmapF)
    (acc : List HTree) :
    pushLeaves ks m (List.map fromTree acc)
      = List.map fromTree (leafForest ks m acc) := by
  induction ks generalizing acc with
  | nil => rfl
  | cons k rest ih =>
      rw [pushLeaves, leafForest,
        show HuffmanNode.mk k (hmGet m k) none none
          = fromTree (HTree.leaf (hmGet m k) k) from rfl,
        pqPush_map_fromTree]
      exact ih _

theorem leafF_leafForest (ks : List Nat) (m : hashmapF) (acc : List HTree)
    (hacc : leafF acc) : leafF (leafForest ks m acc) := by
  induction ks generalizing acc with
  | nil => exact hacc
  | cons k rest ih =>
      rw [leafForest]
      exact ih _ (leafF_insortF _ _ ⟨hmGet m k, k, rfl⟩ hacc)

theorem sortedF_leafForest (ks : List Nat) (m : hashmapF) (acc : List HTree)
    (hacc : sortedF acc) : sortedF (leafForest ks m acc) := by
  induction ks generalizing acc with
  | nil => exact hacc
  | cons k rest ih =>
      rw [leafForest]
      exact ih _ (sortedF_insortF _ _ hacc)

theorem length_leafForest (ks : List Nat) (m : hashmapF) (acc : List HTree) :
    (leafForest ks m acc).length = ks.length + acc.length := by
  induction ks generalizing acc with
  | nil => rw [leafForest, List.length_nil]; omega
  | cons k rest ih =>
      rw [leafForest, ih, insortF_length, List.length_cons]
      omega

theorem alphaF_leafForest (ks : List Nat) (m : hashmapF) (acc : List HTree) :
    alphaF (leafForest ks m acc) = ks.toFinset ∪ alphaF acc := by
  induction ks generalizing acc with
  | nil => simp [leafForest]
  | cons k rest ih =>
      rw [leafForest, ih, alphaF_insortF]
      ext x
      simp only [Finset.mem_union, List.mem_toFinset, List.mem_cons,
        mem_alpha_leaf]
      tauto

theorem frqF_leafForest (ks : List Nat) (m : hashmapF) (acc : List HTree)
    (x : Nat) (hnd : ks.Nodup) :
    frqF (leafForest ks m acc) x
      = (if x ∈ ks then hmGet m x else 0) + frqF acc x := by
  induction ks generalizing acc with
  | nil => simp [leafForest]
  | cons k rest ih =>
      rcases List.nodup_cons.1 hnd with ⟨hk, hnd2⟩
      rw [leafForest, ih _ hnd2, frqF_insortF]
      by_cases hxk : x = k
      · rw [if_neg (by rw [hxk]; exact hk),
          if_pos (by rw [hxk]; exact List.mem_cons_self k rest),
          HTree.frq, if_pos hxk, hxk]
        omega
      · rw [HTree.frq, if_neg hxk]
        by_cases hxr : x ∈ rest
        · rw [if_pos hxr, if_pos (List.mem_cons_of_mem k hxr)]
          omega
        · rw [if_neg hxr, if_neg (by
            rw [List.mem_cons]
            rintro (h | h)
            · exact hxk h
            · exact hxr h)]
          omega

theorem sepF_leafForest (ks : List Nat) (m : hashmapF) (acc : List HTree)
    (hnd : ks.Nodup) (hsacc : sepF acc)
    (hdisj : ∀ k ∈ ks, k ∉ alphaF acc) :
    sepF (leafForest ks m acc) := by
  induction ks generalizing acc with
  | nil => exact hsacc
  | cons k rest ih =>
      rcases List.nodup_cons.1 hnd with ⟨hk, hnd2⟩
      rw [leafForest]
      refine ih _ hnd2 ?_ ?_
      · rw [sepF_insortF]
        refine ⟨?_, trivial, hsacc⟩
        rw [Finset.eq_empty_iff_forall_not_mem]
        intro x hx
        rw [Finset.mem_inter] at hx
        exact hdisj k (List.mem_cons_self k rest)
          ((mem_alpha_leaf.1 hx.1) ▸ hx.2)
      · intro k2 hk2
        rw [alphaF_insortF, Finset.mem_union, mem_alpha_leaf]
        rintro (h | h)
        · exact hk (h ▸ hk2)
        · exact hdisj k2 (List.mem_cons_of_mem k hk2) h

theorem hmGet_cons_self (k v : Nat) (rest : hashmapF) :
    hmGet ((k, v) :: rest) k = v := by
  unfold hmGet
  rw [List.find?_cons_of_pos _ (by simp)]
  rfl

theorem hmGet_cons_ne (p : Nat × Nat) (rest : hashmapF) (k : Nat)
    (hne : k ≠ p.1) :
    hmGet (p :: rest) k = hmGet rest k := by
  unfold hmGet
  rw [List.find?_cons_of_neg _ (by simp [Ne.symm hne])]

theorem leafChars_fromTree (t : HTree) (x : Nat) :
    x ∈ leafChars (fromTree t) ↔ x ∈ t.alpha := by
  induction t with
  | leaf w a =>
      rw [fromTree, leafChars, mem_alpha_leaf]
      simp
  | node w l r ihl ihr =>
      rw [fromTree, leafChars, HTree.alpha]
      simp only [List.mem_append, Finset.mem_union, ihl, ihr]

theorem depthN_fromTree (t : HTree) (x : Nat) :
    depthN (fromTree t) x = t.dep x := by
  induction t with
  | leaf w a => rfl
  | node w l r ihl ihr =>
      rw [fromTree, depthN, HTree.dep]
      by_cases h1 : x ∈ l.alpha
      · rw [if_pos ((leafChars_fromTree l x).2 h1), if_pos h1, ihl]
      · rw [if_neg (fun hc => h1 ((leafChars_fromTree l x).1 hc)), if_neg h1]
        by_cases h2 : x ∈ r.alpha
        · rw [if_pos ((leafChars_fromTree r x).2 h2), if_pos h2, ihr]
        · rw [if_neg (fun hc => h2 ((leafChars_fromTree r x).1 hc)),
            if_neg h2]

theorem wpl_list_sum (h : HTree) (m : hashmapF)
    (hnd : (hmKeys m).Nodup) :
    (List.map (fun p => p.2 * depthN (fromTree h) p.1) m).sum
      = ∑ k ∈ (hmKeys m).toFinset, hmGet m k * h.dep k := by
  induction m with
  | nil => simp [hmKeys]
  | cons p rest ih =>
      have hnd2 : (hmKeys rest).Nodup := (List.nodup_cons.1 hnd).2
      have hp1 : p.1 ∉ hmKeys rest := (List.nodup_cons.1 hnd).1
      rw [List.map_cons, List.sum_cons, ih hnd2, depthN_fromTree]
      have hkeys : hmKeys (p :: rest) = p.1 :: hmKeys rest := rfl
      rw [hkeys, List.toFinset_cons,
        Finset.sum_insert (fun hc => hp1 (List.mem_toFinset.1 hc))]
      have hself : hmGet (p :: rest) p.1 = p.2 := by
        rw [show p = (p.1, p.2) from rfl, hmGet_cons_self]
      rw [hself]
      have hcongr : ∑ k ∈ (hmKeys rest).toFinset, hmGet (p :: rest) k * h.dep k
          = ∑ k ∈ (hmKeys rest).toFinset, hmGet rest k * h.dep k := by
        refine Finset.sum_congr rfl (fun k hk => ?_)
        rw [hmGet_cons_ne p rest k
          (fun hc => hp1 (hc ▸ List.mem_toFinset.1 hk))]
      rw [hcongr]

theorem wpl_eq_cost (m : hashmapF) (h : HTree)
    (hnd : (hmKeys m).Nodup) (hsep : h.sep)
    (halpha : h.alpha = (hmKeys m).toFinset)
    (hfrq : ∀ k ∈ hmKeys m, h.frq k = hmGet m k) :
    wpl m (fromTree h) = h.cost := by
  unfold wpl
  rw [wpl_list_sum h m hnd, HTree.cost_eq_sum h hsep, halpha]
  refine Finset.sum_congr rfl (fun k hk => ?_)
  rw [hfrq k (List.mem_toFinset.1 hk)]

/-- The bridge: `buildEncodingTree` computes the image under `fromTree`
of the greedy merge on the `HTree` leaf forest, which is optimal. -/
theorem buildEncodingTree_optimal (m : hashmapF)
    (hnd : (hmKeys m).Nodup) (hne : hmKeys m ≠ []) :
    ∃ h : HTree,
      buildEncodingTree m = some (fromTree h) ∧ h.sep ∧
      h.alpha = (hmKeys m).toFinset ∧
      (∀ x, h.frq x = if x ∈ hmKeys m then hmGet m x else 0) ∧
      optimalTree h := by
  have hFne : leafForest (hmKeys m) m [] ≠ [] := by
    intro hc
    have hlen := length_leafForest (hmKeys m) m []
    rw [hc] at hlen
    simp at hlen
    exact hne (List.length_eq_zero.1 hlen.symm)
  obtain ⟨h, hh⟩ := huffmanAlg_some (leafForest (hmKeys m) m []) hFne
  have hsepF : sepF (leafForest (hmKeys m) m []) :=
    sepF_leafForest _ _ _ hnd trivial
      (fun k _ => by rw [alphaF]; exact Finset.not_mem_empty k)
  have hsortF : sortedF (leafForest (hmKeys m) m []) :=
    sortedF_leafForest _ _ _ trivial
  have hleafF : leafF (leafForest (hmKeys m) m []) :=
    leafF_leafForest _ _ _ (fun t ht => absurd ht (List.not_mem_nil t))
  have hopt : optimalTree h :=
    optimum_huffmanAlg _ _ h rfl hleafF hsepF hsortF hh
  have hsep : h.sep := sep_huffmanAlg _ h hsepF hh
  have halpha : h.alpha = (hmKeys m).toFinset := by
    rw [alphaF_huffmanAlg _ h hh, alphaF_leafForest]
    rw [alphaF, Finset.union_empty]
  have hfrq : ∀ x, h.frq x = if x ∈ hmKeys m then hmGet m x else 0 := by
    intro x
    rw [frqF_huffmanAlg _ h hh x, frqF_leafForest _ _ _ x hnd, frqF]
    omega
  refine ⟨h, ?_, hsep, halpha, hfrq, hopt⟩
  unfold buildEncodingTree
  rw [show pushLeaves (hmKeys m) m [] =
        pushLeaves (hmKeys m) m (List.map fromTree []) from rfl,
    pushLeaves_map_fromTree, mergeLoop_map_fromTree, hh]
  rfl

/-- **C3**: for every frequency model built by `buildFrequencyMap`, the
tree returned by `buildEncodingTree` exists and its weighted path length
(`wpl`: the sum over the model's symbols of count times depth) is minimal
among all binary prefix-code trees (`HTree`s with one leaf per symbol)
carrying exactly the model's symbols and weights. -/
theorem buildEncodingTree_optimal_spec (filename fileContents : List Nat)
    (isFile : Bool) :
    ∃ root,
      buildEncodingTree (buildFrequencyMap filename isFile fileContents [])
        = some root ∧
      ∀ u : HTree, u.sep →
        u.alpha = (hmKeys (buildFrequencyMap filename isFile
          fileContents [])).toFinset →
        (∀ x, u.frq x =
          if x ∈ hmKeys (buildFrequencyMap filename isFile fileContents [])
          then hmGet (buildFrequencyMap filename isFile fileContents []) x
          else 0) →
        wpl (buildFrequencyMap filename isFile fileContents []) root
          ≤ ∑ x ∈ u.alpha, u.frq x * u.dep x := by
  have hnd := buildFrequencyMap_nodup filename isFile fileContents
  have hne : hmKeys (buildFrequencyMap filename isFile fileContents []) ≠ [] := by
    intro hc
    have hmem : PSEUDO_EOF ∈ hmKeys (buildFrequencyMap filename isFile
        fileContents []) :=
      (buildFrequencyMap_mem_keys filename isFile fileContents PSEUDO_EOF).2
        (Or.inr rfl)
    rw [hc] at hmem
    cases hmem
  obtain ⟨h, hroot, hsep, halpha, hfrq, hopt⟩ :=
    buildEncodingTree_optimal _ hnd hne
  refine ⟨fromTree h, hroot, ?_⟩
  intro u husep hualpha hufrq
  have hwpl : wpl (buildFrequencyMap filename isFile fileContents [])
      (fromTree h) = h.cost :=
    wpl_eq_cost _ h hnd hsep halpha
      (fun k hk => by rw [hfrq k, if_pos hk])
  rw [hwpl, ← HTree.cost_eq_sum u husep]
  exact hopt u husep (halpha.trans hualpha.symm)
    (funext fun x => by rw [hfrq x, hufrq x])

end HuffmanCpp
